import Mathlib

/-!
# Verification of the fantoch_ core against its specification

Shallow embedding of the core of the `fantoch_` repository:

* `fantoch/src/store.rs` — the KV storage engine (`Storage`, `StorageOp`,
  `do_execute_op`, `get_n_deps_by_cmd`);
* `fantoch/src/command.rs` — `Command::new`, `conflicts`, `shard_to_keys`;
* `fantoch_ps/src/protocol/common/graph/deps/keys/mrvs.rs` — the MRV
  dependency tracker (`MultiRecordValues`);
* `src/protocol/atlas/queue/mod.rs` — the dependency-graph queue.

Conventions used throughout:

* Rust `u16` values are modelled as `Nat` with the `u16` bounds explicit in
  the operations (`checked_add` / `checked_sub` saturation is written out with
  `VALUE_MAX`).  Intermediate `u16` sums (which could overflow and panic in a
  Rust debug build) are modelled as unbounded `Nat` sums; theorems that depend
  on such sums carry hypotheses keeping them inside `u16` range where needed.
* `HashMap` becomes an association list without duplicate keys; `HashSet`
  becomes a list with membership-guarded insertion.
* Rust panics (assertion failures and out-of-range indexing) are modelled by
  returning `none` from an `Option`-valued embedding.
* Calls to `rand::thread_rng().gen_range(0..n)` are modelled by passing the
  drawn number `r` as an explicit argument.
-/

namespace Fantoch

/-- `Key` from `fantoch/src/store.rs`: `pub type Key = String`. -/
abbrev Key := String

/-- `u16::MAX`, the saturation bound for the `Value` type (`Value::MAX`).
`Value = u16` from `fantoch/src/store.rs` is modelled as `Nat` throughout,
with saturation at this bound made explicit in the operations. -/
def VALUE_MAX : Nat := 65535

/-- `StorageOp` from `fantoch/src/store.rs`. -/
inductive StorageOp where
  | get : StorageOp
  | put : Nat → StorageOp
  | add : Nat → StorageOp
  | subtract : Nat → StorageOp
  | delete : StorageOp
deriving DecidableEq

/-- `StorageOpResult` from `fantoch/src/store.rs`: `Option<Value>`. -/
abbrev StorageOpResult := Option Nat

/-- Lookup in the `HashMap<Key, Vec<Value>>` backing the store, modelled as an
association list (the embedding never creates duplicate keys). -/
def storeGet (store : List (Key × List Nat)) (key : Key) : Option (List Nat) :=
  match store with
  | [] => none
  | (k, vs) :: rest => if k = key then some vs else storeGet rest key

/-- `HashMap::insert`: replace the binding for `key` if present, else add it. -/
def storeInsert (store : List (Key × List Nat)) (key : Key) (vs : List Nat) :
    List (Key × List Nat) :=
  match store with
  | [] => [(key, vs)]
  | (k, ws) :: rest =>
    if k = key then (key, vs) :: rest else (k, ws) :: storeInsert rest key vs

/-- `HashMap::remove`: drop the binding for `key`. -/
def storeRemove (store : List (Key × List Nat)) (key : Key) : List (Key × List Nat) :=
  match store with
  | [] => []
  | (k, ws) :: rest => if k = key then rest else (k, ws) :: storeRemove rest key

/-- `Storage` from `fantoch/src/store.rs`.  The `monitor` field (the optional
execution-order monitor) is omitted: `do_execute_op` and `get_n_deps_by_cmd`
never read it, and no claim mentions it. -/
structure Storage where
  store : List (Key × List Nat)
  isKvStorage : Bool
  number : Nat
deriving DecidableEq

/-- `Storage::new` (monitor argument dropped, see `Storage`):
`number = n.unwrap_or(1)`. -/
def Storage.new (isKvStorage : Bool) (n : Option Nat) : Storage :=
  { store := [], isKvStorage := isKvStorage, number := n.getD 1 }

/-- Sum of the cell values of `values` at the given indices, each read with
`unwrap_or(&0)` semantics for out-of-range indices; this is the sum computed by
the MRV `Subtract` branch of `do_execute_op`. -/
def sumAt (values : List Nat) (idxs : List Nat) : Nat :=
  (idxs.map (fun index => (values.get? index).getD 0)).sum

/-- The deduction loop of `do_execute_op`'s MRV `Subtract` branch
(`fantoch/src/store.rs`, lines 258-271): walk the indices in order, zeroing
each cell whose value fits in the remaining amount, and stop (`break`) at the
first cell larger than the remaining amount.  Indices out of range are skipped
(`if let Some(entry) = old_vec.get_mut(index)`). -/
def subtractWalk (oldVec : List Nat) (remaining : Nat) (nDeps : List Nat) : List Nat :=
  match nDeps with
  | [] => oldVec
  | index :: rest =>
    match oldVec.get? index with
    | none => subtractWalk oldVec remaining rest
    | some entry =>
      if entry ≤ remaining then subtractWalk (oldVec.set index 0) (remaining - entry) rest
      else oldVec.set index (entry - remaining)

/-- `Storage::do_execute_op` from `fantoch/src/store.rs`.  Returns `none` on a
Rust panic (out-of-range vector indexing); otherwise returns the updated
storage and the `StorageOpResult`. -/
def Storage.doExecuteOp (st : Storage) (key : Key) (op : StorageOp) (nDeps : List Nat) :
    Option (Storage × StorageOpResult) :=
  match op with
  | .get =>
    match storeGet st.store key with
    | none => some (st, none)
    | some values => some (st, some values.sum)
  | .delete =>
    match storeGet st.store key with
    | none => some (st, none)
    | some values =>
      some ({ st with store := storeRemove st.store key }, some values.sum)
  | .put value =>
    if st.isKvStorage then
      some ({ st with store := storeInsert st.store key [value] }, some value)
    else
      match nDeps with
      | index :: _ =>
        if index < st.number then
          some ({ st with
            store := storeInsert st.store key ((List.replicate st.number 0).set index value) },
            some value)
        else none
      | [] =>
        if 0 < st.number then
          some ({ st with
            store := storeInsert st.store key ((List.replicate st.number 0).set 0 value) },
            some value)
        else none
  | .add value =>
    let index := if st.isKvStorage then 0 else (match nDeps with | [] => 0 | i :: _ => i)
    match storeGet st.store key with
    | some oldValue =>
      match oldValue.get? index with
      | some c =>
        let newValue := if c + value ≤ VALUE_MAX then c + value else VALUE_MAX
        some ({ st with store := storeInsert st.store key (oldValue.set index newValue) },
          some newValue)
      | none => none
    | none =>
      if index < st.number then
        some ({ st with
          store := storeInsert st.store key ((List.replicate st.number 0).set index value) },
          some value)
      else none
  | .subtract value =>
    if st.isKvStorage then
      match storeGet st.store key with
      | some oldValue =>
        match oldValue.get? 0 with
        | some c =>
          let newValue := if value ≤ c then c - value else 0
          some ({ st with store := storeInsert st.store key (oldValue.set 0 newValue) },
            some newValue)
        | none => none
      | none => some (st, none)
    else
      match storeGet st.store key with
      | some oldVec =>
        if sumAt oldVec nDeps < value then some (st, none)
        else
          some ({ st with store := storeInsert st.store key (subtractWalk oldVec value nDeps) },
            some value)
      | none => some (st, none)

/-- The greedy walk of `Storage::get_n_deps_by_cmd`'s `Subtract` branch
(`fantoch/src/store.rs`, lines 104-136), with the two `for` loops
(`n..self.number` then `0..n`) fused into one walk over their concatenated
index sequence: before each index the consumed total is checked against the
target (`return Some(vec)`), otherwise the cell value is consumed and the index
pushed; the final check corresponds to the code after both loops.
`values[i]` (a Rust panic when out of range) is modelled with default `0`; the
theorems assume `values.length = st.number`, which puts every walked index in
range. -/
def subSelect (values : List Nat) (value : Nat) :
    List Nat → List Nat → Nat → Option (List Nat)
  | [], acc, consumed => if value ≤ consumed then some acc else none
  | i :: rest, acc, consumed =>
    if value ≤ consumed then some acc
    else subSelect values value rest (acc ++ [i]) (consumed + (values.get? i).getD 0)

/-- `Storage::get_n_deps_by_cmd` from `fantoch/src/store.rs`.  The random
draw `rand::thread_rng().gen_range(0..self.number)` is modelled by the
explicit argument `r`. -/
def Storage.getNDepsByCmd (st : Storage) (key : Key) (op : StorageOp) (r : Nat) :
    Option (List Nat) :=
  match op with
  | .delete | .get | .put _ => some (List.range st.number)
  | .add _ => some [r]
  | .subtract value =>
    match storeGet st.store key with
    | none => none
    | some values =>
      subSelect values value (List.range' r (st.number - r) ++ List.range r) [r] 0


/-! ## Command (`fantoch/src/command.rs`) and identifier types -/

/-- `Rifl` from fantoch's id module: `(ClientId, u64)`. -/
structure Rifl where
  src : Nat
  seq : Nat
deriving DecidableEq

/-- `Dot` from fantoch's id module: `(ProcessId, u64)`. -/
structure Dot where
  src : Nat
  seq : Nat
deriving DecidableEq

/-- Generic association-list lookup, modelling `HashMap::get` (the embedding
never creates duplicate keys). -/
def lookupA {κ α : Type} [DecidableEq κ] (m : List (κ × α)) (k : κ) : Option α :=
  match m with
  | [] => none
  | (k2, v) :: rest => if k2 = k then some v else lookupA rest k

/-- Generic association-list insert, modelling `HashMap::insert`. -/
def insertA {κ α : Type} [DecidableEq κ] (m : List (κ × α)) (k : κ) (v : α) :
    List (κ × α) :=
  match m with
  | [] => [(k, v)]
  | (k2, w) :: rest =>
    if k2 = k then (k, v) :: rest else (k2, w) :: insertA rest k v

/-- `Command` from `fantoch/src/command.rs`: rifl, the per-shard key→ops map,
and the `shard_to_keys` index built by `Command::new`.  (`ShardId = u64` is
modelled as `Nat`.)  The `shard_to_n_deps_ops` field — whose per-key values
are always `Arc(vec![])` — is not modelled: nothing reads it; the duplicate
key push performed while building it is reflected in `Command.new`. -/
structure Command where
  rifl : Rifl
  shardToOps : List (Nat × List (Key × List StorageOp))
  shardToKeys : List (Nat × List Key)
deriving DecidableEq

/-- One `shard_to_keys.entry(shard_id).or_default().push(key)` step of
`Command::new`. -/
def keysPush (m : List (Nat × List Key)) (shard : Nat) (key : Key) :
    List (Nat × List Key) :=
  match m with
  | [] => [(shard, [key])]
  | (s, ks) :: rest =>
    if s = shard then (s, ks ++ [key]) :: rest else (s, ks) :: keysPush rest shard key

/-- One pass of `Command::new` over `shard_to_ops`, pushing every key of every
shard into the `shard_to_keys` accumulator. -/
def buildShardToKeys (m : List (Nat × List Key))
    (shardToOps : List (Nat × List (Key × List StorageOp))) : List (Nat × List Key) :=
  shardToOps.foldl (fun acc p => p.2.foldl (fun acc2 kv => keysPush acc2 p.1 kv.1) acc) m

/-- `Command::new` from `fantoch/src/command.rs`.  `shard_to_keys` is
populated twice: once while mapping `shard_to_ops` into its `Arc`-wrapped form
(lines 44-53) and once more while building `shard_to_n_deps_ops` (lines
69-78, a copy of the same push loop), so every key ends up listed twice per
shard. -/
def Command.new (rifl : Rifl)
    (shardToOps : List (Nat × List (Key × List StorageOp))) : Command :=
  { rifl := rifl
    shardToOps := shardToOps
    shardToKeys := buildShardToKeys (buildShardToKeys [] shardToOps) shardToOps }

/-- `Command::read_only`: every op of every key of every shard is a `Get`. -/
def Command.readOnly (c : Command) : Bool :=
  c.shardToOps.all (fun p => p.2.all (fun kv => kv.2.all (fun op => decide (op = .get))))

/-- `Command::total_key_count`. -/
def Command.totalKeyCount (c : Command) : Nat :=
  (c.shardToOps.map (fun p => p.2.length)).sum

/-- `Command::keys(shard_id)`: the keys this command accesses on a shard. -/
def Command.keys (c : Command) (shard : Nat) : List Key :=
  match lookupA c.shardToOps shard with
  | some shardOps => shardOps.map Prod.fst
  | none => []

/-- `Command::operations(shard_id, key)`. -/
def Command.operations (c : Command) (shard : Nat) (key : Key) : List StorageOp :=
  match lookupA c.shardToOps shard with
  | some shardOps =>
    match lookupA shardOps key with
    | some ops => ops
    | none => []
  | none => []

/-- `Command::contains_key`. -/
def Command.containsKey (c : Command) (shard : Nat) (key : Key) : Bool :=
  match lookupA c.shardToOps shard with
  | some shardOps => (lookupA shardOps key).isSome
  | none => false

/-- `Command::conflicts`: some `(shard, key)` pair appears in both commands. -/
def Command.conflicts (c other : Command) : Bool :=
  c.shardToOps.any (fun p => p.2.any (fun kv => other.containsKey p.1 kv.1))

/-! ## The MRV dependency tracker
(`fantoch_ps/src/protocol/common/graph/deps/keys/mrvs.rs`) -/

/-- `Dependency` from the deps module: a dot plus the set of shards that see
the conflict; `PartialEq`/`Hash` are by `dot` alone, so `HashSet<Dependency>`
membership is by dot.  Modelled from the spec: the defining file
(`deps/keys/mod.rs`) is not in the source tree, only its user `mrvs.rs`;
spec §3 says "Dependency {dot, shards_touched_set} — identifies a predecessor
and the shards that see the conflict.  Equality is by dot." -/
structure Dependency where
  dot : Dot
  shards : List Nat
deriving DecidableEq

/-- `Dependency::from_cmd(dot, cmd)` (modelled from the spec, as for
`Dependency`): the shards are those the command touches. -/
def Dependency.fromCmd (dot : Dot) (cmd : Command) : Dependency :=
  { dot := dot, shards := cmd.shardToOps.map Prod.fst }

/-- `Dependency::from_noop(dot)` (modelled from the spec, as for
`Dependency`); a noop carries no shard set.  Only the `dot` matters for
membership. -/
def Dependency.fromNoop (dot : Dot) : Dependency :=
  { dot := dot, shards := [] }

/-- `HashSet<Dependency>` membership: by dot. -/
def depsMem (deps : List Dependency) (d : Dependency) : Bool :=
  deps.any (fun e => decide (e.dot = d.dot))

/-- Membership of a dot in a dependency set. -/
def depsMemDot (deps : List Dependency) (t : Dot) : Bool :=
  deps.any (fun e => decide (e.dot = t))

/-- `HashSet::insert` on a dependency set: keep the existing element when one
with the same dot is present. -/
def depsInsert (deps : List Dependency) (d : Dependency) : List Dependency :=
  if depsMem deps d then deps else d :: deps

/-- `LatestRWDep` from the deps module (spec §3: `read` may be present only
for read-only commands, `write` for any non-read-only). -/
structure LatestRWDep where
  read : Option Dependency
  write : Option Dependency
deriving DecidableEq

/-- Modelled from the spec: the constant `DEFAULT_N_MRV` is referenced by
`mrvs.rs` but defined nowhere in the source tree
(`fantoch_ps/src/protocol/mod.rs` does not declare it).  Spec §3: "N is a
fixed parameter (typical 10-20)"; spec §8 scenario S6 fixes "With N=10". -/
def DEFAULT_N_MRV : Nat := 10

/-- `LatestRWDepArray` from `mrvs.rs`. -/
structure LatestRWDepArray where
  data : List LatestRWDep
  n : Nat
deriving DecidableEq

/-- `LatestRWDepArray::default()`: `DEFAULT_N_MRV` empty slots (note: the
global constant, not the tracker's `n_mrv` field). -/
def LatestRWDepArray.default : LatestRWDepArray :=
  { data := List.replicate DEFAULT_N_MRV { read := none, write := none }, n := DEFAULT_N_MRV }

/-- `MultiRecordValues` from `mrvs.rs`. -/
structure MultiRecordValues where
  shardId : Nat
  nfr : Bool
  nMrv : Nat
  latest : List (Key × LatestRWDepArray)
  latestNoop : Option Dependency
deriving DecidableEq

/-- `MultiRecordValues::new`. -/
def MultiRecordValues.new (shardId : Nat) (nfr : Bool) (nMrv : Nat) :
    MultiRecordValues :=
  { shardId := shardId, nfr := nfr, nMrv := nMrv, latest := [], latestNoop := none }

/-- `maybe_add_deps` from the deps module.  Modelled from the spec: the
defining file (`deps/keys/mod.rs`) is not in the source tree.  Spec §4.2:
"Read-only commands conflict with prior writes; writes conflict with prior
reads and writes.  NFR (non-fault-tolerant read) optimization: when enabled, a
single-key read-only command does not register itself as a conflict source."
Hence the latest write is always a dependency, and the latest read is a
dependency only for a non-read-only command with NFR disabled (under NFR a
registered read is never served as a conflict, which is exactly how a read
avoids being a conflict source given that `mrvs.rs` stores it
unconditionally). -/
def maybeAddDeps (readOnly nfr : Bool) (latestRW : LatestRWDep)
    (deps : List Dependency) : List Dependency :=
  let deps1 := match latestRW.write with
    | some wdep => depsInsert deps wdep
    | none => deps
  if !readOnly && !nfr then
    match latestRW.read with
    | some rdep => depsInsert deps1 rdep
    | none => deps1
  else deps1

/-- The latest read/write slot array for `key` as seen by `do_add_cmd`: the
indexed entry, or a fresh `LatestRWDepArray::default()` when absent. -/
def MultiRecordValues.arrAt (s : MultiRecordValues) (key : Key) : LatestRWDepArray :=
  (lookupA s.latest key).getD LatestRWDepArray.default

/-- The write dependency currently registered at sub-index `n` of `key`. -/
def MultiRecordValues.writeDepAt (s : MultiRecordValues) (key : Key) (n : Nat) :
    Option Dependency :=
  ((s.arrAt key).data.get? n).bind (fun slot => slot.write)

/-- The read dependency currently registered at sub-index `n` of `key`. -/
def MultiRecordValues.readDepAt (s : MultiRecordValues) (key : Key) (n : Nat) :
    Option Dependency :=
  ((s.arrAt key).data.get? n).bind (fun slot => slot.read)

/-- The state update of one `do_add_cmd` slot visit: store the updated slot
at `(key, n)` (`self.latest` entry for `key`, sub-index `n`), creating the
entry from `LatestRWDepArray::default()` when the key is new (`arrAt`). -/
def mrvSetSlot (s : MultiRecordValues) (key : Key) (n : Nat) (slot : LatestRWDep) :
    MultiRecordValues :=
  { s with
    latest := insertA s.latest key
      { data := (s.arrAt key).data.set n slot, n := (s.arrAt key).n } }

/-- One iteration of `do_add_cmd`'s inner `for n in op_n_deps` loop
(`mrvs.rs` lines 119-149): fetch the slot at `(key, n)` (creating the default
array if the key is new; `none` models the `panic!("Something went wrong")` /
out-of-range indexing when `n` is not a valid sub-index), run
`maybe_add_deps`, then register the command as the new latest read (if
read-only) or write. -/
def mrvVisitSlot (s : MultiRecordValues) (readOnly : Bool) (cmdDep : Dependency)
    (key : Key) (n : Nat) (deps : List Dependency) :
    Option (MultiRecordValues × List Dependency) :=
  match (s.arrAt key).data.get? n with
  | none => none
  | some latestRW =>
    some (mrvSetSlot s key n
      (if readOnly then { latestRW with read := some cmdDep }
       else { latestRW with write := some cmdDep }),
      maybeAddDeps readOnly s.nfr latestRW deps)

/-- The whole `for n in op_n_deps` loop. -/
def mrvVisitSlots (s : MultiRecordValues) (readOnly : Bool) (cmdDep : Dependency)
    (key : Key) (ns : List Nat) (deps : List Dependency) :
    Option (MultiRecordValues × List Dependency) :=
  match ns with
  | [] => some (s, deps)
  | n :: rest =>
    match mrvVisitSlot s readOnly cmdDep key n deps with
    | none => none
    | some (s2, deps2) => mrvVisitSlots s2 readOnly cmdDep key rest deps2

/-- The sub-index list drawn by `do_add_cmd` when `keys_deps` has no entry for
an op (`mrvs.rs` lines 84-116).  `r` models the fresh
`rand::thread_rng().gen_range(0..DEFAULT_N_MRV)` draw, and `kSub` the constant
`DEFAULT_K_SUB_MRV`, which is referenced by `mrvs.rs` but defined nowhere in
the source tree, so it stays a parameter (the theorems hold for every value):
`Add` takes the single random index, `Get`/`Delete`/`Put` take all
`DEFAULT_N_MRV` indices, and `Subtract` pushes `(r + i) % DEFAULT_N_MRV` for
`i in r..DEFAULT_K_SUB_MRV`. -/
def mrvChoose (kSub r : Nat) (op : StorageOp) : List Nat :=
  match op with
  | .add _ => [r]
  | .delete | .get | .put _ => List.range DEFAULT_N_MRV
  | .subtract _ => (List.range' r (kSub - r)).map (fun i => (r + i) % DEFAULT_N_MRV)

/-- The `for (index, op) in operations.enumerate()` loop of `do_add_cmd`
(`mrvs.rs` lines 79-150).  `rand index` models the fresh random draw for the
op at `index`.  A missing `keys_deps` entry for `index` is drawn with
`mrvChoose` and recorded; since `index` grows one past the entry list's length
at each miss, the Rust `Vec::insert(index, vec)` is an append. -/
def mrvProcessOps (readOnly : Bool) (cmdDep : Dependency) (key : Key)
    (kSub : Nat) (rand : Nat → Nat) :
    List StorageOp → Nat → MultiRecordValues → List (List Nat) → List Dependency →
    Option (MultiRecordValues × List (List Nat) × List Dependency)
  | [], _, s, nKeyDep, deps => some (s, nKeyDep, deps)
  | op :: rest, index, s, nKeyDep, deps =>
    let pick : List Nat × List (List Nat) :=
      match nKeyDep.get? index with
      | some value => (value, nKeyDep)
      | none => (mrvChoose kSub (rand index) op, nKeyDep ++ [mrvChoose kSub (rand index) op])
    match mrvVisitSlots s readOnly cmdDep key pick.1 deps with
    | none => none
    | some (s2, deps2) =>
      mrvProcessOps readOnly cmdDep key kSub rand rest (index + 1) s2 pick.2 deps2

/-- The `cmd.keys(self.shard_id).for_each(|key| …)` loop of `do_add_cmd`:
process every key's op list, updating the per-key `keys_deps` entry
(`entry(key).or_insert(Vec::new)`, mutated in place). -/
def mrvProcessKeys (readOnly : Bool) (cmdDep : Dependency) (cmd : Command)
    (shardId : Nat) (kSub : Nat) (rand : Key → Nat → Nat) :
    List Key → MultiRecordValues → List (Key × List (List Nat)) → List Dependency →
    Option (MultiRecordValues × List (Key × List (List Nat)) × List Dependency)
  | [], s, keysDeps, deps => some (s, keysDeps, deps)
  | key :: restKeys, s, keysDeps, deps =>
    match mrvProcessOps readOnly cmdDep key kSub (rand key) (cmd.operations shardId key)
        0 s ((lookupA keysDeps key).getD []) deps with
    | none => none
    | some (s2, nKeyDep2, deps2) =>
      mrvProcessKeys readOnly cmdDep cmd shardId kSub rand restKeys s2
        (insertA keysDeps key nKeyDep2) deps2

/-- The set (as a flattened list) of sub-indices in the `keys_deps` entry for
`key`: the union over the per-op index lists, i.e. the chosen MRV sub-index
set of a command on `key`. -/
def entryFlatten (keysDeps : List (Key × List (List Nat))) (key : Key) : List Nat :=
  ((lookupA keysDeps key).getD []).flatten

/-- `maybe_add_noop_latest` from `mrvs.rs`. -/
def MultiRecordValues.maybeAddNoopLatest (s : MultiRecordValues)
    (deps : List Dependency) : List Dependency :=
  match s.latestNoop with
  | some dep => depsInsert deps dep
  | none => deps

/-- `MultiRecordValues::do_add_cmd` from `mrvs.rs`.  Returns the updated
tracker, the computed dependency set and the updated `keys_deps`; `none`
models the `assert!` failure (NFR with a multi-key read) or an out-of-range
sub-index panic.  `kSub` and `rand` model `DEFAULT_K_SUB_MRV` and the
per-(key, op)-draws of `thread_rng` (see `mrvChoose`). -/
def MultiRecordValues.doAddCmd (s : MultiRecordValues) (kSub : Nat)
    (rand : Key → Nat → Nat) (dot : Dot) (cmd : Command)
    (deps : List Dependency) (keysDeps : List (Key × List (List Nat))) :
    Option (MultiRecordValues × List Dependency × List (Key × List (List Nat))) :=
  if s.nfr && cmd.readOnly && decide (cmd.totalKeyCount ≠ 1) then none
  else
    match mrvProcessKeys cmd.readOnly (Dependency.fromCmd dot cmd) cmd s.shardId kSub rand
        (cmd.keys s.shardId) s keysDeps deps with
    | none => none
    | some (s2, keysDeps2, deps2) =>
      some (s2, s2.maybeAddNoopLatest deps2, keysDeps2)

/-- `MultiRecordValues::add_cmd`: start from `past` (or empty) and from the
supplied `keys_deps` (or empty). -/
def MultiRecordValues.addCmd (s : MultiRecordValues) (kSub : Nat)
    (rand : Key → Nat → Nat) (dot : Dot) (cmd : Command)
    (past : Option (List Dependency))
    (keysDeps : Option (List (Key × List (List Nat)))) :
    Option (MultiRecordValues × List Dependency × List (Key × List (List Nat))) :=
  s.doAddCmd kSub rand dot cmd (past.getD []) (keysDeps.getD [])

/-- `MultiRecordValues::do_noop_deps`: add every registered latest read and
write of every key to `deps`. -/
def MultiRecordValues.doNoopDeps (s : MultiRecordValues)
    (deps : List Dependency) : List Dependency :=
  s.latest.foldl (fun acc p =>
    p.2.data.foldl (fun acc2 latestRW =>
      let acc3 := match latestRW.read with
        | some rdep => depsInsert acc2 rdep
        | none => acc2
      match latestRW.write with
      | some wdep => depsInsert acc3 wdep
      | none => acc3) acc) deps

/-- `MultiRecordValues::do_add_noop`: replace `latest_noop` (the previous one,
if any, becomes a dependency), then take all latest reads and writes. -/
def MultiRecordValues.doAddNoop (s : MultiRecordValues) (dot : Dot)
    (deps : List Dependency) : MultiRecordValues × List Dependency :=
  ({ s with latestNoop := some (Dependency.fromNoop dot) },
    MultiRecordValues.doNoopDeps { s with latestNoop := some (Dependency.fromNoop dot) }
      (match s.latestNoop with
       | some dep => depsInsert deps dep
       | none => deps))

/-- `MultiRecordValues::add_noop`. -/
def MultiRecordValues.addNoop (s : MultiRecordValues) (dot : Dot) :
    MultiRecordValues × List Dependency :=
  s.doAddNoop dot []

/-- An event fed to the MRV tracker: either `add_cmd` (with its
`DEFAULT_K_SUB_MRV` value, random draws, dot, command, past and `keys_deps`
arguments) or `add_noop`. -/
inductive MrvEvent where
  | addCmd : Nat → (Key → Nat → Nat) → Dot → Command → List Dependency →
      List (Key × List (List Nat)) → MrvEvent
  | addNoop : Dot → MrvEvent

/-- The dot an event registers. -/
def MrvEvent.dot : MrvEvent → Dot
  | .addCmd _ _ d _ _ _ => d
  | .addNoop d => d

/-- Whether the event is a noop. -/
def MrvEvent.isNoop : MrvEvent → Bool
  | .addCmd _ _ _ _ _ _ => false
  | .addNoop _ => true

/-- The `past` dependency set supplied with the event (empty for noops). -/
def MrvEvent.past : MrvEvent → List Dependency
  | .addCmd _ _ _ _ past _ => past
  | .addNoop _ => []

/-- Run a sequence of `add_cmd` / `add_noop` calls against the tracker,
collecting the dependency set returned by each call (`none` on a panic). -/
def mrvRun : MultiRecordValues → List MrvEvent →
    Option (MultiRecordValues × List (List Dependency))
  | s, [] => some (s, [])
  | s, .addCmd kSub rand dot cmd past kd :: rest =>
    match s.doAddCmd kSub rand dot cmd past kd with
    | none => none
    | some (s2, deps, _) =>
      match mrvRun s2 rest with
      | none => none
      | some (sf, outs) => some (sf, deps :: outs)
  | s, .addNoop dot :: rest =>
    match mrvRun (s.addNoop dot).1 rest with
    | none => none
    | some (sf, outs) => some (sf, (s.addNoop dot).2 :: outs)

/-- Concrete scenario of spec §8 S6: two `Add("A", 1)` commands.  First
command (client 1). -/
def c2cmd1 : Command := Command.new (Rifl.mk 1 1) [(0, [("A", [StorageOp.add 1])])]

/-- Second `Add("A", 1)` command (client 2). -/
def c2cmd2 : Command := Command.new (Rifl.mk 2 1) [(0, [("A", [StorageOp.add 1])])]

/-- The outcome type of `do_add_cmd`; instance synthesis does not find the
product instance on its own. -/
instance : DecidableEq (MultiRecordValues × List Dependency × List (Key × List (List Nat))) :=
  fun a b => instDecidableEqProd a b

/-- Result of adding `c2cmd1` (dot `1.1`, chosen sub-index `3`) to a fresh
tracker. -/
def c2out1 : MultiRecordValues × List Dependency × List (Key × List (List Nat)) :=
  ((MultiRecordValues.new 0 false 10).doAddCmd 1 (fun _ _ => 0) (Dot.mk 1 1) c2cmd1 []
    [("A", [[3]])]).getD (MultiRecordValues.new 0 false 10, [], [])

/-- Result of then adding `c2cmd2` (dot `2.1`, same chosen sub-index `3`). -/
def c2out2 : MultiRecordValues × List Dependency × List (Key × List (List Nat)) :=
  (c2out1.1.doAddCmd 1 (fun _ _ => 0) (Dot.mk 2 1) c2cmd2 [] [("A", [[3]])]).getD
    (MultiRecordValues.new 0 false 10, [], [])

/-- NFR scenario: a read-only single-key command `Get("A")` (client 1). -/
def c8cmdRead : Command := Command.new (Rifl.mk 1 1) [(0, [("A", [StorageOp.get])])]

/-- NFR scenario: a later `Add("A", 1)` command (client 2). -/
def c8cmdAdd : Command := Command.new (Rifl.mk 2 1) [(0, [("A", [StorageOp.add 1])])]

/-- Result of adding the NFR read (dot `1.1`, chosen sub-index `0`) to a fresh
NFR-enabled tracker. -/
def c8out1 : MultiRecordValues × List Dependency × List (Key × List (List Nat)) :=
  ((MultiRecordValues.new 0 true 10).doAddCmd 1 (fun _ _ => 0) (Dot.mk 1 1) c8cmdRead []
    [("A", [[0]])]).getD (MultiRecordValues.new 0 true 10, [], [])

/-- Events after the NFR read: the `Add("A", 1)` command at the same
sub-index. -/
def c8evs : List MrvEvent :=
  [MrvEvent.addCmd 1 (fun _ _ => 0) (Dot.mk 2 1) c8cmdAdd [] [("A", [[0]])]]

/-- The run of `c8evs` from the post-read state. -/
def c8run : MultiRecordValues × List (List Dependency) :=
  (mrvRun c8out1.1 c8evs).getD (MultiRecordValues.new 0 true 10, [])

/-- The dependency set the later `Add` receives. -/
def c8deps2 : List Dependency := c8run.2.headD []

/-! ## The atlas dependency-graph queue (`src/src/protocol/atlas/queue/mod.rs`)

`mod.rs` is in the source tree; the modules it uses are not (`tarjan.rs`,
`index.rs`, and the `Command` type of that crate snapshot), so those are
modelled from the spec (§4.3) and from their call sites in `mod.rs`. -/

/-- `Dot` ascending order (`(source, sequence)` lexicographic), the "Dot
natural order" of spec §4.3 used when an SCC is emitted. -/
def dotLe (a b : Dot) : Bool :=
  decide (a.src < b.src) || (decide (a.src = b.src) && decide (a.seq ≤ b.seq))

/-- Insert into a `dotLe`-sorted list. -/
def insSorted (d : Dot) : List Dot → List Dot
  | [] => [d]
  | e :: rest => if dotLe d e then d :: e :: rest else e :: insSorted d rest

/-- Sort dots ascending (insertion sort). -/
def sortDots (l : List Dot) : List Dot := l.foldr insSorted []

/-- Modelled from the spec: the queue crate snapshot's `Command` type
(`src/src/command.rs`) is not in the source tree; the queue uses only its
key set (`vertex.command().keys()` in `save_scc`) and its identity (the
tests build `Command::put(rifl, key, value)` and compare released `Rifl`
sequences). -/
structure QueueCmd where
  rifl : Rifl
  keys : List Key
deriving DecidableEq

/-- `Vertex::new(dot, cmd, clock)` (spec §3: `{dot, cmd, deps, color}`; the
color only lives inside one Tarjan pass).  The dependency set is the
committed vector clock, as in `Queue::add`. -/
structure Vertex where
  dot : Dot
  cmd : QueueCmd
  clock : List (Nat × Nat)
deriving DecidableEq

/-- The `Queue` of `mod.rs`: executed clock (as the set of executed dots),
vertex index (dot-keyed map, `VertexIndex` modelled from the spec since
`index.rs` is missing), and the to-execute list (commands tagged with their
dot; the dot is the command identity the tests compare).  The
`pending_index` is left implicit: `pending(key)` is computed from the vertex
index (every indexed vertex is pending). -/
structure Queue where
  executed : List Dot
  vertexIndex : List (Dot × Vertex)
  toExecute : List (Dot × QueueCmd)
deriving DecidableEq

/-- `Queue::new(n)`: bottom executed clock, empty indexes. -/
def Queue.new (_n : Nat) : Queue :=
  { executed := [], vertexIndex := [], toExecute := [] }

/-- The dots a committed vector clock stands for: every `(p, s)` with
`1 ≤ s ≤ clock[p]` (a `VClock` denotes its downset). -/
def clockDeps (clock : List (Nat × Nat)) : List Dot :=
  clock.flatMap (fun pc => (List.range pc.2).map (fun i => Dot.mk pc.1 (i + 1)))

/-- The non-executed dependencies of an indexed dot (spec §4.3 step 3: "if
`executed_clock` contains `e`, skip"). -/
def Queue.deps (q : Queue) (d : Dot) : List Dot :=
  match lookupA q.vertexIndex d with
  | some v => (clockDeps v.clock).filter (fun e => !q.executed.contains e)
  | none => []

/-- One expansion round of the Tarjan search frontier (modelled from the
spec, `tarjan.rs` missing): add every indexed non-executed dependency of the
set collected so far. -/
def Queue.expandOnce (q : Queue) (acc : List Dot) : List Dot :=
  acc ++ ((acc.flatMap (fun u => q.deps u)).filter
    (fun e => (lookupA q.vertexIndex e).isSome && !acc.contains e)).dedup

/-- The indexed dots reachable from `d` through non-executed dependencies
(expansion iterated to a fixpoint; `vertexIndex.length + 1` rounds always
reach it). -/
def Queue.reachable (q : Queue) (d : Dot) : List Dot :=
  (Queue.expandOnce q)^[q.vertexIndex.length + 1] [d]

/-- The strongly-connected component of `d` in the current indexed graph:
mutually reachable indexed dots (modelled from the spec, `tarjan.rs`
missing). -/
def Queue.sccOf (q : Queue) (d : Dot) : List Dot :=
  (q.reachable d).filter (fun e => (q.reachable e).contains d)

/-- Spec §4.3 step 4: an SCC is emitted when "every member has all
non-executed deps also in the SCC". -/
def Queue.readyScc (q : Queue) (b : List Dot) : Bool :=
  b.all (fun u => (q.deps u).all (fun e => b.contains e))

/-- The command of an indexed dot (the `expect` of `save_scc`: dots from an
SCC exist in the index). -/
def Queue.vertexCmd (q : Queue) (e : Dot) : QueueCmd :=
  ((lookupA q.vertexIndex e).map Vertex.cmd).getD { rifl := Rifl.mk 0 0, keys := [] }

/-- `Queue::save_scc` over a whole (sorted) SCC: mark members executed,
remove them from the vertex index, push their commands to `to_execute`, and
collect the keys they touch. -/
def Queue.release (q : Queue) (b : List Dot) : Queue × List Key :=
  ({ executed := q.executed ++ b
     vertexIndex := q.vertexIndex.filter (fun p => !b.contains p.1)
     toExecute := q.toExecute ++ b.map (fun e => (e, q.vertexCmd e)) },
   (b.flatMap (fun e => (q.vertexCmd e).keys)).dedup)

/-- `Queue::find_scc(dot)`: run the SCC search from `dot`; emit `dot`'s SCC
in Dot-ascending order when it is ready (spec §4.3 step 4), returning the
keys of the released commands, and nothing otherwise (a missing or
non-executed dependency outside the SCC leaves everything pending). -/
def Queue.findScc (q : Queue) (d : Dot) : Queue × List Key :=
  match lookupA q.vertexIndex d with
  | none => (q, [])
  | some _ =>
    if q.readyScc (sortDots (q.sccOf d)) then q.release (sortDots (q.sccOf d))
    else (q, [])

/-- `PendingIndex::pending(key)` (modelled from its call site in
`try_pending`, `index.rs` missing): the indexed dots whose command accesses
`key`, in Dot order. -/
def Queue.pendingDots (q : Queue) (key : Key) : List Dot :=
  sortDots ((q.vertexIndex.filter (fun p => p.2.cmd.keys.contains key)).map Prod.fst)

/-- The inner loop of `try_pending`: run `find_scc` on each pending dot in
turn (state updates persist); stop at the first that released (returning its
new keys) so the outer loop can restart. -/
def Queue.tryFind : Queue → List Dot → Queue × Option (List Key)
  | q, [] => (q, none)
  | q, d :: rest =>
    match q.findScc d with
    | (q2, []) => Queue.tryFind q2 rest
    | (q2, k :: ks) => (q2, some (k :: ks))

/-- The key loop of `try_pending`: take each key in turn (the source pops a
`BinaryHeap`; the pop order only decides which pending dot is retried first
and retries are harmless no-ops unless ready, so the list order stands in
for the heap order), and retry its pending dots. -/
def Queue.scanKeys : Queue → List Key → Queue × Option (List Key)
  | q, [] => (q, none)
  | q, key :: rest =>
    match Queue.tryFind q (q.pendingDots key) with
    | (q2, some newKeys) => (q2, some (rest ++ newKeys))
    | (q2, none) => Queue.scanKeys q2 rest

/-- `Queue::try_pending`, fuel-bounded: every restart follows a release,
which shrank the vertex index, so `vertexIndex.length + 1` rounds suffice. -/
def Queue.tryPendingGo : Nat → Queue → List Key → Queue
  | 0, q, _ => q
  | Nat.succ fuel, q, keys =>
    match Queue.scanKeys q keys with
    | (q2, none) => q2
    | (q2, some keys2) => Queue.tryPendingGo fuel q2 keys2

/-- `Queue::try_pending`. -/
def Queue.tryPending (q : Queue) (keys : List Key) : Queue :=
  Queue.tryPendingGo (q.vertexIndex.length + 1) q keys

/-- `Queue::add(dot, cmd, clock)`: index the vertex — `none` models the
`assert!(self.vertex_index.index(vertex))` failure when the dot is already
indexed — then `find_scc(dot)` and `try_pending(keys)`. -/
def Queue.add (q : Queue) (dot : Dot) (cmd : QueueCmd) (clock : List (Nat × Nat)) :
    Option Queue :=
  if (lookupA q.vertexIndex dot).isSome then none
  else
    match Queue.findScc
        { q with vertexIndex := insertA q.vertexIndex dot ⟨dot, cmd, clock⟩ } dot with
    | (q2, keys) => some (q2.tryPending keys)

/-- Feed a list of `(dot, cmd, clock)` tuples to the queue in order. -/
def Queue.addAll : Queue → List (Dot × QueueCmd × List (Nat × Nat)) → Option Queue
  | q, [] => some q
  | q, (d, c, k) :: rest =>
    match q.add d c k with
    | none => none
    | some q2 => Queue.addAll q2 rest

/-- Run a whole arrival sequence from a fresh queue. -/
def runQueue (n : Nat) (inputs : List (Dot × QueueCmd × List (Nat × Nat))) :
    Option Queue :=
  Queue.addAll (Queue.new n) inputs

/-- Strict Dot order (Prop form of `dotLe`). -/
def dotLtP (a b : Dot) : Prop := a.src < b.src ∨ (a.src = b.src ∧ a.seq < b.seq)

/-- One dependency edge of the queue's current graph: `b` is a non-executed
dependency of the indexed vertex `a`, and `b` is itself indexed. -/
def qstep (q : Queue) (a b : Dot) : Prop :=
  b ∈ q.deps a ∧ (lookupA q.vertexIndex b).isSome = true

/-- The vertex environment denoted by an input list. -/
def envOf (inputs : List (Dot × QueueCmd × List (Nat × Nat))) : List (Dot × Vertex) :=
  inputs.map (fun p => (p.1, { dot := p.1, cmd := p.2.1, clock := p.2.2 }))

/-- The whole committed graph, seen as a queue state: nothing executed,
everything indexed. -/
def qAll (env : List (Dot × Vertex)) : Queue :=
  { executed := [], vertexIndex := env, toExecute := [] }

/-- Transitive dependency (reachability) in the committed graph. -/
def FRel (env : List (Dot × Vertex)) (u v : Dot) : Prop :=
  Relation.ReflTransGen (qstep (qAll env)) u v

/-- "Same strongly-connected component" of the committed graph: mutual
reachability. -/
def sameB (env : List (Dot × Vertex)) (u v : Dot) : Prop :=
  FRel env u v ∧ FRel env v u

/-- Context for the queue theorems: distinct dots, vertices carrying their
own dot, dependency-closed clocks, and pairwise dependency-related dots (the
shape the queue test generator `random_adds` enforces: "make sure at least
one is a dependency of the other" for every pair). -/
structure QCtx (env : List (Dot × Vertex)) : Prop where
  nodup : (env.map Prod.fst).Nodup
  vdot : ∀ p ∈ env, p.2.dot = p.1
  closed : ∀ p ∈ env, ∀ e ∈ clockDeps p.2.clock, e ∈ env.map Prod.fst
  rel : ∀ p ∈ env, ∀ r ∈ env, p.1 ≠ r.1 →
    r.1 ∈ clockDeps p.2.clock ∨ p.1 ∈ clockDeps r.2.clock

/-- An executed set the queue semantics can justify: committed dots, closed
under dependencies and under SCC membership. -/
structure ExecOK (env : List (Dot × Vertex)) (E : List Dot) : Prop where
  sub : ∀ a ∈ E, a ∈ env.map Prod.fst
  dep : ∀ a ∈ E, ∀ b, qstep (qAll env) a b → b ∈ E
  blk : ∀ a ∈ E, ∀ b, b ∈ env.map Prod.fst → sameB env a b → b ∈ E

/-- The SCC of `d` is releasable once the arrived set is `S` and the
executed set is `E`: the whole SCC has arrived unexecuted and every
dependency leaving the SCC is executed. -/
def Ready (env : List (Dot × Vertex)) (S E : List Dot) (d : Dot) : Prop :=
  (∀ u, u ∈ env.map Prod.fst → sameB env d u → u ∈ S ∧ u ∉ E) ∧
  (∀ u, sameB env d u → ∀ e, qstep (qAll env) u e → e ∈ E ∨ sameB env d e)

/-- How a reachable queue state decomposes: executed set `E`, arrived set
`S`, and the vertex index holding exactly the committed vertices of
`S` minus `E`. -/
structure QState (env : List (Dot × Vertex)) (S E : List Dot) (q : Queue) : Prop where
  exec_mem : ∀ x, x ∈ q.executed ↔ x ∈ E
  idx : ∀ x, lookupA q.vertexIndex x =
    if x ∈ S ∧ x ∉ E then lookupA env x else none
  idx_nodup : (q.vertexIndex.map Prod.fst).Nodup

/-- The released prefix so far: a sequence of full SCCs, each sorted, no dot
released twice, later blocks never reached from earlier ones, the union an
`ExecOK` set of arrived dots. -/
structure BlockSeqCore (env : List (Dot × Vertex)) (S : List Dot)
    (bs : List (List Dot)) : Prop where
  blocks : ∀ b ∈ bs, ∃ d, d ∈ env.map Prod.fst ∧ b = sortDots ((qAll env).sccOf d)
  chain : bs.Pairwise (fun b1 b2 => ∀ u ∈ b1, ∀ v ∈ b2, ¬ FRel env u v)
  nodup : bs.flatten.Nodup
  execok : ExecOK env bs.flatten
  insS : ∀ a ∈ bs.flatten, a ∈ S

/-- A quiescent released prefix: additionally, nothing arrived is ready. -/
structure BlockSeq (env : List (Dot × Vertex)) (S : List Dot)
    (bs : List (List Dot)) : Prop where
  core : BlockSeqCore env S bs
  maxi : ∀ d, d ∈ env.map Prod.fst → d ∈ S → d ∉ bs.flatten →
    ¬ Ready env S bs.flatten d

/-- The released `to_execute` list a block sequence denotes. -/
def blockExec (env : List (Dot × Vertex)) (bs : List (List Dot)) :
    List (Dot × QueueCmd) :=
  bs.flatten.map (fun d =>
    (d, ((lookupA env d).map Vertex.cmd).getD { rifl := Rifl.mk 0 0, keys := [] }))

/-- The run invariant: after the dots of `S` have arrived, the queue state
decomposes over a quiescent released prefix. -/
def Inv (env : List (Dot × Vertex)) (S : List Dot) (q : Queue) : Prop :=
  ∃ bs, BlockSeq env S bs ∧ QState env S bs.flatten q ∧
    q.toExecute = blockExec env bs

/-- Queue scenario fixture: a command on the single key `"black"`, as every
command of the queue tests. -/
def c1cmd (r : Nat) : QueueCmd := { rifl := Rifl.mk r 1, keys := ["black"] }

/-- Three pairwise dependency-related committed tuples (the shape
`random_adds` generates for n = 2): `1.1 ↔ 2.1` form an SCC and `1.2`
depends on both. -/
def c1inputs : List (Dot × QueueCmd × List (Nat × Nat)) :=
  [(Dot.mk 1 1, c1cmd 1, [(1, 1), (2, 1)]),
   (Dot.mk 1 2, c1cmd 2, [(1, 2), (2, 1)]),
   (Dot.mk 2 1, c1cmd 3, [(1, 1)])]

/-- The same tuples in a different arrival order. -/
def c1inputs2 : List (Dot × QueueCmd × List (Nat × Nat)) :=
  [(Dot.mk 1 2, c1cmd 2, [(1, 2), (2, 1)]),
   (Dot.mk 2 1, c1cmd 3, [(1, 1)]),
   (Dot.mk 1 1, c1cmd 1, [(1, 1), (2, 1)])]

/-! ## List and store helper lemmas -/

theorem get?_eq_some_of_lt {α : Type} (l : List α) (i : Nat) (h : i < l.length) :
    ∃ a, l.get? i = some a := by
  induction l generalizing i with
  | nil => simp at h
  | cons b rest ih =>
    cases i with
    | zero => exact ⟨b, rfl⟩
    | succ i => exact ih i (by simpa using h)

theorem get?_set_self {α : Type} (l : List α) (i : Nat) (a : α) (h : i < l.length) :
    (l.set i a).get? i = some a := by
  induction l generalizing i with
  | nil => simp at h
  | cons b rest ih =>
    cases i with
    | zero => rfl
    | succ i => simpa using ih i (by simpa using h)

theorem get?_set_ne {α : Type} (l : List α) (i j : Nat) (a : α) (h : i ≠ j) :
    (l.set i a).get? j = l.get? j := by
  induction l generalizing i j with
  | nil => simp
  | cons b rest ih =>
    cases i with
    | zero =>
      cases j with
      | zero => exact absurd rfl h
      | succ j => rfl
    | succ i =>
      cases j with
      | zero => rfl
      | succ j => simpa using ih i j (by omega)

theorem get?_replicate_lt {α : Type} (n j : Nat) (a : α) (h : j < n) :
    (List.replicate n a).get? j = some a := by
  induction n generalizing j with
  | zero => omega
  | succ n ih =>
    cases j with
    | zero => rfl
    | succ j => simpa [List.replicate] using ih j (by omega)

theorem sum_set_add (l : List Nat) (i : Nat) (a c : Nat) (h : l.get? i = some c) :
    (l.set i a).sum + c = l.sum + a := by
  induction l generalizing i with
  | nil => simp at h
  | cons b rest ih =>
    cases i with
    | zero =>
      simp only [List.get?] at h
      cases h
      simp [List.set]
      omega
    | succ i =>
      simp only [List.get?] at h
      have := ih i h
      simp [List.set]
      omega

theorem storeGet_storeInsert_self (store : List (Key × List Nat)) (key : Key)
    (vs : List Nat) : storeGet (storeInsert store key vs) key = some vs := by
  induction store with
  | nil => simp [storeInsert, storeGet]
  | cons kv rest ih =>
    obtain ⟨k, ws⟩ := kv
    by_cases h : k = key
    · simp [storeInsert, storeGet, h]
    · simp [storeInsert, storeGet, h, ih]

theorem sumAt_nil (values : List Nat) : sumAt values [] = 0 := rfl

theorem sumAt_cons (values : List Nat) (i : Nat) (rest : List Nat) :
    sumAt values (i :: rest) = (values.get? i).getD 0 + sumAt values rest := by
  simp [sumAt]

theorem sumAt_set_notMem (values : List Nat) (idxs : List Nat) (i : Nat) (a : Nat)
    (h : i ∉ idxs) : sumAt (values.set i a) idxs = sumAt values idxs := by
  induction idxs with
  | nil => rfl
  | cons j rest ih =>
    have hij : i ≠ j := fun he => h (he ▸ List.mem_cons_self j rest)
    have hrest : i ∉ rest := fun hm => h (List.mem_cons_of_mem j hm)
    rw [sumAt_cons, sumAt_cons, get?_set_ne values i j a hij, ih hrest]

/-! ## Lemmas about the MRV subtract deduction walk -/

theorem subtractWalk_get?_notMem (vec : List Nat) (v : Nat) (idxs : List Nat) (j : Nat)
    (h : j ∉ idxs) : (subtractWalk vec v idxs).get? j = vec.get? j := by
  induction idxs generalizing vec v with
  | nil => rfl
  | cons i rest ih =>
    have hij : i ≠ j := fun he => h (he ▸ List.mem_cons_self i rest)
    have hrest : j ∉ rest := fun hm => h (List.mem_cons_of_mem i hm)
    rw [subtractWalk]
    cases hvi : vec.get? i with
    | none => exact ih vec v hrest
    | some entry =>
      by_cases hle : entry ≤ v
      · simp only [hle, if_true]
        rw [ih (vec.set i 0) (v - entry) hrest, get?_set_ne vec i j 0 hij]
      · simp only [hle, if_false]
        exact get?_set_ne vec i j (entry - v) hij

theorem subtractWalk_sum (vec : List Nat) (v : Nat) (idxs : List Nat)
    (hnd : idxs.Nodup) (hrange : ∀ i ∈ idxs, i < vec.length)
    (hle : v ≤ sumAt vec idxs) :
    (subtractWalk vec v idxs).sum + v = vec.sum := by
  induction idxs generalizing vec v with
  | nil =>
    have : v = 0 := by simpa [sumAt_nil] using hle
    simp [subtractWalk, this]
  | cons i rest ih =>
    obtain ⟨entry, hentry⟩ :=
      get?_eq_some_of_lt vec i (hrange i (List.mem_cons_self i rest))
    have hiNotMem : i ∉ rest := (List.nodup_cons.mp hnd).1
    have hndRest : rest.Nodup := (List.nodup_cons.mp hnd).2
    have hsum : sumAt vec (i :: rest) = entry + sumAt vec rest := by
      rw [sumAt_cons, hentry]; rfl
    rw [subtractWalk, hentry]
    by_cases hcase : entry ≤ v
    · simp only [hcase, if_true]
      have hrange' : ∀ j ∈ rest, j < (vec.set i 0).length := by
        intro j hj
        simpa using hrange j (List.mem_cons_of_mem i hj)
      have hle' : v - entry ≤ sumAt (vec.set i 0) rest := by
        rw [sumAt_set_notMem vec rest i 0 hiNotMem]
        omega
      have hIH := ih (vec.set i 0) (v - entry) hndRest hrange' hle'
      have hset := sum_set_add vec i 0 entry hentry
      omega
    · simp only [hcase, if_false]
      have hset := sum_set_add vec i (entry - v) entry hentry
      omega

/-! ## C5: single-cell Put result -/

/-- C5 (code_bug).  The claim (and the repository's own `store_flow` test,
`fantoch/src/store.rs` line 307, together with the spec's single-cell table
entry "Put(v): replace cell[0]=v, return None") says that a single-cell `Put`
returns `None`.  The code (`store.rs` lines 179-181) inserts the new cell but
returns `Some(value)`.  Evaluating the embedded code at the failing input —
an empty single-cell store, `Put("A", 12)` — shows the store updated as
claimed but the result `some 12`, not `none`. -/
theorem c5_put_single_cell_failing_input :
    (Storage.new true none).doExecuteOp "A" (.put 12) [] =
      some ({ store := [("A", [12])], isKvStorage := true, number := 1 }, some 12) ∧
    ((Storage.new true none).doExecuteOp "A" (.put 12) []).map (fun p => p.2) ≠
      some none := by
  exact ⟨rfl, by decide⟩

/-! ## C6: saturating Add / Subtract arithmetic -/

/-- C6 (confirmed).  Add and Subtract arithmetic on stored values saturates at
the `u16` bounds: with current cell value `c` at the effective index (cell `0`
in single-cell mode, the first supplied MRV index otherwise), `Add(v)` stores
and returns `min (c + v) VALUE_MAX` (the `checked_add` overflow branch writes
`Value::MAX`), and single-cell `Subtract(v)` stores and returns `c - v`
truncated at zero (the `checked_sub` underflow branch writes `Value::MIN`),
i.e. `max (c - v) 0` over the integers. -/
theorem c6_saturating_arithmetic (st : Storage) (key : Key) (v c : Nat)
    (oldVec : List Nat) (nDeps : List Nat)
    (hget : storeGet st.store key = some oldVec) :
    (st.isKvStorage = true → oldVec.get? 0 = some c →
      st.doExecuteOp key (.add v) nDeps =
        some ({ st with store := storeInsert st.store key (oldVec.set 0 (min (c + v) VALUE_MAX)) },
          some (min (c + v) VALUE_MAX))) ∧
    (st.isKvStorage = false → oldVec.get? (nDeps.headD 0) = some c →
      st.doExecuteOp key (.add v) nDeps =
        some ({ st with
          store := storeInsert st.store key (oldVec.set (nDeps.headD 0) (min (c + v) VALUE_MAX)) },
          some (min (c + v) VALUE_MAX))) ∧
    (st.isKvStorage = true → oldVec.get? 0 = some c →
      st.doExecuteOp key (.subtract v) nDeps =
        some ({ st with store := storeInsert st.store key (oldVec.set 0 (c - v)) },
          some (c - v))) := by
  have hminEq : (if c + v ≤ VALUE_MAX then c + v else VALUE_MAX) = min (c + v) VALUE_MAX :=
    (min_def (c + v) VALUE_MAX).symm
  have hsubEq : (if v ≤ c then c - v else 0) = c - v := by split <;> omega
  refine ⟨?_, ?_, ?_⟩
  · intro hkv hc
    rw [List.get?_eq_getElem?] at hc
    simp [Storage.doExecuteOp, hkv, hget, hc, hminEq]
  · intro hkv hc
    rw [List.get?_eq_getElem?] at hc
    cases nDeps with
    | nil =>
      simp only [List.headD] at hc ⊢
      simp [Storage.doExecuteOp, hkv, hget, hc, hminEq]
    | cons i rest =>
      simp only [List.headD] at hc ⊢
      simp [Storage.doExecuteOp, hkv, hget, hc, hminEq]
  · intro hkv hc
    rw [List.get?_eq_getElem?] at hc
    simp [Storage.doExecuteOp, hkv, hget, hc, hsubEq]

/-- Witness for C6 at a concrete input: store `{"A" ↦ [65530]}` in single-cell
mode; `Add(10)` saturates to `65535` and `Subtract(7)` yields `65523`. -/
theorem c6_saturating_arithmetic_witness :
    (Storage.mk [("A", [65530])] true 1).doExecuteOp "A" (.add 10) [] =
      some (Storage.mk [("A", [65535])] true 1, some 65535) ∧
    (Storage.mk [("A", [65530])] true 1).doExecuteOp "A" (.subtract 7) [] =
      some (Storage.mk [("A", [65523])] true 1, some 65523) := by
  have h := c6_saturating_arithmetic (Storage.mk [("A", [65530])] true 1)
    "A" 10 65530 [65530] [] rfl
  have h2 := c6_saturating_arithmetic (Storage.mk [("A", [65530])] true 1)
    "A" 7 65530 [65530] [] rfl
  refine ⟨?_, ?_⟩
  · have := h.1 rfl rfl
    simpa using this
  · have := h2.2.2 rfl rfl
    simpa using this

/-! ## C10: MRV Put discards the existing vector -/

/-- C10 (confirmed).  In MRV mode, `Put(v)` on a key that already exists
replaces the whole stored vector by a fresh zero-filled vector of length
`number` whose only non-zero cell is the first supplied index (cell `0` when no
index set is supplied), and returns `Some(v)`; the other cells are reset to
`0` regardless of the previous vector. -/
theorem c10_mrv_put_resets_vector (st : Storage) (key : Key) (v : Nat)
    (oldVec : List Nat) (nDeps : List Nat)
    (hmode : st.isKvStorage = false)
    ( _hget : storeGet st.store key = some oldVec)
    (hidx : nDeps.headD 0 < st.number) :
    ∃ newVec,
      st.doExecuteOp key (.put v) nDeps =
        some ({ st with store := storeInsert st.store key newVec }, some v) ∧
      newVec.length = st.number ∧
      newVec.get? (nDeps.headD 0) = some v ∧
      (∀ j, j < st.number → j ≠ nDeps.headD 0 → newVec.get? j = some 0) := by
  refine ⟨(List.replicate st.number 0).set (nDeps.headD 0) v, ?_, ?_, ?_, ?_⟩
  · cases nDeps with
    | nil =>
      simp only [List.headD] at hidx ⊢
      simp [Storage.doExecuteOp, hmode, hidx]
    | cons i rest =>
      simp only [List.headD] at hidx ⊢
      simp [Storage.doExecuteOp, hmode, hidx]
  · simp
  · exact get?_set_self _ _ _ (by simpa using hidx)
  · intro j hj hne
    rw [get?_set_ne _ _ _ _ (fun he => hne he.symm)]
    exact get?_replicate_lt _ _ _ hj

/-- Witness for C10: MRV store with `"A" ↦ [7, 8, 9]`, `Put("A", 5)` with
index set `[2]` yields a vector of length 3 holding `5` at index 2 and `0`
elsewhere. -/
theorem c10_mrv_put_resets_vector_witness :
    ∃ newVec,
      (Storage.mk [("A", [7, 8, 9])] false 3).doExecuteOp "A" (.put 5) [2] =
        some ({ Storage.mk [("A", [7, 8, 9])] false 3 with
          store := storeInsert [("A", [7, 8, 9])] "A" newVec }, some 5) ∧
      newVec.length = 3 ∧
      newVec.get? 2 = some 5 ∧
      (∀ j, j < 3 → j ≠ 2 → newVec.get? j = some 0) := by
  exact c10_mrv_put_resets_vector (Storage.mk [("A", [7, 8, 9])] false 3)
    "A" 5 [7, 8, 9] [2] rfl rfl (by decide)

/-! ## C3: MRV Subtract semantics -/

/-- C3 (confirmed).  In MRV mode, `Subtract(v)` on a key with index set `I`
returns `None` and leaves the stored vector (indeed the whole store) unchanged
when the key is absent or when the sum of the cells at the indices in `I` is
strictly less than `v`; otherwise — `I` being a set of in-range indices, i.e.
duplicate-free and within the vector — it walks the indices of `I` in order
zeroing cells until `v` is consumed, deducting exactly `v` in total (the
vector sum drops by exactly `v`, cells outside `I` untouched), and returns
`Some(v)`. -/
theorem c3_mrv_subtract_spec (st : Storage) (key : Key) (v : Nat) (idxs : List Nat)
    (hmode : st.isKvStorage = false) :
    (storeGet st.store key = none →
      st.doExecuteOp key (.subtract v) idxs = some (st, none)) ∧
    (∀ oldVec, storeGet st.store key = some oldVec →
      (sumAt oldVec idxs < v →
        st.doExecuteOp key (.subtract v) idxs = some (st, none)) ∧
      (idxs.Nodup → (∀ i ∈ idxs, i < oldVec.length) → v ≤ sumAt oldVec idxs →
        ∃ newVec,
          st.doExecuteOp key (.subtract v) idxs =
            some ({ st with store := storeInsert st.store key newVec }, some v) ∧
          newVec.sum + v = oldVec.sum ∧
          (∀ j, j ∉ idxs → newVec.get? j = oldVec.get? j))) := by
  refine ⟨?_, fun oldVec hget => ⟨?_, ?_⟩⟩
  · intro hnone
    simp [Storage.doExecuteOp, hmode, hnone]
  · intro hlt
    simp [Storage.doExecuteOp, hmode, hget, hlt]
  · intro hnd hrange hle
    refine ⟨subtractWalk oldVec v idxs, ?_,
      subtractWalk_sum oldVec v idxs hnd hrange hle,
      fun j hj => subtractWalk_get?_notMem oldVec v idxs j hj⟩
    have hnotlt : ¬ sumAt oldVec idxs < v := by omega
    simp [Storage.doExecuteOp, hmode, hget, hnotlt]

/-- Witness for C3: MRV store `{"A" ↦ [3, 4, 5]}`, `Subtract("A", 6)` with
index set `[0, 1]` succeeds, returns `Some 6` and deducts exactly `6`. -/
theorem c3_mrv_subtract_spec_witness :
    ∃ newVec,
      (Storage.mk [("A", [3, 4, 5])] false 3).doExecuteOp "A" (.subtract 6) [0, 1] =
        some ({ Storage.mk [("A", [3, 4, 5])] false 3 with
          store := storeInsert [("A", [3, 4, 5])] "A" newVec }, some 6) ∧
      newVec.sum + 6 = [3, 4, 5].sum ∧
      (∀ j, j ∉ [0, 1] → newVec.get? j = [3, 4, 5].get? j) := by
  exact ((c3_mrv_subtract_spec (Storage.mk [("A", [3, 4, 5])] false 3) "A" 6 [0, 1]
    rfl).2 [3, 4, 5] rfl).2 (by decide) (by decide) (by decide)

/-! ## C4: MRV sub-index selection for each operation -/

theorem subSelect_eq_none_iff (values : List Nat) (v : Nat) (idxs : List Nat) :
    ∀ acc consumed, subSelect values v idxs acc consumed = none ↔
      consumed + sumAt values idxs < v := by
  induction idxs with
  | nil =>
    intro acc consumed
    simp only [subSelect, sumAt_nil]
    by_cases hv : v ≤ consumed
    · simp [hv]
    · simp [hv]
      omega
  | cons i rest ih =>
    intro acc consumed
    simp only [subSelect]
    by_cases hv : v ≤ consumed
    · simp only [hv, if_true]
      rw [sumAt_cons]
      constructor
      · intro h
        simp at h
      · intro h
        omega
    · simp only [hv, if_false]
      rw [ih, sumAt_cons]
      omega

theorem subSelect_eq_some (values : List Nat) (v : Nat) (idxs : List Nat) :
    ∀ acc consumed l, subSelect values v idxs acc consumed = some l →
      ∃ k, k ≤ idxs.length ∧ l = acc ++ idxs.take k ∧
        v ≤ consumed + sumAt values (idxs.take k) ∧
        ∀ m, m < k → consumed + sumAt values (idxs.take m) < v := by
  induction idxs with
  | nil =>
    intro acc consumed l h
    simp only [subSelect] at h
    by_cases hv : v ≤ consumed
    · rw [if_pos hv] at h
      injection h with h
      subst h
      refine ⟨0, by simp, by simp, ?_, ?_⟩
      · simpa [sumAt_nil] using hv
      · intro m hm
        omega
    · rw [if_neg hv] at h
      cases h
  | cons i rest ih =>
    intro acc consumed l h
    simp only [subSelect] at h
    by_cases hv : v ≤ consumed
    · rw [if_pos hv] at h
      injection h with h
      subst h
      refine ⟨0, by simp, by simp, ?_, ?_⟩
      · simpa [sumAt_nil] using hv
      · intro m hm
        omega
    · rw [if_neg hv] at h
      obtain ⟨k, hk, hl, hge, hmin⟩ := ih (acc ++ [i]) (consumed + (values.get? i).getD 0) l h
      refine ⟨k + 1, by simpa using hk, ?_, ?_, ?_⟩
      · rw [hl, List.take_succ_cons, List.append_assoc]
        rfl
      · rw [List.take_succ_cons, sumAt_cons]
        omega
      · intro m hm
        cases m with
        | zero =>
          rw [List.take_zero, sumAt_nil]
          omega
        | succ m =>
          rw [List.take_succ_cons, sumAt_cons]
          have := hmin m (by omega)
          omega

theorem sumAt_range_self (values : List Nat) :
    sumAt values (List.range values.length) = values.sum := by
  induction values with
  | nil => rfl
  | cons a rest ih =>
    rw [List.length_cons, List.range_succ_eq_map]
    rw [sumAt, List.map_cons, List.sum_cons, List.map_map]
    have hmap : (List.map ((fun index => ((a :: rest).get? index).getD 0) ∘ Nat.succ)
        (List.range rest.length)) =
        List.map (fun index => (rest.get? index).getD 0) (List.range rest.length) := rfl
    rw [hmap]
    have : ((a :: rest).get? 0).getD 0 = a := rfl
    rw [this]
    rw [sumAt] at ih
    rw [ih]
    simp

theorem sumAt_perm (values : List Nat) {l1 l2 : List Nat} (h : l1.Perm l2) :
    sumAt values l1 = sumAt values l2 :=
  List.Perm.sum_eq (h.map _)

theorem rot_perm_range (r N : Nat) (h : r ≤ N) :
    (List.range' r (N - r) ++ List.range r).Perm (List.range N) := by
  have h2 := List.range'_append 0 r (N - r) 1
  simp only [Nat.zero_add, Nat.one_mul] at h2
  have h3 : N - r + r = N := by omega
  rw [h3] at h2
  rw [List.range_eq_range', List.range_eq_range', ← h2]
  exact List.perm_append_comm

/-- C4 (corrected).  The claim says the MRV sub-index list selected for
`Subtract(v)` is the smallest contiguous wrap-around run starting at the
random index `r` whose cell values sum to at least `v`, "each index appearing
once"; in the code (`get_n_deps_by_cmd`) the result vector is seeded with `r`
(`vec![n]`) and the walk then pushes `r` again, so `r` appears twice whenever
`v > 0` (see `c4_subtract_select_duplicate_counterexample`).  Amended
statement, proved here: `Get`/`Delete`/`Put` select all `N` indices and `Add`
selects the single random index `r`; `Subtract(v)` returns `none` when the key
is absent or the total of all cells is below `v`, and otherwise returns `r`
followed by the shortest prefix of the wrap-around walk
`r, r+1, …, N-1, 0, …, r-1` whose cell values sum to at least `v` — as a set
the smallest contiguous wrap-around run starting at `r` with sum `≥ v`, but
with `r` duplicated whenever `v > 0`. -/
theorem c4_get_n_deps_spec (st : Storage) (key : Key) (v r : Nat)
    (values : List Nat)
    (hget : storeGet st.store key = some values)
    (hlen : values.length = st.number)
    (hr : r < st.number) :
    (st.getNDepsByCmd key .get r = some (List.range st.number) ∧
      st.getNDepsByCmd key .delete r = some (List.range st.number) ∧
      (∀ w, st.getNDepsByCmd key (.put w) r = some (List.range st.number))) ∧
    (∀ w, st.getNDepsByCmd key (.add w) r = some [r]) ∧
    (∀ key2, storeGet st.store key2 = none →
      st.getNDepsByCmd key2 (.subtract v) r = none) ∧
    (values.sum < v → st.getNDepsByCmd key (.subtract v) r = none) ∧
    (v ≤ values.sum →
      ∃ k, k ≤ st.number ∧
        st.getNDepsByCmd key (.subtract v) r =
          some (r :: (List.range' r (st.number - r) ++ List.range r).take k) ∧
        v ≤ sumAt values ((List.range' r (st.number - r) ++ List.range r).take k) ∧
        (∀ m, m < k →
          sumAt values ((List.range' r (st.number - r) ++ List.range r).take m) < v) ∧
        (0 < v → 1 ≤ k)) := by
  have hperm := rot_perm_range r st.number (Nat.le_of_lt hr)
  have hrotsum : sumAt values (List.range' r (st.number - r) ++ List.range r) = values.sum := by
    rw [sumAt_perm values hperm, ← hlen, sumAt_range_self]
  refine ⟨⟨rfl, rfl, fun w => rfl⟩, fun w => rfl, ?_, ?_, ?_⟩
  · intro key2 h2
    simp [Storage.getNDepsByCmd, h2]
  · intro hlt
    simp only [Storage.getNDepsByCmd, hget]
    exact (subSelect_eq_none_iff values v _ [r] 0).mpr (by rw [hrotsum]; omega)
  · intro hle
    cases hs : subSelect values v (List.range' r (st.number - r) ++ List.range r) [r] 0 with
    | none =>
      exfalso
      have := (subSelect_eq_none_iff values v _ [r] 0).mp hs
      rw [hrotsum] at this
      omega
    | some l =>
      obtain ⟨k, hk, hl, hge, hmin⟩ := subSelect_eq_some values v _ [r] 0 l hs
      have hrotlen : (List.range' r (st.number - r) ++ List.range r).length = st.number := by
        rw [List.length_append, List.length_range', List.length_range]
        omega
      refine ⟨k, by omega, ?_, by simpa using hge, ?_, ?_⟩
      · simp only [Storage.getNDepsByCmd, hget]
        rw [hs, hl]
        rfl
      · intro m hm
        have := hmin m hm
        simpa using this
      · intro hv
        rcases Nat.eq_zero_or_pos k with h0 | h1
        · subst h0
          rw [List.take_zero, sumAt_nil] at hge
          omega
        · exact h1

/-- C4 counterexample: with MRV store `{"A" ↦ [5, 5]}` (`N = 2`) and random
start `r = 0`, the sub-index list selected for `Subtract(3)` is `[0, 0]` —
index `0` appears twice, refuting the claim's "each index appearing once". -/
theorem c4_subtract_select_duplicate_counterexample :
    (Storage.mk [("A", [5, 5])] false 2).getNDepsByCmd "A" (.subtract 3) 0 = some [0, 0] ∧
    ¬ List.Nodup [0, 0] := ⟨rfl, by decide⟩

/-- Witness for C4 at the concrete input `{"A" ↦ [5, 5]}`, `N = 2`, `v = 3`,
`r = 0`. -/
theorem c4_get_n_deps_spec_witness :
    ((Storage.mk [("A", [5, 5])] false 2).getNDepsByCmd "A" .get 0 = some (List.range 2) ∧
      (Storage.mk [("A", [5, 5])] false 2).getNDepsByCmd "A" .delete 0 = some (List.range 2) ∧
      (∀ w, (Storage.mk [("A", [5, 5])] false 2).getNDepsByCmd "A" (.put w) 0 =
        some (List.range 2))) ∧
    (∀ w, (Storage.mk [("A", [5, 5])] false 2).getNDepsByCmd "A" (.add w) 0 = some [0]) ∧
    (∀ key2, storeGet [("A", [5, 5])] key2 = none →
      (Storage.mk [("A", [5, 5])] false 2).getNDepsByCmd key2 (.subtract 3) 0 = none) ∧
    ([5, 5].sum < 3 →
      (Storage.mk [("A", [5, 5])] false 2).getNDepsByCmd "A" (.subtract 3) 0 = none) ∧
    (3 ≤ [5, 5].sum →
      ∃ k, k ≤ 2 ∧
        (Storage.mk [("A", [5, 5])] false 2).getNDepsByCmd "A" (.subtract 3) 0 =
          some (0 :: (List.range' 0 (2 - 0) ++ List.range 0).take k) ∧
        3 ≤ sumAt [5, 5] ((List.range' 0 (2 - 0) ++ List.range 0).take k) ∧
        (∀ m, m < k → sumAt [5, 5] ((List.range' 0 (2 - 0) ++ List.range 0).take m) < 3) ∧
        (0 < 3 → 1 ≤ k)) :=
  c4_get_n_deps_spec (Storage.mk [("A", [5, 5])] false 2) "A" 3 0 [5, 5] rfl rfl (by decide)

/-! ## C7: Command::new round-trip -/

/-- C7 (code_bug).  `Command::new` populates `shard_to_keys` twice — once
while wrapping `shard_to_ops` (`command.rs` lines 44-53) and once more inside
the copy-pasted loop that builds `shard_to_n_deps_ops` (lines 69-78, complete
with the duplicated "populate `shard_to_keys`" comment) — so every key is
listed twice per shard, contradicting the claim (and spec invariant I4) that
`shard_to_keys` equals the original per-shard key sets with each key listed
once.  At the failing input (a single `Get` on key `"A"` of shard `0`) the
index comes out as `[(0, ["A", "A"])]` instead of `[(0, ["A"])]`;
`conflicts(self, self)` does hold. -/
theorem c7_command_new_round_trip_failing_input :
    (Command.new (Rifl.mk 1 1) [(0, [("A", [.get])])]).shardToKeys = [(0, ["A", "A"])] ∧
    (Command.new (Rifl.mk 1 1) [(0, [("A", [.get])])]).shardToKeys ≠ [(0, ["A"])] ∧
    (Command.new (Rifl.mk 1 1) [(0, [("A", [.get])])]).conflicts
      (Command.new (Rifl.mk 1 1) [(0, [("A", [.get])])]) = true := by
  refine ⟨rfl, by decide, rfl⟩

/-! ## C8 and C2 counterexamples -/

/-- C8 counterexample.  With NFR enabled, the read-only single-key command
`Get("A")` with dot `1.1` registers itself as the latest read; a later noop
(dot `3.1`) computes its dependencies with `do_noop_deps`, which inserts every
registered latest read unconditionally — so the read's dot `1.1` does appear
in the noop's dependency set, refuting "its own dot never appears in the
dependency set returned for any later command or noop". -/
theorem c8_nfr_read_in_noop_deps_counterexample :
    ∃ s1 deps1 kd1,
      (MultiRecordValues.new 0 true 10).doAddCmd 0 (fun _ _ => 0) (Dot.mk 1 1)
        (Command.new (Rifl.mk 1 1) [(0, [("A", [.get])])]) [] [("A", [[0]])] =
        some (s1, deps1, kd1) ∧
      deps1 = [] ∧
      depsMemDot (s1.addNoop (Dot.mk 3 1)).2 (Dot.mk 1 1) = true := by
  exact ⟨_, _, _, rfl, rfl, rfl⟩

/-- C2 counterexample.  Two read-only commands `Get("A")` (dots `1.1`, `2.1`)
whose chosen sub-index sets on the shared key both equal `{0}` — certainly
intersecting — yet the second command's dependency set does not contain the
first command's dot: reads do not conflict with reads, so the claim's "if the
chosen sub-index sets intersect, the second command's dependency set does
contain the first command's dot" fails for a read/read pair. -/
theorem c2_read_read_intersect_counterexample :
    ∃ s1 deps1 kd1 s2 deps2 kd2,
      (MultiRecordValues.new 0 false 10).doAddCmd 0 (fun _ _ => 0) (Dot.mk 1 1)
        (Command.new (Rifl.mk 1 1) [(0, [("A", [.get])])]) [] [("A", [[0]])] =
        some (s1, deps1, kd1) ∧
      s1.doAddCmd 0 (fun _ _ => 0) (Dot.mk 2 1)
        (Command.new (Rifl.mk 2 1) [(0, [("A", [.get])])]) [] [("A", [[0]])] =
        some (s2, deps2, kd2) ∧
      depsMemDot deps2 (Dot.mk 1 1) = false := by
  exact ⟨_, _, _, _, _, _, rfl, rfl, rfl⟩

/-! ## Helper lemmas for the MRV tracker -/

theorem get?_some_lt {α : Type} (l : List α) (i : Nat) (a : α) (h : l.get? i = some a) :
    i < l.length := by
  induction l generalizing i with
  | nil => simp at h
  | cons b rest ih =>
    cases i with
    | zero => simp
    | succ i =>
      simp only [List.get?] at h
      have := ih i h
      simp
      omega

theorem drop_get? {α : Type} (l : List α) (i : Nat) (a : α) (h : l.get? i = some a) :
    l.drop i = a :: l.drop (i + 1) := by
  induction l generalizing i with
  | nil => simp at h
  | cons b rest ih =>
    cases i with
    | zero =>
      simp only [List.get?] at h
      cases h
      rfl
    | succ i =>
      simp only [List.get?] at h
      simpa using ih i h

theorem lookupA_insertA_self {κ α : Type} [DecidableEq κ] (m : List (κ × α)) (k : κ)
    (v : α) : lookupA (insertA m k v) k = some v := by
  induction m with
  | nil => simp [insertA, lookupA]
  | cons kv rest ih =>
    obtain ⟨k2, w⟩ := kv
    by_cases h : k2 = k
    · simp [insertA, lookupA, h]
    · simp [insertA, lookupA, h, ih]

theorem lookupA_insertA_ne {κ α : Type} [DecidableEq κ] (m : List (κ × α)) (k k2 : κ)
    (v : α) (h : k2 ≠ k) : lookupA (insertA m k v) k2 = lookupA m k2 := by
  induction m with
  | nil =>
    simp only [insertA, lookupA]
    rw [if_neg (fun he => h he.symm)]
  | cons kv rest ih =>
    obtain ⟨k3, w⟩ := kv
    by_cases h3 : k3 = k
    · subst h3
      simp only [insertA, if_pos rfl, lookupA]
      rw [if_neg (fun he => h he.symm), if_neg (fun he => h he.symm)]
    · simp only [insertA, if_neg h3, lookupA]
      by_cases h2 : k3 = k2
      · rw [if_pos h2, if_pos h2]
      · rw [if_neg h2, if_neg h2]
        exact ih

theorem depsMemDot_iff (deps : List Dependency) (t : Dot) :
    depsMemDot deps t = true ↔ ∃ e ∈ deps, e.dot = t := by
  simp [depsMemDot, List.any_eq_true]

theorem depsMemDot_insert_self (deps : List Dependency) (d : Dependency) :
    depsMemDot (depsInsert deps d) d.dot = true := by
  unfold depsInsert
  by_cases h : depsMem deps d = true
  · rw [if_pos h]
    exact h
  · rw [if_neg h]
    exact (depsMemDot_iff _ _).mpr ⟨d, List.mem_cons_self _ _, rfl⟩

theorem depsMemDot_insert_mono (deps : List Dependency) (d : Dependency) (t : Dot)
    (h : depsMemDot deps t = true) : depsMemDot (depsInsert deps d) t = true := by
  unfold depsInsert
  by_cases hm : depsMem deps d = true
  · rw [if_pos hm]
    exact h
  · rw [if_neg hm]
    obtain ⟨e, he, hd⟩ := (depsMemDot_iff _ _).mp h
    exact (depsMemDot_iff _ _).mpr ⟨e, List.mem_cons_of_mem _ he, hd⟩

theorem depsMemDot_insert_elim (deps : List Dependency) (d : Dependency) (t : Dot)
    (h : depsMemDot (depsInsert deps d) t = true) :
    t = d.dot ∨ depsMemDot deps t = true := by
  unfold depsInsert at h
  by_cases hm : depsMem deps d = true
  · rw [if_pos hm] at h
    right
    exact h
  · rw [if_neg hm] at h
    obtain ⟨e, he, hd⟩ := (depsMemDot_iff _ _).mp h
    rcases List.mem_cons.mp he with he2 | he2
    · left
      rw [← hd, he2]
    · right
      exact (depsMemDot_iff _ _).mpr ⟨e, he2, hd⟩

theorem maybeAddDeps_mono (ro nfr : Bool) (slot : LatestRWDep) (deps : List Dependency)
    (t : Dot) (h : depsMemDot deps t = true) :
    depsMemDot (maybeAddDeps ro nfr slot deps) t = true := by
  unfold maybeAddDeps
  cases hw : slot.write <;> cases hr : slot.read <;>
    by_cases hc : (!ro && !nfr) = true <;>
      simp [hc, depsMemDot_insert_mono, h]

theorem maybeAddDeps_elim (ro nfr : Bool) (slot : LatestRWDep) (deps : List Dependency)
    (t : Dot) (h : depsMemDot (maybeAddDeps ro nfr slot deps) t = true) :
    depsMemDot deps t = true ∨ (∃ d, slot.write = some d ∧ d.dot = t) ∨
      (ro = false ∧ nfr = false ∧ ∃ d, slot.read = some d ∧ d.dot = t) := by
  unfold maybeAddDeps at h
  by_cases hc : (!ro && !nfr) = true
  · have hro : ro = false := by
      cases ro <;> simp_all
    have hnfr : nfr = false := by
      cases nfr <;> simp_all
    cases hr : slot.read with
    | none =>
      rw [hr] at h
      simp only [hc, if_true] at h
      cases hw : slot.write with
      | none =>
        rw [hw] at h
        exact Or.inl h
      | some wdep =>
        rw [hw] at h
        rcases depsMemDot_insert_elim _ _ _ h with h2 | h2
        · exact Or.inr (Or.inl ⟨wdep, rfl, h2.symm⟩)
        · exact Or.inl h2
    | some rdep =>
      rw [hr] at h
      simp only [hc, if_true] at h
      rcases depsMemDot_insert_elim _ _ _ h with h2 | h2
      · exact Or.inr (Or.inr ⟨hro, hnfr, rdep, rfl, h2.symm⟩)
      · cases hw : slot.write with
        | none =>
          rw [hw] at h2
          exact Or.inl h2
        | some wdep =>
          rw [hw] at h2
          rcases depsMemDot_insert_elim _ _ _ h2 with h3 | h3
          · exact Or.inr (Or.inl ⟨wdep, rfl, h3.symm⟩)
          · exact Or.inl h3
  · simp only [hc, if_false] at h
    cases hw : slot.write with
    | none =>
      rw [hw] at h
      exact Or.inl h
    | some wdep =>
      rw [hw] at h
      rcases depsMemDot_insert_elim _ _ _ h with h2 | h2
      · exact Or.inr (Or.inl ⟨wdep, rfl, h2.symm⟩)
      · exact Or.inl h2

theorem maybeAddDeps_write (ro nfr : Bool) (slot : LatestRWDep) (deps : List Dependency)
    (d : Dependency) (h : slot.write = some d) :
    depsMemDot (maybeAddDeps ro nfr slot deps) d.dot = true := by
  unfold maybeAddDeps
  rw [h]
  by_cases hc : (!ro && !nfr) = true
  · cases hr : slot.read with
    | none => simp [hc, depsMemDot_insert_self]
    | some rdep => simp [hc, depsMemDot_insert_mono, depsMemDot_insert_self]
  · simp [hc, depsMemDot_insert_self]

/-! ## Level 1: lemmas about `mrvVisitSlot` -/

theorem arrAt_setSlot_self (s : MultiRecordValues) (key : Key) (n : Nat)
    (slot : LatestRWDep) :
    (mrvSetSlot s key n slot).arrAt key =
      { data := (s.arrAt key).data.set n slot, n := (s.arrAt key).n } := by
  simp [mrvSetSlot, MultiRecordValues.arrAt, lookupA_insertA_self]

theorem arrAt_setSlot_ne (s : MultiRecordValues) (key : Key) (n : Nat)
    (slot : LatestRWDep) (key2 : Key) (h : key2 ≠ key) :
    (mrvSetSlot s key n slot).arrAt key2 = s.arrAt key2 := by
  simp [mrvSetSlot, MultiRecordValues.arrAt, lookupA_insertA_ne _ _ _ _ h]

theorem visitSlot_eq (s : MultiRecordValues) (ro : Bool) (cmdDep : Dependency)
    (key : Key) (n : Nat) (deps : List Dependency) (s2 : MultiRecordValues)
    (deps2 : List Dependency)
    (h : mrvVisitSlot s ro cmdDep key n deps = some (s2, deps2)) :
    ∃ latestRW, (s.arrAt key).data.get? n = some latestRW ∧
      deps2 = maybeAddDeps ro s.nfr latestRW deps ∧
      s2 = mrvSetSlot s key n (if ro then { latestRW with read := some cmdDep }
        else { latestRW with write := some cmdDep }) := by
  unfold mrvVisitSlot at h
  cases harr : (s.arrAt key).data.get? n with
  | none =>
    rw [harr] at h
    cases h
  | some latestRW =>
    rw [harr] at h
    simp only [Option.some.injEq] at h
    exact ⟨latestRW, rfl, (congrArg Prod.snd h).symm, (congrArg Prod.fst h).symm⟩

theorem visitSlot_admin (s : MultiRecordValues) (ro : Bool) (cmdDep : Dependency)
    (key : Key) (n : Nat) (deps : List Dependency) (s2 : MultiRecordValues)
    (deps2 : List Dependency)
    (h : mrvVisitSlot s ro cmdDep key n deps = some (s2, deps2)) :
    s2.latestNoop = s.latestNoop ∧ s2.nfr = s.nfr ∧ s2.shardId = s.shardId := by
  obtain ⟨lrw, harr, hdeps, hs2⟩ := visitSlot_eq s ro cmdDep key n deps s2 deps2 h
  subst hs2
  exact ⟨rfl, rfl, rfl⟩

theorem visitSlot_slots (s : MultiRecordValues) (ro : Bool) (cmdDep : Dependency)
    (key : Key) (n : Nat) (deps : List Dependency) (s2 : MultiRecordValues)
    (deps2 : List Dependency)
    (h : mrvVisitSlot s ro cmdDep key n deps = some (s2, deps2)) :
    (∀ key2 n2, key2 ≠ key ∨ n2 ≠ n →
      s2.writeDepAt key2 n2 = s.writeDepAt key2 n2 ∧
      s2.readDepAt key2 n2 = s.readDepAt key2 n2) ∧
    (ro = false → s2.writeDepAt key n = some cmdDep ∧
      s2.readDepAt key n = s.readDepAt key n) ∧
    (ro = true → s2.readDepAt key n = some cmdDep ∧
      s2.writeDepAt key n = s.writeDepAt key n) := by
  obtain ⟨lrw, harr, hdeps, hs2⟩ := visitSlot_eq s ro cmdDep key n deps s2 deps2 h
  have hlt : n < (s.arrAt key).data.length := get?_some_lt _ _ _ harr
  subst hs2
  refine ⟨?_, ?_, ?_⟩
  · intro key2 n2 hne
    by_cases hk : key2 = key
    · subst hk
      have hn : n2 ≠ n := by
        rcases hne with hne | hne
        · exact absurd rfl hne
        · exact hne
      rw [MultiRecordValues.writeDepAt, MultiRecordValues.writeDepAt,
        MultiRecordValues.readDepAt, MultiRecordValues.readDepAt, arrAt_setSlot_self]
      rw [get?_set_ne _ _ _ _ (fun he => hn he.symm)]
      exact ⟨rfl, rfl⟩
    · rw [MultiRecordValues.writeDepAt, MultiRecordValues.writeDepAt,
        MultiRecordValues.readDepAt, MultiRecordValues.readDepAt,
        arrAt_setSlot_ne _ _ _ _ _ hk]
      exact ⟨rfl, rfl⟩
  · intro hro
    subst hro
    rw [MultiRecordValues.writeDepAt, MultiRecordValues.readDepAt, arrAt_setSlot_self]
    rw [get?_set_self _ _ _ hlt]
    rw [MultiRecordValues.readDepAt, harr]
    simp
  · intro hro
    subst hro
    rw [MultiRecordValues.writeDepAt, MultiRecordValues.readDepAt, arrAt_setSlot_self]
    rw [get?_set_self _ _ _ hlt]
    rw [MultiRecordValues.writeDepAt, harr]
    simp

theorem visitSlot_write_forward (s : MultiRecordValues) (ro : Bool) (cmdDep : Dependency)
    (key : Key) (n : Nat) (deps : List Dependency) (s2 : MultiRecordValues)
    (deps2 : List Dependency)
    (h : mrvVisitSlot s ro cmdDep key n deps = some (s2, deps2)) (key2 : Key) (n2 : Nat) :
    s2.writeDepAt key2 n2 = s.writeDepAt key2 n2 ∨
      (ro = false ∧ key2 = key ∧ n2 = n ∧ s2.writeDepAt key2 n2 = some cmdDep) := by
  obtain ⟨hframe, hwf, hwt⟩ := visitSlot_slots s ro cmdDep key n deps s2 deps2 h
  by_cases hk : key2 = key
  · by_cases hn : n2 = n
    · subst hk; subst hn
      cases ro with
      | false => exact Or.inr ⟨rfl, rfl, rfl, (hwf rfl).1⟩
      | true => exact Or.inl (hwt rfl).2
    · exact Or.inl (hframe key2 n2 (Or.inr hn)).1
  · exact Or.inl (hframe key2 n2 (Or.inl hk)).1

theorem visitSlot_read_forward (s : MultiRecordValues) (ro : Bool) (cmdDep : Dependency)
    (key : Key) (n : Nat) (deps : List Dependency) (s2 : MultiRecordValues)
    (deps2 : List Dependency)
    (h : mrvVisitSlot s ro cmdDep key n deps = some (s2, deps2)) (key2 : Key) (n2 : Nat) :
    s2.readDepAt key2 n2 = s.readDepAt key2 n2 ∨
      (ro = true ∧ key2 = key ∧ n2 = n ∧ s2.readDepAt key2 n2 = some cmdDep) := by
  obtain ⟨hframe, hwf, hwt⟩ := visitSlot_slots s ro cmdDep key n deps s2 deps2 h
  by_cases hk : key2 = key
  · by_cases hn : n2 = n
    · subst hk; subst hn
      cases ro with
      | true => exact Or.inr ⟨rfl, rfl, rfl, (hwt rfl).1⟩
      | false => exact Or.inl (hwf rfl).2
    · exact Or.inl (hframe key2 n2 (Or.inr hn)).2
  · exact Or.inl (hframe key2 n2 (Or.inl hk)).2

theorem visitSlot_deps_mono (s : MultiRecordValues) (ro : Bool) (cmdDep : Dependency)
    (key : Key) (n : Nat) (deps : List Dependency) (s2 : MultiRecordValues)
    (deps2 : List Dependency)
    (h : mrvVisitSlot s ro cmdDep key n deps = some (s2, deps2)) (t : Dot)
    (hm : depsMemDot deps t = true) : depsMemDot deps2 t = true := by
  obtain ⟨lrw, harr, hdeps, hs2⟩ := visitSlot_eq s ro cmdDep key n deps s2 deps2 h
  subst hdeps
  exact maybeAddDeps_mono _ _ _ _ _ hm

theorem visitSlot_deps_elim (s : MultiRecordValues) (ro : Bool) (cmdDep : Dependency)
    (key : Key) (n : Nat) (deps : List Dependency) (s2 : MultiRecordValues)
    (deps2 : List Dependency)
    (h : mrvVisitSlot s ro cmdDep key n deps = some (s2, deps2)) (t : Dot)
    (hm : depsMemDot deps2 t = true) :
    depsMemDot deps t = true ∨
      (∃ d, s.writeDepAt key n = some d ∧ d.dot = t) ∨
      (ro = false ∧ s.nfr = false ∧ ∃ d, s.readDepAt key n = some d ∧ d.dot = t) := by
  obtain ⟨lrw, harr, hdeps, hs2⟩ := visitSlot_eq s ro cmdDep key n deps s2 deps2 h
  subst hdeps
  have hW : s.writeDepAt key n = lrw.write := by
    rw [MultiRecordValues.writeDepAt, harr]
    rfl
  have hR : s.readDepAt key n = lrw.read := by
    rw [MultiRecordValues.readDepAt, harr]
    rfl
  rcases maybeAddDeps_elim ro s.nfr lrw deps t hm with h1 | h1 | h1
  · exact Or.inl h1
  · obtain ⟨d, hd, hdot⟩ := h1
    exact Or.inr (Or.inl ⟨d, by rw [hW]; exact hd, hdot⟩)
  · obtain ⟨hro, hnfr, d, hd, hdot⟩ := h1
    exact Or.inr (Or.inr ⟨hro, hnfr, d, by rw [hR]; exact hd, hdot⟩)

theorem visitSlot_collect_write (s : MultiRecordValues) (ro : Bool) (cmdDep : Dependency)
    (key : Key) (n : Nat) (deps : List Dependency) (s2 : MultiRecordValues)
    (deps2 : List Dependency)
    (h : mrvVisitSlot s ro cmdDep key n deps = some (s2, deps2)) (d : Dependency)
    (hw : s.writeDepAt key n = some d) : depsMemDot deps2 d.dot = true := by
  obtain ⟨lrw, harr, hdeps, hs2⟩ := visitSlot_eq s ro cmdDep key n deps s2 deps2 h
  subst hdeps
  have hW : lrw.write = some d := by
    rw [MultiRecordValues.writeDepAt, harr] at hw
    exact hw
  exact maybeAddDeps_write _ _ _ _ _ hW

/-! ## Level 2: lemmas about `mrvVisitSlots` -/

theorem visitSlots_step (s : MultiRecordValues) (ro : Bool) (cmdDep : Dependency)
    (key : Key) (n1 : Nat) (rest : List Nat) (deps : List Dependency)
    (s2 : MultiRecordValues) (deps2 : List Dependency)
    (h : mrvVisitSlots s ro cmdDep key (n1 :: rest) deps = some (s2, deps2)) :
    ∃ sm depsm, mrvVisitSlot s ro cmdDep key n1 deps = some (sm, depsm) ∧
      mrvVisitSlots sm ro cmdDep key rest depsm = some (s2, deps2) := by
  unfold mrvVisitSlots at h
  cases hstep : mrvVisitSlot s ro cmdDep key n1 deps with
  | none =>
    rw [hstep] at h
    cases h
  | some p =>
    rw [hstep] at h
    exact ⟨p.1, p.2, rfl, h⟩

theorem visitSlots_nil (s : MultiRecordValues) (ro : Bool) (cmdDep : Dependency)
    (key : Key) (deps : List Dependency) (s2 : MultiRecordValues)
    (deps2 : List Dependency)
    (h : mrvVisitSlots s ro cmdDep key [] deps = some (s2, deps2)) :
    s2 = s ∧ deps2 = deps := by
  unfold mrvVisitSlots at h
  simp only [Option.some.injEq] at h
  exact ⟨(congrArg Prod.fst h).symm, (congrArg Prod.snd h).symm⟩

theorem visitSlots_admin (s : MultiRecordValues) (ro : Bool) (cmdDep : Dependency)
    (key : Key) (ns : List Nat) (deps : List Dependency) (s2 : MultiRecordValues)
    (deps2 : List Dependency)
    (h : mrvVisitSlots s ro cmdDep key ns deps = some (s2, deps2)) :
    s2.latestNoop = s.latestNoop ∧ s2.nfr = s.nfr ∧ s2.shardId = s.shardId := by
  induction ns generalizing s deps with
  | nil =>
    obtain ⟨hs, -⟩ := visitSlots_nil s ro cmdDep key deps s2 deps2 h
    subst hs
    exact ⟨rfl, rfl, rfl⟩
  | cons n1 rest ih =>
    obtain ⟨sm, depsm, hstep, hrest⟩ := visitSlots_step s ro cmdDep key n1 rest deps s2 deps2 h
    obtain ⟨h1, h2, h3⟩ := visitSlot_admin s ro cmdDep key n1 deps sm depsm hstep
    obtain ⟨g1, g2, g3⟩ := ih sm depsm hrest
    exact ⟨g1.trans h1, g2.trans h2, g3.trans h3⟩

theorem visitSlots_frame (s : MultiRecordValues) (ro : Bool) (cmdDep : Dependency)
    (key : Key) (ns : List Nat) (deps : List Dependency) (s2 : MultiRecordValues)
    (deps2 : List Dependency)
    (h : mrvVisitSlots s ro cmdDep key ns deps = some (s2, deps2)) (key2 : Key) (n2 : Nat)
    (hout : key2 ≠ key ∨ n2 ∉ ns) :
    s2.writeDepAt key2 n2 = s.writeDepAt key2 n2 ∧
      s2.readDepAt key2 n2 = s.readDepAt key2 n2 := by
  induction ns generalizing s deps with
  | nil =>
    obtain ⟨hs, -⟩ := visitSlots_nil s ro cmdDep key deps s2 deps2 h
    subst hs
    exact ⟨rfl, rfl⟩
  | cons n1 rest ih =>
    obtain ⟨sm, depsm, hstep, hrest⟩ := visitSlots_step s ro cmdDep key n1 rest deps s2 deps2 h
    have hout1 : key2 ≠ key ∨ n2 ≠ n1 := by
      rcases hout with hk | hn
      · exact Or.inl hk
      · exact Or.inr (fun he => hn (he ▸ List.mem_cons_self n1 rest))
    have houtrest : key2 ≠ key ∨ n2 ∉ rest := by
      rcases hout with hk | hn
      · exact Or.inl hk
      · exact Or.inr (fun he => hn (List.mem_cons_of_mem n1 he))
    obtain ⟨hw1, hr1⟩ :=
      (visitSlot_slots s ro cmdDep key n1 deps sm depsm hstep).1 key2 n2 hout1
    obtain ⟨hw2, hr2⟩ := ih sm depsm hrest houtrest
    exact ⟨hw2.trans hw1, hr2.trans hr1⟩

theorem visitSlots_write_forward (s : MultiRecordValues) (ro : Bool) (cmdDep : Dependency)
    (key : Key) (ns : List Nat) (deps : List Dependency) (s2 : MultiRecordValues)
    (deps2 : List Dependency)
    (h : mrvVisitSlots s ro cmdDep key ns deps = some (s2, deps2)) (key2 : Key) (n2 : Nat) :
    s2.writeDepAt key2 n2 = s.writeDepAt key2 n2 ∨
      (ro = false ∧ key2 = key ∧ n2 ∈ ns ∧ s2.writeDepAt key2 n2 = some cmdDep) := by
  induction ns generalizing s deps with
  | nil =>
    obtain ⟨hs, -⟩ := visitSlots_nil s ro cmdDep key deps s2 deps2 h
    subst hs
    exact Or.inl rfl
  | cons n1 rest ih =>
    obtain ⟨sm, depsm, hstep, hrest⟩ := visitSlots_step s ro cmdDep key n1 rest deps s2 deps2 h
    rcases ih sm depsm hrest with h2 | ⟨hro, hk, hmem, hval⟩
    · rcases visitSlot_write_forward s ro cmdDep key n1 deps sm depsm hstep key2 n2 with
        h1 | ⟨hro, hk, hn, hval⟩
      · exact Or.inl (h2.trans h1)
      · exact Or.inr ⟨hro, hk, hn ▸ List.mem_cons_self n1 rest, h2.trans hval⟩
    · exact Or.inr ⟨hro, hk, List.mem_cons_of_mem n1 hmem, hval⟩

theorem visitSlots_read_forward (s : MultiRecordValues) (ro : Bool) (cmdDep : Dependency)
    (key : Key) (ns : List Nat) (deps : List Dependency) (s2 : MultiRecordValues)
    (deps2 : List Dependency)
    (h : mrvVisitSlots s ro cmdDep key ns deps = some (s2, deps2)) (key2 : Key) (n2 : Nat) :
    s2.readDepAt key2 n2 = s.readDepAt key2 n2 ∨
      (ro = true ∧ key2 = key ∧ n2 ∈ ns ∧ s2.readDepAt key2 n2 = some cmdDep) := by
  induction ns generalizing s deps with
  | nil =>
    obtain ⟨hs, -⟩ := visitSlots_nil s ro cmdDep key deps s2 deps2 h
    subst hs
    exact Or.inl rfl
  | cons n1 rest ih =>
    obtain ⟨sm, depsm, hstep, hrest⟩ := visitSlots_step s ro cmdDep key n1 rest deps s2 deps2 h
    rcases ih sm depsm hrest with h2 | ⟨hro, hk, hmem, hval⟩
    · rcases visitSlot_read_forward s ro cmdDep key n1 deps sm depsm hstep key2 n2 with
        h1 | ⟨hro, hk, hn, hval⟩
      · exact Or.inl (h2.trans h1)
      · exact Or.inr ⟨hro, hk, hn ▸ List.mem_cons_self n1 rest, h2.trans hval⟩
    · exact Or.inr ⟨hro, hk, List.mem_cons_of_mem n1 hmem, hval⟩

theorem visitSlots_write_lower (s : MultiRecordValues) (ro : Bool) (cmdDep : Dependency)
    (key : Key) (ns : List Nat) (deps : List Dependency) (s2 : MultiRecordValues)
    (deps2 : List Dependency)
    (h : mrvVisitSlots s ro cmdDep key ns deps = some (s2, deps2)) (hro : ro = false)
    (n : Nat) (hmem : n ∈ ns) : s2.writeDepAt key n = some cmdDep := by
  induction ns generalizing s deps with
  | nil => simp at hmem
  | cons n1 rest ih =>
    obtain ⟨sm, depsm, hstep, hrest⟩ := visitSlots_step s ro cmdDep key n1 rest deps s2 deps2 h
    by_cases hn : n ∈ rest
    · exact ih sm depsm hrest hn
    · have hn1 : n = n1 := by
        rcases List.mem_cons.mp hmem with he | he
        · exact he
        · exact absurd he hn
      subst hn1
      have hsm : sm.writeDepAt key n = some cmdDep :=
        ((visitSlot_slots s ro cmdDep key n deps sm depsm hstep).2.1 hro).1
      rcases visitSlots_write_forward sm ro cmdDep key rest depsm s2 deps2 hrest key n with
        h2 | ⟨-, -, -, hval⟩
      · exact h2.trans hsm
      · exact hval

theorem visitSlots_deps_mono (s : MultiRecordValues) (ro : Bool) (cmdDep : Dependency)
    (key : Key) (ns : List Nat) (deps : List Dependency) (s2 : MultiRecordValues)
    (deps2 : List Dependency)
    (h : mrvVisitSlots s ro cmdDep key ns deps = some (s2, deps2)) (t : Dot)
    (hm : depsMemDot deps t = true) : depsMemDot deps2 t = true := by
  induction ns generalizing s deps with
  | nil =>
    obtain ⟨-, hd⟩ := visitSlots_nil s ro cmdDep key deps s2 deps2 h
    subst hd
    exact hm
  | cons n1 rest ih =>
    obtain ⟨sm, depsm, hstep, hrest⟩ := visitSlots_step s ro cmdDep key n1 rest deps s2 deps2 h
    exact ih sm depsm hrest (visitSlot_deps_mono s ro cmdDep key n1 deps sm depsm hstep t hm)

theorem visitSlots_deps_elim (s : MultiRecordValues) (ro : Bool) (cmdDep : Dependency)
    (key : Key) (ns : List Nat) (deps : List Dependency) (s2 : MultiRecordValues)
    (deps2 : List Dependency)
    (h : mrvVisitSlots s ro cmdDep key ns deps = some (s2, deps2)) (t : Dot)
    (hm : depsMemDot deps2 t = true) :
    depsMemDot deps t = true ∨
      (∃ n2 ∈ ns, ∃ d, s.writeDepAt key n2 = some d ∧ d.dot = t) ∨
      (ro = false ∧ t = cmdDep.dot) ∨
      (ro = false ∧ s.nfr = false ∧
        ∃ n2 ∈ ns, ∃ d, s.readDepAt key n2 = some d ∧ d.dot = t) := by
  induction ns generalizing s deps with
  | nil =>
    obtain ⟨-, hd⟩ := visitSlots_nil s ro cmdDep key deps s2 deps2 h
    subst hd
    exact Or.inl hm
  | cons n1 rest ih =>
    obtain ⟨sm, depsm, hstep, hrest⟩ := visitSlots_step s ro cmdDep key n1 rest deps s2 deps2 h
    have hnfr : sm.nfr = s.nfr :=
      (visitSlot_admin s ro cmdDep key n1 deps sm depsm hstep).2.1
    rcases ih sm depsm hrest with h2 | h2 | h2 | h2
    · rcases visitSlot_deps_elim s ro cmdDep key n1 deps sm depsm hstep t h2 with
        h1 | h1 | h1
      · exact Or.inl h1
      · obtain ⟨d, hd, hdot⟩ := h1
        exact Or.inr (Or.inl ⟨n1, List.mem_cons_self n1 rest, d, hd, hdot⟩)
      · obtain ⟨hro, hnf, d, hd, hdot⟩ := h1
        exact Or.inr (Or.inr (Or.inr ⟨hro, hnf,
          n1, List.mem_cons_self n1 rest, d, hd, hdot⟩))
    · obtain ⟨n2, hn2, d, hd, hdot⟩ := h2
      rcases visitSlot_write_forward s ro cmdDep key n1 deps sm depsm hstep key n2 with
        h1 | ⟨hro, -, -, hval⟩
      · exact Or.inr (Or.inl ⟨n2, List.mem_cons_of_mem n1 hn2, d, h1 ▸ hd, hdot⟩)
      · rw [hval] at hd
        have : d = cmdDep := by
          injection hd.symm
        exact Or.inr (Or.inr (Or.inl ⟨hro, by rw [← hdot, this]⟩))
    · exact Or.inr (Or.inr (Or.inl h2))
    · obtain ⟨hro, hnf, n2, hn2, d, hd, hdot⟩ := h2
      rcases visitSlot_read_forward s ro cmdDep key n1 deps sm depsm hstep key n2 with
        h1 | ⟨hro2, -, -, -⟩
      · exact Or.inr (Or.inr (Or.inr ⟨hro, hnfr ▸ hnf,
          n2, List.mem_cons_of_mem n1 hn2, d, h1 ▸ hd, hdot⟩))
      · rw [hro] at hro2
        cases hro2

theorem visitSlots_collect_write (s : MultiRecordValues) (ro : Bool) (cmdDep : Dependency)
    (key : Key) (ns : List Nat) (deps : List Dependency) (s2 : MultiRecordValues)
    (deps2 : List Dependency)
    (h : mrvVisitSlots s ro cmdDep key ns deps = some (s2, deps2)) (n : Nat)
    (hmem : n ∈ ns) (d : Dependency) (hw : s.writeDepAt key n = some d) :
    depsMemDot deps2 d.dot = true := by
  induction ns generalizing s deps with
  | nil => simp at hmem
  | cons n1 rest ih =>
    obtain ⟨sm, depsm, hstep, hrest⟩ := visitSlots_step s ro cmdDep key n1 rest deps s2 deps2 h
    by_cases hn : n = n1
    · subst hn
      exact visitSlots_deps_mono sm ro cmdDep key rest depsm s2 deps2 hrest d.dot
        (visitSlot_collect_write s ro cmdDep key n deps sm depsm hstep d hw)
    · have hnrest : n ∈ rest := by
        rcases List.mem_cons.mp hmem with he | he
        · exact absurd he hn
        · exact he
      have hfr : sm.writeDepAt key n = s.writeDepAt key n :=
        ((visitSlot_slots s ro cmdDep key n1 deps sm depsm hstep).1 key n
          (Or.inr (fun he => hn he))).1
      exact ih sm depsm hrest hnrest (by rw [hfr]; exact hw)

/-! ## Level 3: lemmas about `mrvProcessOps` -/

theorem processOps_nil (ro : Bool) (cmdDep : Dependency) (key : Key) (kSub : Nat)
    (rand : Nat → Nat) (index : Nat) (s : MultiRecordValues) (nKeyDep : List (List Nat))
    (deps : List Dependency) (s2 : MultiRecordValues) (nKeyDep2 : List (List Nat))
    (deps2 : List Dependency)
    (h : mrvProcessOps ro cmdDep key kSub rand [] index s nKeyDep deps =
      some (s2, nKeyDep2, deps2)) :
    s2 = s ∧ nKeyDep2 = nKeyDep ∧ deps2 = deps := by
  unfold mrvProcessOps at h
  simp only [Option.some.injEq] at h
  refine ⟨(congrArg Prod.fst h).symm, ?_, ?_⟩
  · exact (congrArg (fun p => p.2.1) h).symm
  · exact (congrArg (fun p => p.2.2) h).symm

theorem processOps_step (ro : Bool) (cmdDep : Dependency) (key : Key) (kSub : Nat)
    (rand : Nat → Nat) (op : StorageOp) (rest : List StorageOp) (index : Nat)
    (s : MultiRecordValues) (nKeyDep : List (List Nat)) (deps : List Dependency)
    (s2 : MultiRecordValues) (nKeyDep2 : List (List Nat)) (deps2 : List Dependency)
    (h : mrvProcessOps ro cmdDep key kSub rand (op :: rest) index s nKeyDep deps =
      some (s2, nKeyDep2, deps2)) :
    ∃ picked nkd2 sm depsm,
      ((nKeyDep.get? index = some picked ∧ nkd2 = nKeyDep) ∨
        (nKeyDep.get? index = none ∧ picked = mrvChoose kSub (rand index) op ∧
          nkd2 = nKeyDep ++ [picked])) ∧
      mrvVisitSlots s ro cmdDep key picked deps = some (sm, depsm) ∧
      mrvProcessOps ro cmdDep key kSub rand rest (index + 1) sm nkd2 depsm =
        some (s2, nKeyDep2, deps2) := by
  unfold mrvProcessOps at h
  cases hget : nKeyDep.get? index with
  | some value =>
    rw [hget] at h
    simp only at h
    cases hvs : mrvVisitSlots s ro cmdDep key value deps with
    | none =>
      rw [hvs] at h
      cases h
    | some p =>
      obtain ⟨sm, depsm⟩ := p
      rw [hvs] at h
      exact ⟨value, nKeyDep, sm, depsm, Or.inl ⟨rfl, rfl⟩, hvs, h⟩
  | none =>
    rw [hget] at h
    simp only at h
    cases hvs : mrvVisitSlots s ro cmdDep key (mrvChoose kSub (rand index) op) deps with
    | none =>
      rw [hvs] at h
      cases h
    | some p =>
      obtain ⟨sm, depsm⟩ := p
      rw [hvs] at h
      exact ⟨mrvChoose kSub (rand index) op, nKeyDep ++ [mrvChoose kSub (rand index) op],
        sm, depsm, Or.inr ⟨rfl, rfl, rfl⟩, hvs, h⟩

theorem processOps_admin (ro : Bool) (cmdDep : Dependency) (key : Key) (kSub : Nat)
    (rand : Nat → Nat) (ops : List StorageOp) (index : Nat) (s : MultiRecordValues)
    (nKeyDep : List (List Nat)) (deps : List Dependency) (s2 : MultiRecordValues)
    (nKeyDep2 : List (List Nat)) (deps2 : List Dependency)
    (h : mrvProcessOps ro cmdDep key kSub rand ops index s nKeyDep deps =
      some (s2, nKeyDep2, deps2)) :
    s2.latestNoop = s.latestNoop ∧ s2.nfr = s.nfr ∧ s2.shardId = s.shardId := by
  induction ops generalizing index s nKeyDep deps with
  | nil =>
    obtain ⟨hs, -, -⟩ := processOps_nil ro cmdDep key kSub rand index s nKeyDep deps
      s2 nKeyDep2 deps2 h
    subst hs
    exact ⟨rfl, rfl, rfl⟩
  | cons op rest ih =>
    obtain ⟨picked, nkd2, sm, depsm, -, hvs, hrest⟩ :=
      processOps_step ro cmdDep key kSub rand op rest index s nKeyDep deps s2 nKeyDep2 deps2 h
    obtain ⟨h1, h2, h3⟩ := visitSlots_admin s ro cmdDep key picked deps sm depsm hvs
    obtain ⟨g1, g2, g3⟩ := ih (index + 1) sm nkd2 depsm hrest
    exact ⟨g1.trans h1, g2.trans h2, g3.trans h3⟩

theorem processOps_write_forward_u (ro : Bool) (cmdDep : Dependency) (key : Key)
    (kSub : Nat) (rand : Nat → Nat) (ops : List StorageOp) (index : Nat)
    (s : MultiRecordValues) (nKeyDep : List (List Nat)) (deps : List Dependency)
    (s2 : MultiRecordValues) (nKeyDep2 : List (List Nat)) (deps2 : List Dependency)
    (h : mrvProcessOps ro cmdDep key kSub rand ops index s nKeyDep deps =
      some (s2, nKeyDep2, deps2)) (key2 : Key) (n2 : Nat) :
    s2.writeDepAt key2 n2 = s.writeDepAt key2 n2 ∨
      (ro = false ∧ s2.writeDepAt key2 n2 = some cmdDep) := by
  induction ops generalizing index s nKeyDep deps with
  | nil =>
    obtain ⟨hs, -, -⟩ := processOps_nil ro cmdDep key kSub rand index s nKeyDep deps
      s2 nKeyDep2 deps2 h
    subst hs
    exact Or.inl rfl
  | cons op rest ih =>
    obtain ⟨picked, nkd2, sm, depsm, -, hvs, hrest⟩ :=
      processOps_step ro cmdDep key kSub rand op rest index s nKeyDep deps s2 nKeyDep2 deps2 h
    rcases ih (index + 1) sm nkd2 depsm hrest with h2 | ⟨hro, hval⟩
    · rcases visitSlots_write_forward s ro cmdDep key picked deps sm depsm hvs key2 n2 with
        h1 | ⟨hro, -, -, hval⟩
      · exact Or.inl (h2.trans h1)
      · exact Or.inr ⟨hro, h2.trans hval⟩
    · exact Or.inr ⟨hro, hval⟩

theorem processOps_read_forward_u (ro : Bool) (cmdDep : Dependency) (key : Key)
    (kSub : Nat) (rand : Nat → Nat) (ops : List StorageOp) (index : Nat)
    (s : MultiRecordValues) (nKeyDep : List (List Nat)) (deps : List Dependency)
    (s2 : MultiRecordValues) (nKeyDep2 : List (List Nat)) (deps2 : List Dependency)
    (h : mrvProcessOps ro cmdDep key kSub rand ops index s nKeyDep deps =
      some (s2, nKeyDep2, deps2)) (key2 : Key) (n2 : Nat) :
    s2.readDepAt key2 n2 = s.readDepAt key2 n2 ∨
      (ro = true ∧ s2.readDepAt key2 n2 = some cmdDep) := by
  induction ops generalizing index s nKeyDep deps with
  | nil =>
    obtain ⟨hs, -, -⟩ := processOps_nil ro cmdDep key kSub rand index s nKeyDep deps
      s2 nKeyDep2 deps2 h
    subst hs
    exact Or.inl rfl
  | cons op rest ih =>
    obtain ⟨picked, nkd2, sm, depsm, -, hvs, hrest⟩ :=
      processOps_step ro cmdDep key kSub rand op rest index s nKeyDep deps s2 nKeyDep2 deps2 h
    rcases ih (index + 1) sm nkd2 depsm hrest with h2 | ⟨hro, hval⟩
    · rcases visitSlots_read_forward s ro cmdDep key picked deps sm depsm hvs key2 n2 with
        h1 | ⟨hro, -, -, hval⟩
      · exact Or.inl (h2.trans h1)
      · exact Or.inr ⟨hro, h2.trans hval⟩
    · exact Or.inr ⟨hro, hval⟩

theorem processOps_deps_mono (ro : Bool) (cmdDep : Dependency) (key : Key) (kSub : Nat)
    (rand : Nat → Nat) (ops : List StorageOp) (index : Nat) (s : MultiRecordValues)
    (nKeyDep : List (List Nat)) (deps : List Dependency) (s2 : MultiRecordValues)
    (nKeyDep2 : List (List Nat)) (deps2 : List Dependency)
    (h : mrvProcessOps ro cmdDep key kSub rand ops index s nKeyDep deps =
      some (s2, nKeyDep2, deps2)) (t : Dot) (hm : depsMemDot deps t = true) :
    depsMemDot deps2 t = true := by
  induction ops generalizing index s nKeyDep deps with
  | nil =>
    obtain ⟨-, -, hd⟩ := processOps_nil ro cmdDep key kSub rand index s nKeyDep deps
      s2 nKeyDep2 deps2 h
    subst hd
    exact hm
  | cons op rest ih =>
    obtain ⟨picked, nkd2, sm, depsm, -, hvs, hrest⟩ :=
      processOps_step ro cmdDep key kSub rand op rest index s nKeyDep deps s2 nKeyDep2 deps2 h
    exact ih (index + 1) sm nkd2 depsm hrest
      (visitSlots_deps_mono s ro cmdDep key picked deps sm depsm hvs t hm)

theorem processOps_deps_elim_u (ro : Bool) (cmdDep : Dependency) (key : Key) (kSub : Nat)
    (rand : Nat → Nat) (ops : List StorageOp) (index : Nat) (s : MultiRecordValues)
    (nKeyDep : List (List Nat)) (deps : List Dependency) (s2 : MultiRecordValues)
    (nKeyDep2 : List (List Nat)) (deps2 : List Dependency)
    (h : mrvProcessOps ro cmdDep key kSub rand ops index s nKeyDep deps =
      some (s2, nKeyDep2, deps2)) (t : Dot) (hm : depsMemDot deps2 t = true) :
    depsMemDot deps t = true ∨
      (∃ n2, ∃ d, s.writeDepAt key n2 = some d ∧ d.dot = t) ∨
      (ro = false ∧ t = cmdDep.dot) ∨
      (ro = false ∧ s.nfr = false ∧ ∃ n2, ∃ d, s.readDepAt key n2 = some d ∧ d.dot = t) := by
  induction ops generalizing index s nKeyDep deps with
  | nil =>
    obtain ⟨-, -, hd⟩ := processOps_nil ro cmdDep key kSub rand index s nKeyDep deps
      s2 nKeyDep2 deps2 h
    subst hd
    exact Or.inl hm
  | cons op rest ih =>
    obtain ⟨picked, nkd2, sm, depsm, -, hvs, hrest⟩ :=
      processOps_step ro cmdDep key kSub rand op rest index s nKeyDep deps s2 nKeyDep2 deps2 h
    have hnfr : sm.nfr = s.nfr :=
      (visitSlots_admin s ro cmdDep key picked deps sm depsm hvs).2.1
    rcases ih (index + 1) sm nkd2 depsm hrest with h2 | h2 | h2 | h2
    · rcases visitSlots_deps_elim s ro cmdDep key picked deps sm depsm hvs t h2 with
        h1 | h1 | h1 | h1
      · exact Or.inl h1
      · obtain ⟨n2, -, d, hd, hdot⟩ := h1
        exact Or.inr (Or.inl ⟨n2, d, hd, hdot⟩)
      · exact Or.inr (Or.inr (Or.inl h1))
      · obtain ⟨hro, hnf, n2, -, d, hd, hdot⟩ := h1
        exact Or.inr (Or.inr (Or.inr ⟨hro, hnf, n2, d, hd, hdot⟩))
    · obtain ⟨n2, d, hd, hdot⟩ := h2
      rcases visitSlots_write_forward s ro cmdDep key picked deps sm depsm hvs key n2 with
        h1 | ⟨hro, -, -, hval⟩
      · exact Or.inr (Or.inl ⟨n2, d, h1 ▸ hd, hdot⟩)
      · rw [hval] at hd
        have hdc : d = cmdDep := by
          injection hd.symm
        exact Or.inr (Or.inr (Or.inl ⟨hro, by rw [← hdot, hdc]⟩))
    · exact Or.inr (Or.inr (Or.inl h2))
    · obtain ⟨hro, hnf, n2, d, hd, hdot⟩ := h2
      rcases visitSlots_read_forward s ro cmdDep key picked deps sm depsm hvs key n2 with
        h1 | ⟨hro2, -, -, -⟩
      · exact Or.inr (Or.inr (Or.inr ⟨hro, hnfr ▸ hnf, n2, d, h1 ▸ hd, hdot⟩))
      · rw [hro] at hro2
        cases hro2

/-! ## Level 3 (continued): localized lemmas, under a fully supplied entry -/

theorem processOps_step_full (ro : Bool) (cmdDep : Dependency) (key : Key) (kSub : Nat)
    (rand : Nat → Nat) (op : StorageOp) (rest : List StorageOp) (index : Nat)
    (s : MultiRecordValues) (nKeyDep : List (List Nat)) (deps : List Dependency)
    (s2 : MultiRecordValues) (nKeyDep2 : List (List Nat)) (deps2 : List Dependency)
    (h : mrvProcessOps ro cmdDep key kSub rand (op :: rest) index s nKeyDep deps =
      some (s2, nKeyDep2, deps2))
    (hidx : index + (op :: rest).length ≤ nKeyDep.length) :
    ∃ picked sm depsm, nKeyDep.get? index = some picked ∧
      mrvVisitSlots s ro cmdDep key picked deps = some (sm, depsm) ∧
      mrvProcessOps ro cmdDep key kSub rand rest (index + 1) sm nKeyDep depsm =
        some (s2, nKeyDep2, deps2) := by
  obtain ⟨picked, nkd2, sm, depsm, hcase, hvs, hrest⟩ :=
    processOps_step ro cmdDep key kSub rand op rest index s nKeyDep deps s2 nKeyDep2 deps2 h
  rcases hcase with ⟨hget, hkd⟩ | ⟨hget, -, -⟩
  · subst hkd
    exact ⟨picked, sm, depsm, hget, hvs, hrest⟩
  · exfalso
    obtain ⟨a, ha⟩ := get?_eq_some_of_lt nKeyDep index (by simp at hidx; omega)
    rw [ha] at hget
    cases hget

theorem processOps_kd_eq (ro : Bool) (cmdDep : Dependency) (key : Key) (kSub : Nat)
    (rand : Nat → Nat) (ops : List StorageOp) (index : Nat) (s : MultiRecordValues)
    (nKeyDep : List (List Nat)) (deps : List Dependency) (s2 : MultiRecordValues)
    (nKeyDep2 : List (List Nat)) (deps2 : List Dependency)
    (h : mrvProcessOps ro cmdDep key kSub rand ops index s nKeyDep deps =
      some (s2, nKeyDep2, deps2))
    (hidx : index + ops.length ≤ nKeyDep.length) : nKeyDep2 = nKeyDep := by
  induction ops generalizing index s nKeyDep deps with
  | nil =>
    exact (processOps_nil ro cmdDep key kSub rand index s nKeyDep deps
      s2 nKeyDep2 deps2 h).2.1
  | cons op rest ih =>
    obtain ⟨picked, sm, depsm, -, -, hrest⟩ :=
      processOps_step_full ro cmdDep key kSub rand op rest index s nKeyDep deps
        s2 nKeyDep2 deps2 h hidx
    exact ih (index + 1) sm nKeyDep depsm hrest (by simp at hidx ⊢; omega)

theorem processOps_write_forward_loc (ro : Bool) (cmdDep : Dependency) (key : Key)
    (kSub : Nat) (rand : Nat → Nat) (ops : List StorageOp) (index : Nat)
    (s : MultiRecordValues) (nKeyDep : List (List Nat)) (deps : List Dependency)
    (s2 : MultiRecordValues) (nKeyDep2 : List (List Nat)) (deps2 : List Dependency)
    (h : mrvProcessOps ro cmdDep key kSub rand ops index s nKeyDep deps =
      some (s2, nKeyDep2, deps2))
    (hidx : index + ops.length ≤ nKeyDep.length) (key2 : Key) (n2 : Nat) :
    s2.writeDepAt key2 n2 = s.writeDepAt key2 n2 ∨
      (ro = false ∧ key2 = key ∧ n2 ∈ (nKeyDep.drop index).flatten ∧
        s2.writeDepAt key2 n2 = some cmdDep) := by
  induction ops generalizing index s deps with
  | nil =>
    obtain ⟨hs, -, -⟩ := processOps_nil ro cmdDep key kSub rand index s nKeyDep deps
      s2 nKeyDep2 deps2 h
    subst hs
    exact Or.inl rfl
  | cons op rest ih =>
    obtain ⟨picked, sm, depsm, hget, hvs, hrest⟩ :=
      processOps_step_full ro cmdDep key kSub rand op rest index s nKeyDep deps
        s2 nKeyDep2 deps2 h hidx
    have hdropMem : ∀ m, m ∈ picked ∨ m ∈ (nKeyDep.drop (index + 1)).flatten →
        m ∈ (nKeyDep.drop index).flatten := by
      intro m hm
      rw [drop_get? nKeyDep index picked hget]
      simp only [List.flatten_cons, List.mem_append]
      exact hm
    rcases ih (index + 1) sm depsm hrest (by simp at hidx ⊢; omega) with
      h2 | ⟨hro, hk, hmem, hval⟩
    · rcases visitSlots_write_forward s ro cmdDep key picked deps sm depsm hvs key2 n2 with
        h1 | ⟨hro, hk, hn, hval⟩
      · exact Or.inl (h2.trans h1)
      · exact Or.inr ⟨hro, hk, hdropMem n2 (Or.inl hn), h2.trans hval⟩
    · exact Or.inr ⟨hro, hk, hdropMem n2 (Or.inr hmem), hval⟩

theorem processOps_read_forward_loc (ro : Bool) (cmdDep : Dependency) (key : Key)
    (kSub : Nat) (rand : Nat → Nat) (ops : List StorageOp) (index : Nat)
    (s : MultiRecordValues) (nKeyDep : List (List Nat)) (deps : List Dependency)
    (s2 : MultiRecordValues) (nKeyDep2 : List (List Nat)) (deps2 : List Dependency)
    (h : mrvProcessOps ro cmdDep key kSub rand ops index s nKeyDep deps =
      some (s2, nKeyDep2, deps2))
    (hidx : index + ops.length ≤ nKeyDep.length) (key2 : Key) (n2 : Nat) :
    s2.readDepAt key2 n2 = s.readDepAt key2 n2 ∨
      (ro = true ∧ key2 = key ∧ n2 ∈ (nKeyDep.drop index).flatten ∧
        s2.readDepAt key2 n2 = some cmdDep) := by
  induction ops generalizing index s deps with
  | nil =>
    obtain ⟨hs, -, -⟩ := processOps_nil ro cmdDep key kSub rand index s nKeyDep deps
      s2 nKeyDep2 deps2 h
    subst hs
    exact Or.inl rfl
  | cons op rest ih =>
    obtain ⟨picked, sm, depsm, hget, hvs, hrest⟩ :=
      processOps_step_full ro cmdDep key kSub rand op rest index s nKeyDep deps
        s2 nKeyDep2 deps2 h hidx
    have hdropMem : ∀ m, m ∈ picked ∨ m ∈ (nKeyDep.drop (index + 1)).flatten →
        m ∈ (nKeyDep.drop index).flatten := by
      intro m hm
      rw [drop_get? nKeyDep index picked hget]
      simp only [List.flatten_cons, List.mem_append]
      exact hm
    rcases ih (index + 1) sm depsm hrest (by simp at hidx ⊢; omega) with
      h2 | ⟨hro, hk, hmem, hval⟩
    · rcases visitSlots_read_forward s ro cmdDep key picked deps sm depsm hvs key2 n2 with
        h1 | ⟨hro, hk, hn, hval⟩
      · exact Or.inl (h2.trans h1)
      · exact Or.inr ⟨hro, hk, hdropMem n2 (Or.inl hn), h2.trans hval⟩
    · exact Or.inr ⟨hro, hk, hdropMem n2 (Or.inr hmem), hval⟩

theorem processOps_write_lower (ro : Bool) (cmdDep : Dependency) (key : Key)
    (kSub : Nat) (rand : Nat → Nat) (ops : List StorageOp) (index : Nat)
    (s : MultiRecordValues) (nKeyDep : List (List Nat)) (deps : List Dependency)
    (s2 : MultiRecordValues) (nKeyDep2 : List (List Nat)) (deps2 : List Dependency)
    (h : mrvProcessOps ro cmdDep key kSub rand ops index s nKeyDep deps =
      some (s2, nKeyDep2, deps2))
    (hidx : index + ops.length = nKeyDep.length) (hro : ro = false) (n2 : Nat)
    (hmem : n2 ∈ (nKeyDep.drop index).flatten) :
    s2.writeDepAt key n2 = some cmdDep := by
  induction ops generalizing index s deps with
  | nil =>
    simp only [List.length_nil] at hidx
    rw [List.drop_eq_nil_of_le (by omega)] at hmem
    simp at hmem
  | cons op rest ih =>
    obtain ⟨picked, sm, depsm, hget, hvs, hrest⟩ :=
      processOps_step_full ro cmdDep key kSub rand op rest index s nKeyDep deps
        s2 nKeyDep2 deps2 h (by omega)
    rw [drop_get? nKeyDep index picked hget] at hmem
    simp only [List.flatten_cons, List.mem_append] at hmem
    by_cases hn : n2 ∈ (nKeyDep.drop (index + 1)).flatten
    · exact ih (index + 1) sm depsm hrest (by simp at hidx ⊢; omega) hn
    · have hpicked : n2 ∈ picked := by
        rcases hmem with hm | hm
        · exact hm
        · exact absurd hm hn
      have hsm : sm.writeDepAt key n2 = some cmdDep :=
        visitSlots_write_lower s ro cmdDep key picked deps sm depsm hvs hro n2 hpicked
      rcases processOps_write_forward_u ro cmdDep key kSub rand rest (index + 1) sm
        nKeyDep depsm s2 nKeyDep2 deps2 hrest key n2 with h2 | ⟨-, hval⟩
      · exact h2.trans hsm
      · exact hval

theorem processOps_deps_elim_loc (ro : Bool) (cmdDep : Dependency) (key : Key)
    (kSub : Nat) (rand : Nat → Nat) (ops : List StorageOp) (index : Nat)
    (s : MultiRecordValues) (nKeyDep : List (List Nat)) (deps : List Dependency)
    (s2 : MultiRecordValues) (nKeyDep2 : List (List Nat)) (deps2 : List Dependency)
    (h : mrvProcessOps ro cmdDep key kSub rand ops index s nKeyDep deps =
      some (s2, nKeyDep2, deps2))
    (hidx : index + ops.length ≤ nKeyDep.length) (t : Dot)
    (hm : depsMemDot deps2 t = true) :
    depsMemDot deps t = true ∨
      (∃ n2 ∈ (nKeyDep.drop index).flatten, ∃ d, s.writeDepAt key n2 = some d ∧ d.dot = t) ∨
      (ro = false ∧ t = cmdDep.dot) ∨
      (ro = false ∧ s.nfr = false ∧
        ∃ n2 ∈ (nKeyDep.drop index).flatten, ∃ d, s.readDepAt key n2 = some d ∧ d.dot = t) := by
  induction ops generalizing index s deps with
  | nil =>
    obtain ⟨-, -, hd⟩ := processOps_nil ro cmdDep key kSub rand index s nKeyDep deps
      s2 nKeyDep2 deps2 h
    subst hd
    exact Or.inl hm
  | cons op rest ih =>
    obtain ⟨picked, sm, depsm, hget, hvs, hrest⟩ :=
      processOps_step_full ro cmdDep key kSub rand op rest index s nKeyDep deps
        s2 nKeyDep2 deps2 h hidx
    have hdropMem : ∀ m, m ∈ picked ∨ m ∈ (nKeyDep.drop (index + 1)).flatten →
        m ∈ (nKeyDep.drop index).flatten := by
      intro m hm2
      rw [drop_get? nKeyDep index picked hget]
      simp only [List.flatten_cons, List.mem_append]
      exact hm2
    have hnfr : sm.nfr = s.nfr :=
      (visitSlots_admin s ro cmdDep key picked deps sm depsm hvs).2.1
    rcases ih (index + 1) sm depsm hrest (by simp at hidx ⊢; omega) with h2 | h2 | h2 | h2
    · rcases visitSlots_deps_elim s ro cmdDep key picked deps sm depsm hvs t h2 with
        h1 | h1 | h1 | h1
      · exact Or.inl h1
      · obtain ⟨n2, hn2, d, hd, hdot⟩ := h1
        exact Or.inr (Or.inl ⟨n2, hdropMem n2 (Or.inl hn2), d, hd, hdot⟩)
      · exact Or.inr (Or.inr (Or.inl h1))
      · obtain ⟨hro, hnf, n2, hn2, d, hd, hdot⟩ := h1
        exact Or.inr (Or.inr (Or.inr ⟨hro, hnf, n2, hdropMem n2 (Or.inl hn2), d, hd, hdot⟩))
    · obtain ⟨n2, hn2, d, hd, hdot⟩ := h2
      rcases visitSlots_write_forward s ro cmdDep key picked deps sm depsm hvs key n2 with
        h1 | ⟨hro, -, -, hval⟩
      · exact Or.inr (Or.inl ⟨n2, hdropMem n2 (Or.inr hn2), d, h1 ▸ hd, hdot⟩)
      · rw [hval] at hd
        have hdc : d = cmdDep := by
          injection hd.symm
        exact Or.inr (Or.inr (Or.inl ⟨hro, by rw [← hdot, hdc]⟩))
    · exact Or.inr (Or.inr (Or.inl h2))
    · obtain ⟨hro, hnf, n2, hn2, d, hd, hdot⟩ := h2
      rcases visitSlots_read_forward s ro cmdDep key picked deps sm depsm hvs key n2 with
        h1 | ⟨hro2, -, -, -⟩
      · exact Or.inr (Or.inr (Or.inr ⟨hro, hnfr ▸ hnf, n2,
          hdropMem n2 (Or.inr hn2), d, h1 ▸ hd, hdot⟩))
      · rw [hro] at hro2
        cases hro2

theorem processOps_collect_write (ro : Bool) (cmdDep : Dependency) (key : Key)
    (kSub : Nat) (rand : Nat → Nat) (ops : List StorageOp) (index : Nat)
    (s : MultiRecordValues) (nKeyDep : List (List Nat)) (deps : List Dependency)
    (s2 : MultiRecordValues) (nKeyDep2 : List (List Nat)) (deps2 : List Dependency)
    (h : mrvProcessOps ro cmdDep key kSub rand ops index s nKeyDep deps =
      some (s2, nKeyDep2, deps2))
    (hidx : index + ops.length = nKeyDep.length) (n2 : Nat)
    (hmem : n2 ∈ (nKeyDep.drop index).flatten) (d : Dependency)
    (hw : s.writeDepAt key n2 = some d) : depsMemDot deps2 d.dot = true := by
  induction ops generalizing index s deps with
  | nil =>
    simp only [List.length_nil] at hidx
    rw [List.drop_eq_nil_of_le (by omega)] at hmem
    simp at hmem
  | cons op rest ih =>
    obtain ⟨picked, sm, depsm, hget, hvs, hrest⟩ :=
      processOps_step_full ro cmdDep key kSub rand op rest index s nKeyDep deps
        s2 nKeyDep2 deps2 h (by omega)
    by_cases hn : n2 ∈ picked
    · exact processOps_deps_mono ro cmdDep key kSub rand rest (index + 1) sm nKeyDep depsm
        s2 nKeyDep2 deps2 hrest d.dot
        (visitSlots_collect_write s ro cmdDep key picked deps sm depsm hvs n2 hn d hw)
    · rw [drop_get? nKeyDep index picked hget] at hmem
      simp only [List.flatten_cons, List.mem_append] at hmem
      have hnrest : n2 ∈ (nKeyDep.drop (index + 1)).flatten := by
        rcases hmem with hm | hm
        · exact absurd hm hn
        · exact hm
      have hfr : sm.writeDepAt key n2 = s.writeDepAt key n2 :=
        (visitSlots_frame s ro cmdDep key picked deps sm depsm hvs key n2 (Or.inr hn)).1
      exact ih (index + 1) sm depsm hrest (by simp at hidx ⊢; omega) hnrest
        (by rw [hfr]; exact hw)

theorem processOps_frame_key (ro : Bool) (cmdDep : Dependency) (key : Key) (kSub : Nat)
    (rand : Nat → Nat) (ops : List StorageOp) (index : Nat) (s : MultiRecordValues)
    (nKeyDep : List (List Nat)) (deps : List Dependency) (s2 : MultiRecordValues)
    (nKeyDep2 : List (List Nat)) (deps2 : List Dependency)
    (h : mrvProcessOps ro cmdDep key kSub rand ops index s nKeyDep deps =
      some (s2, nKeyDep2, deps2)) (key2 : Key) (hk : key2 ≠ key) (n2 : Nat) :
    s2.writeDepAt key2 n2 = s.writeDepAt key2 n2 ∧
      s2.readDepAt key2 n2 = s.readDepAt key2 n2 := by
  induction ops generalizing index s nKeyDep deps with
  | nil =>
    obtain ⟨hs, -, -⟩ := processOps_nil ro cmdDep key kSub rand index s nKeyDep deps
      s2 nKeyDep2 deps2 h
    subst hs
    exact ⟨rfl, rfl⟩
  | cons op rest ih =>
    obtain ⟨picked, nkd2, sm, depsm, -, hvs, hrest⟩ :=
      processOps_step ro cmdDep key kSub rand op rest index s nKeyDep deps s2 nKeyDep2 deps2 h
    obtain ⟨h1, h2⟩ := visitSlots_frame s ro cmdDep key picked deps sm depsm hvs key2 n2
      (Or.inl hk)
    obtain ⟨g1, g2⟩ := ih (index + 1) sm nkd2 depsm hrest
    exact ⟨g1.trans h1, g2.trans h2⟩

/-! ## Level 4: lemmas about `mrvProcessKeys` -/

theorem processKeys_nil (ro : Bool) (cmdDep : Dependency) (cmd : Command) (shardId : Nat)
    (kSub : Nat) (rand : Key → Nat → Nat) (s : MultiRecordValues)
    (keysDeps : List (Key × List (List Nat))) (deps : List Dependency)
    (s2 : MultiRecordValues) (keysDeps2 : List (Key × List (List Nat)))
    (deps2 : List Dependency)
    (h : mrvProcessKeys ro cmdDep cmd shardId kSub rand [] s keysDeps deps =
      some (s2, keysDeps2, deps2)) :
    s2 = s ∧ keysDeps2 = keysDeps ∧ deps2 = deps := by
  unfold mrvProcessKeys at h
  simp only [Option.some.injEq] at h
  refine ⟨(congrArg Prod.fst h).symm, ?_, ?_⟩
  · exact (congrArg (fun p => p.2.1) h).symm
  · exact (congrArg (fun p => p.2.2) h).symm

theorem processKeys_step (ro : Bool) (cmdDep : Dependency) (cmd : Command) (shardId : Nat)
    (kSub : Nat) (rand : Key → Nat → Nat) (key : Key) (restKeys : List Key)
    (s : MultiRecordValues) (keysDeps : List (Key × List (List Nat)))
    (deps : List Dependency) (s2 : MultiRecordValues)
    (keysDeps2 : List (Key × List (List Nat))) (deps2 : List Dependency)
    (h : mrvProcessKeys ro cmdDep cmd shardId kSub rand (key :: restKeys) s keysDeps deps =
      some (s2, keysDeps2, deps2)) :
    ∃ sm nkd2 depsm,
      mrvProcessOps ro cmdDep key kSub (rand key) (cmd.operations shardId key) 0 s
        ((lookupA keysDeps key).getD []) deps = some (sm, nkd2, depsm) ∧
      mrvProcessKeys ro cmdDep cmd shardId kSub rand restKeys sm
        (insertA keysDeps key nkd2) depsm = some (s2, keysDeps2, deps2) := by
  unfold mrvProcessKeys at h
  cases hops : mrvProcessOps ro cmdDep key kSub (rand key) (cmd.operations shardId key) 0 s
      ((lookupA keysDeps key).getD []) deps with
  | none =>
    rw [hops] at h
    cases h
  | some p =>
    obtain ⟨sm, nkd2, depsm⟩ := p
    rw [hops] at h
    exact ⟨sm, nkd2, depsm, rfl, h⟩

theorem kd_getD_insert (keysDeps : List (Key × List (List Nat))) (key : Key)
    (v : List (List Nat)) (hv : v = (lookupA keysDeps key).getD []) (k : Key) :
    (lookupA (insertA keysDeps key v) k).getD [] = (lookupA keysDeps k).getD [] := by
  by_cases hk : k = key
  · subst hk
    rw [lookupA_insertA_self, hv]
    rfl
  · rw [lookupA_insertA_ne _ _ _ _ hk]

theorem processKeys_admin (ro : Bool) (cmdDep : Dependency) (cmd : Command) (shardId : Nat)
    (kSub : Nat) (rand : Key → Nat → Nat) (keysList : List Key) (s : MultiRecordValues)
    (keysDeps : List (Key × List (List Nat))) (deps : List Dependency)
    (s2 : MultiRecordValues) (keysDeps2 : List (Key × List (List Nat)))
    (deps2 : List Dependency)
    (h : mrvProcessKeys ro cmdDep cmd shardId kSub rand keysList s keysDeps deps =
      some (s2, keysDeps2, deps2)) :
    s2.latestNoop = s.latestNoop ∧ s2.nfr = s.nfr ∧ s2.shardId = s.shardId := by
  induction keysList generalizing s keysDeps deps with
  | nil =>
    obtain ⟨hs, -, -⟩ := processKeys_nil ro cmdDep cmd shardId kSub rand s keysDeps deps
      s2 keysDeps2 deps2 h
    subst hs
    exact ⟨rfl, rfl, rfl⟩
  | cons key restKeys ih =>
    obtain ⟨sm, nkd2, depsm, hops, hrest⟩ :=
      processKeys_step ro cmdDep cmd shardId kSub rand key restKeys s keysDeps deps
        s2 keysDeps2 deps2 h
    obtain ⟨h1, h2, h3⟩ := processOps_admin ro cmdDep key kSub (rand key) _ 0 s _ deps
      sm nkd2 depsm hops
    obtain ⟨g1, g2, g3⟩ := ih sm (insertA keysDeps key nkd2) depsm hrest
    exact ⟨g1.trans h1, g2.trans h2, g3.trans h3⟩

theorem processKeys_write_forward_u (ro : Bool) (cmdDep : Dependency) (cmd : Command)
    (shardId : Nat) (kSub : Nat) (rand : Key → Nat → Nat) (keysList : List Key)
    (s : MultiRecordValues) (keysDeps : List (Key × List (List Nat)))
    (deps : List Dependency) (s2 : MultiRecordValues)
    (keysDeps2 : List (Key × List (List Nat))) (deps2 : List Dependency)
    (h : mrvProcessKeys ro cmdDep cmd shardId kSub rand keysList s keysDeps deps =
      some (s2, keysDeps2, deps2)) (key2 : Key) (n2 : Nat) :
    s2.writeDepAt key2 n2 = s.writeDepAt key2 n2 ∨
      (ro = false ∧ s2.writeDepAt key2 n2 = some cmdDep) := by
  induction keysList generalizing s keysDeps deps with
  | nil =>
    obtain ⟨hs, -, -⟩ := processKeys_nil ro cmdDep cmd shardId kSub rand s keysDeps deps
      s2 keysDeps2 deps2 h
    subst hs
    exact Or.inl rfl
  | cons key restKeys ih =>
    obtain ⟨sm, nkd2, depsm, hops, hrest⟩ :=
      processKeys_step ro cmdDep cmd shardId kSub rand key restKeys s keysDeps deps
        s2 keysDeps2 deps2 h
    rcases ih sm (insertA keysDeps key nkd2) depsm hrest with h2 | ⟨hro, hval⟩
    · rcases processOps_write_forward_u ro cmdDep key kSub (rand key) _ 0 s _ deps
        sm nkd2 depsm hops key2 n2 with h1 | ⟨hro, hval⟩
      · exact Or.inl (h2.trans h1)
      · exact Or.inr ⟨hro, h2.trans hval⟩
    · exact Or.inr ⟨hro, hval⟩

theorem processKeys_read_forward_u (ro : Bool) (cmdDep : Dependency) (cmd : Command)
    (shardId : Nat) (kSub : Nat) (rand : Key → Nat → Nat) (keysList : List Key)
    (s : MultiRecordValues) (keysDeps : List (Key × List (List Nat)))
    (deps : List Dependency) (s2 : MultiRecordValues)
    (keysDeps2 : List (Key × List (List Nat))) (deps2 : List Dependency)
    (h : mrvProcessKeys ro cmdDep cmd shardId kSub rand keysList s keysDeps deps =
      some (s2, keysDeps2, deps2)) (key2 : Key) (n2 : Nat) :
    s2.readDepAt key2 n2 = s.readDepAt key2 n2 ∨
      (ro = true ∧ s2.readDepAt key2 n2 = some cmdDep) := by
  induction keysList generalizing s keysDeps deps with
  | nil =>
    obtain ⟨hs, -, -⟩ := processKeys_nil ro cmdDep cmd shardId kSub rand s keysDeps deps
      s2 keysDeps2 deps2 h
    subst hs
    exact Or.inl rfl
  | cons key restKeys ih =>
    obtain ⟨sm, nkd2, depsm, hops, hrest⟩ :=
      processKeys_step ro cmdDep cmd shardId kSub rand key restKeys s keysDeps deps
        s2 keysDeps2 deps2 h
    rcases ih sm (insertA keysDeps key nkd2) depsm hrest with h2 | ⟨hro, hval⟩
    · rcases processOps_read_forward_u ro cmdDep key kSub (rand key) _ 0 s _ deps
        sm nkd2 depsm hops key2 n2 with h1 | ⟨hro, hval⟩
      · exact Or.inl (h2.trans h1)
      · exact Or.inr ⟨hro, h2.trans hval⟩
    · exact Or.inr ⟨hro, hval⟩

theorem processKeys_deps_mono (ro : Bool) (cmdDep : Dependency) (cmd : Command)
    (shardId : Nat) (kSub : Nat) (rand : Key → Nat → Nat) (keysList : List Key)
    (s : MultiRecordValues) (keysDeps : List (Key × List (List Nat)))
    (deps : List Dependency) (s2 : MultiRecordValues)
    (keysDeps2 : List (Key × List (List Nat))) (deps2 : List Dependency)
    (h : mrvProcessKeys ro cmdDep cmd shardId kSub rand keysList s keysDeps deps =
      some (s2, keysDeps2, deps2)) (t : Dot) (hm : depsMemDot deps t = true) :
    depsMemDot deps2 t = true := by
  induction keysList generalizing s keysDeps deps with
  | nil =>
    obtain ⟨-, -, hd⟩ := processKeys_nil ro cmdDep cmd shardId kSub rand s keysDeps deps
      s2 keysDeps2 deps2 h
    subst hd
    exact hm
  | cons key restKeys ih =>
    obtain ⟨sm, nkd2, depsm, hops, hrest⟩ :=
      processKeys_step ro cmdDep cmd shardId kSub rand key restKeys s keysDeps deps
        s2 keysDeps2 deps2 h
    exact ih sm (insertA keysDeps key nkd2) depsm hrest
      (processOps_deps_mono ro cmdDep key kSub (rand key) _ 0 s _ deps sm nkd2 depsm hops t hm)

theorem processKeys_deps_elim_u (ro : Bool) (cmdDep : Dependency) (cmd : Command)
    (shardId : Nat) (kSub : Nat) (rand : Key → Nat → Nat) (keysList : List Key)
    (s : MultiRecordValues) (keysDeps : List (Key × List (List Nat)))
    (deps : List Dependency) (s2 : MultiRecordValues)
    (keysDeps2 : List (Key × List (List Nat))) (deps2 : List Dependency)
    (h : mrvProcessKeys ro cmdDep cmd shardId kSub rand keysList s keysDeps deps =
      some (s2, keysDeps2, deps2)) (t : Dot) (hm : depsMemDot deps2 t = true) :
    depsMemDot deps t = true ∨
      (∃ key2 n2, ∃ d, s.writeDepAt key2 n2 = some d ∧ d.dot = t) ∨
      (ro = false ∧ t = cmdDep.dot) ∨
      (ro = false ∧ s.nfr = false ∧
        ∃ key2 n2, ∃ d, s.readDepAt key2 n2 = some d ∧ d.dot = t) := by
  induction keysList generalizing s keysDeps deps with
  | nil =>
    obtain ⟨-, -, hd⟩ := processKeys_nil ro cmdDep cmd shardId kSub rand s keysDeps deps
      s2 keysDeps2 deps2 h
    subst hd
    exact Or.inl hm
  | cons key restKeys ih =>
    obtain ⟨sm, nkd2, depsm, hops, hrest⟩ :=
      processKeys_step ro cmdDep cmd shardId kSub rand key restKeys s keysDeps deps
        s2 keysDeps2 deps2 h
    have hnfr : sm.nfr = s.nfr :=
      (processOps_admin ro cmdDep key kSub (rand key) _ 0 s _ deps sm nkd2 depsm hops).2.1
    rcases ih sm (insertA keysDeps key nkd2) depsm hrest with h2 | h2 | h2 | h2
    · rcases processOps_deps_elim_u ro cmdDep key kSub (rand key) _ 0 s _ deps
        sm nkd2 depsm hops t h2 with h1 | h1 | h1 | h1
      · exact Or.inl h1
      · obtain ⟨n2, d, hd, hdot⟩ := h1
        exact Or.inr (Or.inl ⟨key, n2, d, hd, hdot⟩)
      · exact Or.inr (Or.inr (Or.inl h1))
      · obtain ⟨hro, hnf, n2, d, hd, hdot⟩ := h1
        exact Or.inr (Or.inr (Or.inr ⟨hro, hnf, key, n2, d, hd, hdot⟩))
    · obtain ⟨key2, n2, d, hd, hdot⟩ := h2
      rcases processOps_write_forward_u ro cmdDep key kSub (rand key) _ 0 s _ deps
        sm nkd2 depsm hops key2 n2 with h1 | ⟨hro, hval⟩
      · exact Or.inr (Or.inl ⟨key2, n2, d, h1 ▸ hd, hdot⟩)
      · rw [hval] at hd
        have hdc : d = cmdDep := by
          injection hd.symm
        exact Or.inr (Or.inr (Or.inl ⟨hro, by rw [← hdot, hdc]⟩))
    · exact Or.inr (Or.inr (Or.inl h2))
    · obtain ⟨hro, hnf, key2, n2, d, hd, hdot⟩ := h2
      rcases processOps_read_forward_u ro cmdDep key kSub (rand key) _ 0 s _ deps
        sm nkd2 depsm hops key2 n2 with h1 | ⟨hro2, -⟩
      · exact Or.inr (Or.inr (Or.inr ⟨hro, hnfr ▸ hnf, key2, n2, d, h1 ▸ hd, hdot⟩))
      · rw [hro] at hro2
        cases hro2

/-! ## Level 4 (continued): localized lemmas, under fully supplied `keys_deps` -/

theorem processKeys_step_full (ro : Bool) (cmdDep : Dependency) (cmd : Command)
    (shardId : Nat) (kSub : Nat) (rand : Key → Nat → Nat) (key : Key)
    (restKeys : List Key) (s : MultiRecordValues)
    (keysDeps : List (Key × List (List Nat))) (deps : List Dependency)
    (s2 : MultiRecordValues) (keysDeps2 : List (Key × List (List Nat)))
    (deps2 : List Dependency)
    (h : mrvProcessKeys ro cmdDep cmd shardId kSub rand (key :: restKeys) s keysDeps deps =
      some (s2, keysDeps2, deps2))
    (hfull : ∀ k ∈ key :: restKeys,
      ((lookupA keysDeps k).getD []).length = (cmd.operations shardId k).length) :
    ∃ sm depsm,
      mrvProcessOps ro cmdDep key kSub (rand key) (cmd.operations shardId key) 0 s
        ((lookupA keysDeps key).getD []) deps =
        some (sm, (lookupA keysDeps key).getD [], depsm) ∧
      mrvProcessKeys ro cmdDep cmd shardId kSub rand restKeys sm
        (insertA keysDeps key ((lookupA keysDeps key).getD [])) depsm =
        some (s2, keysDeps2, deps2) ∧
      (∀ k, (lookupA (insertA keysDeps key ((lookupA keysDeps key).getD [])) k).getD [] =
        (lookupA keysDeps k).getD []) := by
  obtain ⟨sm, nkd2, depsm, hops, hrest⟩ :=
    processKeys_step ro cmdDep cmd shardId kSub rand key restKeys s keysDeps deps
      s2 keysDeps2 deps2 h
  have hlen : ((lookupA keysDeps key).getD []).length = (cmd.operations shardId key).length :=
    hfull key (List.mem_cons_self _ _)
  have hkd : nkd2 = (lookupA keysDeps key).getD [] :=
    processOps_kd_eq ro cmdDep key kSub (rand key) _ 0 s _ deps sm nkd2 depsm hops
      (by omega)
  subst hkd
  exact ⟨sm, depsm, hops, hrest, kd_getD_insert keysDeps key _ rfl⟩

theorem processKeys_write_forward_loc (ro : Bool) (cmdDep : Dependency) (cmd : Command)
    (shardId : Nat) (kSub : Nat) (rand : Key → Nat → Nat) (keysList : List Key)
    (s : MultiRecordValues) (keysDeps : List (Key × List (List Nat)))
    (deps : List Dependency) (s2 : MultiRecordValues)
    (keysDeps2 : List (Key × List (List Nat))) (deps2 : List Dependency)
    (h : mrvProcessKeys ro cmdDep cmd shardId kSub rand keysList s keysDeps deps =
      some (s2, keysDeps2, deps2))
    (hfull : ∀ k ∈ keysList,
      ((lookupA keysDeps k).getD []).length = (cmd.operations shardId k).length)
    (key2 : Key) (n2 : Nat) :
    s2.writeDepAt key2 n2 = s.writeDepAt key2 n2 ∨
      (ro = false ∧ key2 ∈ keysList ∧ n2 ∈ entryFlatten keysDeps key2 ∧
        s2.writeDepAt key2 n2 = some cmdDep) := by
  induction keysList generalizing s keysDeps deps with
  | nil =>
    obtain ⟨hs, -, -⟩ := processKeys_nil ro cmdDep cmd shardId kSub rand s keysDeps deps
      s2 keysDeps2 deps2 h
    subst hs
    exact Or.inl rfl
  | cons key restKeys ih =>
    obtain ⟨sm, depsm, hops, hrest, hgetD⟩ :=
      processKeys_step_full ro cmdDep cmd shardId kSub rand key restKeys s keysDeps deps
        s2 keysDeps2 deps2 h hfull
    have hfull2 : ∀ k ∈ restKeys,
        ((lookupA (insertA keysDeps key ((lookupA keysDeps key).getD [])) k).getD []).length =
          (cmd.operations shardId k).length := by
      intro k hk
      rw [hgetD k]
      exact hfull k (List.mem_cons_of_mem _ hk)
    rcases ih sm (insertA keysDeps key ((lookupA keysDeps key).getD [])) depsm hrest hfull2
      with h2 | ⟨hro, hk, hmem, hval⟩
    · rcases processOps_write_forward_loc ro cmdDep key kSub (rand key) _ 0 s _ deps
        sm _ depsm hops (by rw [hfull key (List.mem_cons_self _ _)]; omega) key2 n2 with
        h1 | ⟨hro, hk, hn, hval⟩
      · exact Or.inl (h2.trans h1)
      · refine Or.inr ⟨hro, hk ▸ List.mem_cons_self key restKeys, ?_, h2.trans hval⟩
        rw [List.drop_zero] at hn
        rw [entryFlatten, hk]
        exact hn
    · refine Or.inr ⟨hro, List.mem_cons_of_mem _ hk, ?_, hval⟩
      rw [entryFlatten] at hmem ⊢
      rw [hgetD key2] at hmem
      exact hmem

theorem processKeys_read_forward_loc (ro : Bool) (cmdDep : Dependency) (cmd : Command)
    (shardId : Nat) (kSub : Nat) (rand : Key → Nat → Nat) (keysList : List Key)
    (s : MultiRecordValues) (keysDeps : List (Key × List (List Nat)))
    (deps : List Dependency) (s2 : MultiRecordValues)
    (keysDeps2 : List (Key × List (List Nat))) (deps2 : List Dependency)
    (h : mrvProcessKeys ro cmdDep cmd shardId kSub rand keysList s keysDeps deps =
      some (s2, keysDeps2, deps2))
    (hfull : ∀ k ∈ keysList,
      ((lookupA keysDeps k).getD []).length = (cmd.operations shardId k).length)
    (key2 : Key) (n2 : Nat) :
    s2.readDepAt key2 n2 = s.readDepAt key2 n2 ∨
      (ro = true ∧ key2 ∈ keysList ∧ n2 ∈ entryFlatten keysDeps key2 ∧
        s2.readDepAt key2 n2 = some cmdDep) := by
  induction keysList generalizing s keysDeps deps with
  | nil =>
    obtain ⟨hs, -, -⟩ := processKeys_nil ro cmdDep cmd shardId kSub rand s keysDeps deps
      s2 keysDeps2 deps2 h
    subst hs
    exact Or.inl rfl
  | cons key restKeys ih =>
    obtain ⟨sm, depsm, hops, hrest, hgetD⟩ :=
      processKeys_step_full ro cmdDep cmd shardId kSub rand key restKeys s keysDeps deps
        s2 keysDeps2 deps2 h hfull
    have hfull2 : ∀ k ∈ restKeys,
        ((lookupA (insertA keysDeps key ((lookupA keysDeps key).getD [])) k).getD []).length =
          (cmd.operations shardId k).length := by
      intro k hk
      rw [hgetD k]
      exact hfull k (List.mem_cons_of_mem _ hk)
    rcases ih sm (insertA keysDeps key ((lookupA keysDeps key).getD [])) depsm hrest hfull2
      with h2 | ⟨hro, hk, hmem, hval⟩
    · rcases processOps_read_forward_loc ro cmdDep key kSub (rand key) _ 0 s _ deps
        sm _ depsm hops (by rw [hfull key (List.mem_cons_self _ _)]; omega) key2 n2 with
        h1 | ⟨hro, hk, hn, hval⟩
      · exact Or.inl (h2.trans h1)
      · refine Or.inr ⟨hro, hk ▸ List.mem_cons_self key restKeys, ?_, h2.trans hval⟩
        rw [List.drop_zero] at hn
        rw [entryFlatten, hk]
        exact hn
    · refine Or.inr ⟨hro, List.mem_cons_of_mem _ hk, ?_, hval⟩
      rw [entryFlatten] at hmem ⊢
      rw [hgetD key2] at hmem
      exact hmem

theorem processKeys_write_lower (ro : Bool) (cmdDep : Dependency) (cmd : Command)
    (shardId : Nat) (kSub : Nat) (rand : Key → Nat → Nat) (keysList : List Key)
    (s : MultiRecordValues) (keysDeps : List (Key × List (List Nat)))
    (deps : List Dependency) (s2 : MultiRecordValues)
    (keysDeps2 : List (Key × List (List Nat))) (deps2 : List Dependency)
    (h : mrvProcessKeys ro cmdDep cmd shardId kSub rand keysList s keysDeps deps =
      some (s2, keysDeps2, deps2))
    (hfull : ∀ k ∈ keysList,
      ((lookupA keysDeps k).getD []).length = (cmd.operations shardId k).length)
    (hro : ro = false) (key2 : Key) (hk2 : key2 ∈ keysList) (n2 : Nat)
    (hmem : n2 ∈ entryFlatten keysDeps key2) :
    s2.writeDepAt key2 n2 = some cmdDep := by
  induction keysList generalizing s keysDeps deps with
  | nil => simp at hk2
  | cons key restKeys ih =>
    obtain ⟨sm, depsm, hops, hrest, hgetD⟩ :=
      processKeys_step_full ro cmdDep cmd shardId kSub rand key restKeys s keysDeps deps
        s2 keysDeps2 deps2 h hfull
    have hfull2 : ∀ k ∈ restKeys,
        ((lookupA (insertA keysDeps key ((lookupA keysDeps key).getD [])) k).getD []).length =
          (cmd.operations shardId k).length := by
      intro k hk
      rw [hgetD k]
      exact hfull k (List.mem_cons_of_mem _ hk)
    by_cases hkey : key2 = key
    · subst hkey
      have hsm : sm.writeDepAt key2 n2 = some cmdDep := by
        refine processOps_write_lower ro cmdDep key2 kSub (rand key2) _ 0 s _ deps
          sm _ depsm hops ?_ hro n2 ?_
        · rw [hfull key2 (List.mem_cons_self _ _)]
          omega
        · rw [List.drop_zero]
          exact hmem
      rcases processKeys_write_forward_u ro cmdDep cmd shardId kSub rand restKeys sm
        _ depsm s2 keysDeps2 deps2 hrest key2 n2 with h2 | ⟨-, hval⟩
      · exact h2.trans hsm
      · exact hval
    · have hk2rest : key2 ∈ restKeys := by
        rcases List.mem_cons.mp hk2 with he | he
        · exact absurd he hkey
        · exact he
      refine ih sm (insertA keysDeps key ((lookupA keysDeps key).getD [])) depsm hrest
        hfull2 hk2rest ?_
      rw [entryFlatten, hgetD key2]
      exact hmem

theorem processKeys_deps_elim_loc (ro : Bool) (cmdDep : Dependency) (cmd : Command)
    (shardId : Nat) (kSub : Nat) (rand : Key → Nat → Nat) (keysList : List Key)
    (s : MultiRecordValues) (keysDeps : List (Key × List (List Nat)))
    (deps : List Dependency) (s2 : MultiRecordValues)
    (keysDeps2 : List (Key × List (List Nat))) (deps2 : List Dependency)
    (h : mrvProcessKeys ro cmdDep cmd shardId kSub rand keysList s keysDeps deps =
      some (s2, keysDeps2, deps2))
    (hfull : ∀ k ∈ keysList,
      ((lookupA keysDeps k).getD []).length = (cmd.operations shardId k).length)
    (t : Dot) (hm : depsMemDot deps2 t = true) :
    depsMemDot deps t = true ∨
      (∃ key2 ∈ keysList, ∃ n2 ∈ entryFlatten keysDeps key2,
        ∃ d, s.writeDepAt key2 n2 = some d ∧ d.dot = t) ∨
      (ro = false ∧ t = cmdDep.dot) ∨
      (ro = false ∧ s.nfr = false ∧
        ∃ key2 ∈ keysList, ∃ n2 ∈ entryFlatten keysDeps key2,
          ∃ d, s.readDepAt key2 n2 = some d ∧ d.dot = t) := by
  induction keysList generalizing s keysDeps deps with
  | nil =>
    obtain ⟨-, -, hd⟩ := processKeys_nil ro cmdDep cmd shardId kSub rand s keysDeps deps
      s2 keysDeps2 deps2 h
    subst hd
    exact Or.inl hm
  | cons key restKeys ih =>
    obtain ⟨sm, depsm, hops, hrest, hgetD⟩ :=
      processKeys_step_full ro cmdDep cmd shardId kSub rand key restKeys s keysDeps deps
        s2 keysDeps2 deps2 h hfull
    have hfull2 : ∀ k ∈ restKeys,
        ((lookupA (insertA keysDeps key ((lookupA keysDeps key).getD [])) k).getD []).length =
          (cmd.operations shardId k).length := by
      intro k hk
      rw [hgetD k]
      exact hfull k (List.mem_cons_of_mem _ hk)
    have hnfr : sm.nfr = s.nfr :=
      (processOps_admin ro cmdDep key kSub (rand key) _ 0 s _ deps sm _ depsm hops).2.1
    have hFlat : ∀ k, entryFlatten (insertA keysDeps key ((lookupA keysDeps key).getD [])) k =
        entryFlatten keysDeps k := by
      intro k
      rw [entryFlatten, entryFlatten, hgetD k]
    rcases ih sm (insertA keysDeps key ((lookupA keysDeps key).getD [])) depsm hrest hfull2
      with h2 | h2 | h2 | h2
    · rcases processOps_deps_elim_loc ro cmdDep key kSub (rand key) _ 0 s _ deps
        sm _ depsm hops (by rw [hfull key (List.mem_cons_self _ _)]; omega) t h2 with
        h1 | h1 | h1 | h1
      · exact Or.inl h1
      · obtain ⟨n2, hn2, d, hd, hdot⟩ := h1
        rw [List.drop_zero] at hn2
        exact Or.inr (Or.inl ⟨key, List.mem_cons_self _ _, n2, hn2, d, hd, hdot⟩)
      · exact Or.inr (Or.inr (Or.inl h1))
      · obtain ⟨hro, hnf, n2, hn2, d, hd, hdot⟩ := h1
        rw [List.drop_zero] at hn2
        exact Or.inr (Or.inr (Or.inr ⟨hro, hnf,
          key, List.mem_cons_self _ _, n2, hn2, d, hd, hdot⟩))
    · obtain ⟨key2, hkey2, n2, hn2, d, hd, hdot⟩ := h2
      rw [hFlat key2] at hn2
      rcases processOps_write_forward_u ro cmdDep key kSub (rand key) _ 0 s _ deps
        sm _ depsm hops key2 n2 with h1 | ⟨hro, hval⟩
      · exact Or.inr (Or.inl ⟨key2, List.mem_cons_of_mem _ hkey2, n2, hn2, d, h1 ▸ hd, hdot⟩)
      · rw [hval] at hd
        have hdc : d = cmdDep := by
          injection hd.symm
        exact Or.inr (Or.inr (Or.inl ⟨hro, by rw [← hdot, hdc]⟩))
    · exact Or.inr (Or.inr (Or.inl h2))
    · obtain ⟨hro, hnf, key2, hkey2, n2, hn2, d, hd, hdot⟩ := h2
      rw [hFlat key2] at hn2
      rcases processOps_read_forward_u ro cmdDep key kSub (rand key) _ 0 s _ deps
        sm _ depsm hops key2 n2 with h1 | ⟨hro2, -⟩
      · exact Or.inr (Or.inr (Or.inr ⟨hro, hnfr ▸ hnf,
          key2, List.mem_cons_of_mem _ hkey2, n2, hn2, d, h1 ▸ hd, hdot⟩))
      · rw [hro] at hro2
        cases hro2

theorem processKeys_collect_write (ro : Bool) (cmdDep : Dependency) (cmd : Command)
    (shardId : Nat) (kSub : Nat) (rand : Key → Nat → Nat) (keysList : List Key)
    (s : MultiRecordValues) (keysDeps : List (Key × List (List Nat)))
    (deps : List Dependency) (s2 : MultiRecordValues)
    (keysDeps2 : List (Key × List (List Nat))) (deps2 : List Dependency)
    (h : mrvProcessKeys ro cmdDep cmd shardId kSub rand keysList s keysDeps deps =
      some (s2, keysDeps2, deps2))
    (hfull : ∀ k ∈ keysList,
      ((lookupA keysDeps k).getD []).length = (cmd.operations shardId k).length)
    (key2 : Key) (hk2 : key2 ∈ keysList) (n2 : Nat)
    (hmem : n2 ∈ entryFlatten keysDeps key2) (d : Dependency)
    (hw : s.writeDepAt key2 n2 = some d) : depsMemDot deps2 d.dot = true := by
  induction keysList generalizing s keysDeps deps with
  | nil => simp at hk2
  | cons key restKeys ih =>
    obtain ⟨sm, depsm, hops, hrest, hgetD⟩ :=
      processKeys_step_full ro cmdDep cmd shardId kSub rand key restKeys s keysDeps deps
        s2 keysDeps2 deps2 h hfull
    have hfull2 : ∀ k ∈ restKeys,
        ((lookupA (insertA keysDeps key ((lookupA keysDeps key).getD [])) k).getD []).length =
          (cmd.operations shardId k).length := by
      intro k hk
      rw [hgetD k]
      exact hfull k (List.mem_cons_of_mem _ hk)
    by_cases hkey : key2 = key
    · subst hkey
      have hcol : depsMemDot depsm d.dot = true := by
        refine processOps_collect_write ro cmdDep key2 kSub (rand key2) _ 0 s _ deps
          sm _ depsm hops ?_ n2 ?_ d hw
        · rw [hfull key2 (List.mem_cons_self _ _)]
          omega
        · rw [List.drop_zero]
          exact hmem
      exact processKeys_deps_mono ro cmdDep cmd shardId kSub rand restKeys sm
        _ depsm s2 keysDeps2 deps2 hrest d.dot hcol
    · have hk2rest : key2 ∈ restKeys := by
        rcases List.mem_cons.mp hk2 with he | he
        · exact absurd he hkey
        · exact he
      have hfr : sm.writeDepAt key2 n2 = s.writeDepAt key2 n2 :=
        (processOps_frame_key ro cmdDep key kSub (rand key) _ 0 s _ deps sm _ depsm hops
          key2 hkey n2).1
      refine ih sm (insertA keysDeps key ((lookupA keysDeps key).getD [])) depsm hrest
        hfull2 hk2rest ?_ (by rw [hfr]; exact hw)
      rw [entryFlatten, hgetD key2]
      exact hmem

/-! ## Level 5: lemmas about `do_add_cmd`, `add_noop` and traces -/

theorem maybeAddNoopLatest_mono (s : MultiRecordValues) (deps : List Dependency) (t : Dot)
    (h : depsMemDot deps t = true) : depsMemDot (s.maybeAddNoopLatest deps) t = true := by
  unfold MultiRecordValues.maybeAddNoopLatest
  cases s.latestNoop with
  | none => exact h
  | some dep => exact depsMemDot_insert_mono _ _ _ h

theorem maybeAddNoopLatest_elim (s : MultiRecordValues) (deps : List Dependency) (t : Dot)
    (h : depsMemDot (s.maybeAddNoopLatest deps) t = true) :
    depsMemDot deps t = true ∨ ∃ d, s.latestNoop = some d ∧ d.dot = t := by
  unfold MultiRecordValues.maybeAddNoopLatest at h
  cases hn : s.latestNoop with
  | none =>
    rw [hn] at h
    exact Or.inl h
  | some dep =>
    rw [hn] at h
    rcases depsMemDot_insert_elim _ _ _ h with h2 | h2
    · exact Or.inr ⟨dep, rfl, h2.symm⟩
    · exact Or.inl h2

theorem doAddCmd_eq (s : MultiRecordValues) (kSub : Nat) (rand : Key → Nat → Nat)
    (dot : Dot) (cmd : Command) (deps : List Dependency)
    (keysDeps : List (Key × List (List Nat))) (s2 : MultiRecordValues)
    (deps2 : List Dependency) (keysDeps2 : List (Key × List (List Nat)))
    (h : s.doAddCmd kSub rand dot cmd deps keysDeps = some (s2, deps2, keysDeps2)) :
    ∃ depsm, mrvProcessKeys cmd.readOnly (Dependency.fromCmd dot cmd) cmd s.shardId kSub
        rand (cmd.keys s.shardId) s keysDeps deps = some (s2, keysDeps2, depsm) ∧
      deps2 = s2.maybeAddNoopLatest depsm := by
  unfold MultiRecordValues.doAddCmd at h
  by_cases hg : (s.nfr && cmd.readOnly && decide (cmd.totalKeyCount ≠ 1)) = true
  · rw [if_pos hg] at h
    cases h
  · rw [if_neg hg] at h
    cases hpk : mrvProcessKeys cmd.readOnly (Dependency.fromCmd dot cmd) cmd s.shardId kSub
        rand (cmd.keys s.shardId) s keysDeps deps with
    | none =>
      rw [hpk] at h
      cases h
    | some p =>
      obtain ⟨sm, kdm, depsm⟩ := p
      rw [hpk] at h
      simp only [Option.some.injEq, Prod.mk.injEq] at h
      obtain ⟨h1, h2, h3⟩ := h
      subst h1
      subst h3
      exact ⟨depsm, rfl, h2.symm⟩

theorem doAddCmd_admin (s : MultiRecordValues) (kSub : Nat) (rand : Key → Nat → Nat)
    (dot : Dot) (cmd : Command) (deps : List Dependency)
    (keysDeps : List (Key × List (List Nat))) (s2 : MultiRecordValues)
    (deps2 : List Dependency) (keysDeps2 : List (Key × List (List Nat)))
    (h : s.doAddCmd kSub rand dot cmd deps keysDeps = some (s2, deps2, keysDeps2)) :
    s2.latestNoop = s.latestNoop ∧ s2.nfr = s.nfr ∧ s2.shardId = s.shardId := by
  obtain ⟨depsm, hpk, -⟩ := doAddCmd_eq s kSub rand dot cmd deps keysDeps s2 deps2 keysDeps2 h
  exact processKeys_admin _ _ _ _ _ _ _ _ _ _ _ _ _ hpk

theorem doAddCmd_write_forward_u (s : MultiRecordValues) (kSub : Nat)
    (rand : Key → Nat → Nat) (dot : Dot) (cmd : Command) (deps : List Dependency)
    (keysDeps : List (Key × List (List Nat))) (s2 : MultiRecordValues)
    (deps2 : List Dependency) (keysDeps2 : List (Key × List (List Nat)))
    (h : s.doAddCmd kSub rand dot cmd deps keysDeps = some (s2, deps2, keysDeps2))
    (key2 : Key) (n2 : Nat) :
    s2.writeDepAt key2 n2 = s.writeDepAt key2 n2 ∨
      (cmd.readOnly = false ∧ s2.writeDepAt key2 n2 = some (Dependency.fromCmd dot cmd)) := by
  obtain ⟨depsm, hpk, -⟩ := doAddCmd_eq s kSub rand dot cmd deps keysDeps s2 deps2 keysDeps2 h
  exact processKeys_write_forward_u _ _ _ _ _ _ _ _ _ _ _ _ _ hpk key2 n2

theorem doAddCmd_deps_elim_u (s : MultiRecordValues) (kSub : Nat)
    (rand : Key → Nat → Nat) (dot : Dot) (cmd : Command) (deps : List Dependency)
    (keysDeps : List (Key × List (List Nat))) (s2 : MultiRecordValues)
    (deps2 : List Dependency) (keysDeps2 : List (Key × List (List Nat)))
    (h : s.doAddCmd kSub rand dot cmd deps keysDeps = some (s2, deps2, keysDeps2))
    (t : Dot) (hm : depsMemDot deps2 t = true) :
    depsMemDot deps t = true ∨
      (∃ key2 n2, ∃ d, s.writeDepAt key2 n2 = some d ∧ d.dot = t) ∨
      (cmd.readOnly = false ∧ t = dot) ∨
      (cmd.readOnly = false ∧ s.nfr = false ∧
        ∃ key2 n2, ∃ d, s.readDepAt key2 n2 = some d ∧ d.dot = t) ∨
      (∃ d, s.latestNoop = some d ∧ d.dot = t) := by
  obtain ⟨depsm, hpk, hdeps2⟩ := doAddCmd_eq s kSub rand dot cmd deps keysDeps
    s2 deps2 keysDeps2 h
  subst hdeps2
  rcases maybeAddNoopLatest_elim s2 depsm t hm with h2 | h2
  · rcases processKeys_deps_elim_u _ _ _ _ _ _ _ _ _ _ _ _ _ hpk t h2 with h1 | h1 | h1 | h1
    · exact Or.inl h1
    · exact Or.inr (Or.inl h1)
    · exact Or.inr (Or.inr (Or.inl ⟨h1.1, h1.2⟩))
    · exact Or.inr (Or.inr (Or.inr (Or.inl h1)))
  · obtain ⟨d, hd, hdot⟩ := h2
    have hnoop : s2.latestNoop = s.latestNoop :=
      (processKeys_admin _ _ _ _ _ _ _ _ _ _ _ _ _ hpk).1
    exact Or.inr (Or.inr (Or.inr (Or.inr ⟨d, hnoop ▸ hd, hdot⟩)))

theorem addNoop_fst (s : MultiRecordValues) (dot : Dot) :
    (s.addNoop dot).1 = { s with latestNoop := some (Dependency.fromNoop dot) } := rfl

theorem writeDepAt_addNoop (s : MultiRecordValues) (dot : Dot) (key : Key) (n : Nat) :
    (s.addNoop dot).1.writeDepAt key n = s.writeDepAt key n := rfl

theorem mrvRun_nil (s : MultiRecordValues) (sf : MultiRecordValues)
    (outs : List (List Dependency)) (h : mrvRun s [] = some (sf, outs)) :
    sf = s ∧ outs = [] := by
  unfold mrvRun at h
  simp only [Option.some.injEq] at h
  exact ⟨(congrArg Prod.fst h).symm, (congrArg Prod.snd h).symm⟩

theorem mrvRun_cons_cmd (s : MultiRecordValues) (kSub : Nat) (rand : Key → Nat → Nat)
    (dot : Dot) (cmd : Command) (past : List Dependency)
    (kd : List (Key × List (List Nat))) (rest : List MrvEvent) (sf : MultiRecordValues)
    (outs : List (List Dependency))
    (h : mrvRun s (.addCmd kSub rand dot cmd past kd :: rest) = some (sf, outs)) :
    ∃ s2 deps kd2 outs2, s.doAddCmd kSub rand dot cmd past kd = some (s2, deps, kd2) ∧
      mrvRun s2 rest = some (sf, outs2) ∧ outs = deps :: outs2 := by
  unfold mrvRun at h
  cases hadd : s.doAddCmd kSub rand dot cmd past kd with
  | none =>
    rw [hadd] at h
    cases h
  | some p =>
    obtain ⟨s2, deps, kd2⟩ := p
    rw [hadd] at h
    dsimp only at h
    cases hrun : mrvRun s2 rest with
    | none =>
      rw [hrun] at h
      cases h
    | some q =>
      obtain ⟨sf2, outs2⟩ := q
      rw [hrun] at h
      simp only [Option.some.injEq, Prod.mk.injEq] at h
      obtain ⟨h1, h2⟩ := h
      subst h1
      exact ⟨s2, deps, kd2, outs2, rfl, hrun, h2.symm⟩

theorem mrvRun_cons_noop (s : MultiRecordValues) (dot : Dot) (rest : List MrvEvent)
    (sf : MultiRecordValues) (outs : List (List Dependency))
    (h : mrvRun s (.addNoop dot :: rest) = some (sf, outs)) :
    ∃ outs2, mrvRun (s.addNoop dot).1 rest = some (sf, outs2) ∧
      outs = (s.addNoop dot).2 :: outs2 := by
  unfold mrvRun at h
  cases hrun : mrvRun (s.addNoop dot).1 rest with
  | none =>
    rw [hrun] at h
    cases h
  | some q =>
    obtain ⟨sf2, outs2⟩ := q
    rw [hrun] at h
    simp only [Option.some.injEq, Prod.mk.injEq] at h
    obtain ⟨h1, h2⟩ := h
    subst h1
    exact ⟨outs2, rfl, h2.symm⟩

theorem mrvRun_no_dot (dot1 : Dot) (evs : List MrvEvent) (s : MultiRecordValues)
    (sf : MultiRecordValues) (outs : List (List Dependency))
    (hrun : mrvRun s evs = some (sf, outs))
    (hnfr : s.nfr = true)
    (hclean : ∀ key n d, s.writeDepAt key n = some d → d.dot ≠ dot1)
    (hcleanNoop : ∀ d, s.latestNoop = some d → d.dot ≠ dot1)
    (hevs : ∀ e ∈ evs, e.dot ≠ dot1 ∧ depsMemDot e.past dot1 = false) :
    ∀ p ∈ evs.zip outs, p.1.isNoop = false → depsMemDot p.2 dot1 = false := by
  induction evs generalizing s outs with
  | nil =>
    obtain ⟨-, houts⟩ := mrvRun_nil s sf outs hrun
    subst houts
    intro p hp
    simp at hp
  | cons e rest ih =>
    cases e with
    | addCmd kSub rand dot cmd past kd =>
      obtain ⟨s2, deps, kd2, outs2, hadd, hrun2, houts⟩ :=
        mrvRun_cons_cmd s kSub rand dot cmd past kd rest sf outs hrun
      subst houts
      have hev := hevs _ (List.mem_cons_self _ _)
      have hdot : dot ≠ dot1 := hev.1
      have hpast : depsMemDot past dot1 = false := hev.2
      have hadmin := doAddCmd_admin s kSub rand dot cmd past kd s2 deps kd2 hadd
      intro p hp hnn
      rw [List.zip_cons_cons] at hp
      rcases List.mem_cons.mp hp with hphead | hptail
      · subst hphead
        rw [Bool.eq_false_iff]
        intro hmem
        rcases doAddCmd_deps_elim_u s kSub rand dot cmd past kd s2 deps kd2 hadd dot1 hmem
          with h1 | h1 | h1 | h1 | h1
        · rw [hpast] at h1
          cases h1
        · obtain ⟨key2, n2, d, hd, hdot2⟩ := h1
          exact hclean key2 n2 d hd hdot2
        · exact hdot h1.2.symm
        · rw [hnfr] at h1
          simp at h1
        · obtain ⟨d, hd, hdot2⟩ := h1
          exact hcleanNoop d hd hdot2
      · refine ih s2 _ hrun2 ?_ ?_ ?_ ?_ p hptail hnn
        · rw [hadmin.2.1, hnfr]
        · intro key n d hd
          rcases doAddCmd_write_forward_u s kSub rand dot cmd past kd s2 deps kd2 hadd key n
            with h2 | h2
          · rw [h2] at hd
            exact hclean key n d hd
          · rw [h2.2] at hd
            have hdd : d = Dependency.fromCmd dot cmd := (Option.some.injEq _ _).mp hd.symm
            rw [hdd]
            exact hdot
        · intro d hd
          rw [hadmin.1] at hd
          exact hcleanNoop d hd
        · intro e2 he2
          exact hevs e2 (List.mem_cons_of_mem _ he2)
    | addNoop dot =>
      obtain ⟨outs2, hrun2, houts⟩ := mrvRun_cons_noop s dot rest sf outs hrun
      subst houts
      have hev := hevs _ (List.mem_cons_self _ _)
      have hdot : dot ≠ dot1 := hev.1
      intro p hp hnn
      rw [List.zip_cons_cons] at hp
      rcases List.mem_cons.mp hp with hphead | hptail
      · subst hphead
        simp [MrvEvent.isNoop] at hnn
      · refine ih (s.addNoop dot).1 _ hrun2 hnfr ?_ ?_ ?_ p hptail hnn
        · intro key n d hd
          rw [writeDepAt_addNoop] at hd
          exact hclean key n d hd
        · intro d hd
          rw [addNoop_fst] at hd
          have hdd : d = Dependency.fromNoop dot := (Option.some.injEq _ _).mp hd.symm
          rw [hdd]
          exact hdot
        · intro e2 he2
          exact hevs e2 (List.mem_cons_of_mem _ he2)

theorem replicate_get?_eq {α : Type} (k n : Nat) (a b : α)
    (h : (List.replicate k a).get? n = some b) : b = a := by
  induction k generalizing n with
  | zero => simp [List.replicate] at h
  | succ m ih =>
    cases n with
    | zero =>
      rw [List.replicate, List.get?_cons_zero] at h
      exact (Option.some_inj.mp h).symm
    | succ n2 =>
      rw [List.replicate, List.get?_cons_succ] at h
      exact ih n2 h

theorem new_shardId (shard : Nat) (nfr : Bool) (nMrv : Nat) :
    (MultiRecordValues.new shard nfr nMrv).shardId = shard := rfl

theorem fresh_write_none (shard : Nat) (nfr : Bool) (nMrv : Nat) (key : Key) (n : Nat) :
    (MultiRecordValues.new shard nfr nMrv).writeDepAt key n = none := by
  show (LatestRWDepArray.default.data.get? n).bind (fun slot => slot.write) = none
  cases hg : LatestRWDepArray.default.data.get? n with
  | none => rfl
  | some slot =>
    have hg2 : (List.replicate DEFAULT_N_MRV
        ({ read := none, write := none } : LatestRWDep)).get? n = some slot := hg
    rw [replicate_get?_eq DEFAULT_N_MRV n _ slot hg2]
    rfl

theorem fresh_read_none (shard : Nat) (nfr : Bool) (nMrv : Nat) (key : Key) (n : Nat) :
    (MultiRecordValues.new shard nfr nMrv).readDepAt key n = none := by
  show (LatestRWDepArray.default.data.get? n).bind (fun slot => slot.read) = none
  cases hg : LatestRWDepArray.default.data.get? n with
  | none => rfl
  | some slot =>
    have hg2 : (List.replicate DEFAULT_N_MRV
        ({ read := none, write := none } : LatestRWDep)).get? n = some slot := hg
    rw [replicate_get?_eq DEFAULT_N_MRV n _ slot hg2]
    rfl

/-- C2 (amended): starting from a fresh tracker, add `cmd1` (dot `dot1`) and
then `cmd2` (dot `dot2`) with chosen sub-index sets `kd1`, `kd2` covering every
op (`hfull1`, `hfull2`).  If the chosen sets are disjoint on every key shared
by the two commands, `cmd2`'s dependency set does not contain `dot1`; if they
intersect on some shared key and `cmd1` is not read-only, it does contain
`dot1`.  (The original claim's intersect direction is false for a read/read
pair — see the C2 counterexample — hence the `cmd1.readOnly = false`
condition.) -/
theorem c2_mrv_index_disjointness (shard nMrv kSub1 kSub2 : Nat) (nfr : Bool)
    (rand1 rand2 : Key → Nat → Nat) (dot1 dot2 : Dot) (cmd1 cmd2 : Command)
    (kd1 kd2 kd1o kd2o : List (Key × List (List Nat)))
    (s1 s2 : MultiRecordValues) (deps1 deps2 : List Dependency)
    (hne : dot1 ≠ dot2)
    (h1 : (MultiRecordValues.new shard nfr nMrv).doAddCmd kSub1 rand1 dot1 cmd1 [] kd1 =
      some (s1, deps1, kd1o))
    (h2 : s1.doAddCmd kSub2 rand2 dot2 cmd2 [] kd2 = some (s2, deps2, kd2o))
    (hfull1 : ∀ k ∈ cmd1.keys shard,
      ((lookupA kd1 k).getD []).length = (cmd1.operations shard k).length)
    (hfull2 : ∀ k ∈ cmd2.keys shard,
      ((lookupA kd2 k).getD []).length = (cmd2.operations shard k).length) :
    ((∀ k ∈ cmd1.keys shard, k ∈ cmd2.keys shard →
        ∀ n ∈ entryFlatten kd1 k, n ∉ entryFlatten kd2 k) →
      depsMemDot deps2 dot1 = false) ∧
    (cmd1.readOnly = false →
      ∀ k ∈ cmd1.keys shard, k ∈ cmd2.keys shard →
        ∀ n ∈ entryFlatten kd1 k, n ∈ entryFlatten kd2 k →
          depsMemDot deps2 dot1 = true) := by
  have hadm1 := doAddCmd_admin _ _ _ _ _ _ _ _ _ _ h1
  have hadm2 := doAddCmd_admin _ _ _ _ _ _ _ _ _ _ h2
  have hshard : s1.shardId = shard := hadm1.2.2
  have hnoop2 : s2.latestNoop = none := by
    rw [hadm2.1, hadm1.1]
    rfl
  obtain ⟨depsm1, hpk1, hdeq1⟩ := doAddCmd_eq _ _ _ _ _ _ _ _ _ _ h1
  obtain ⟨depsm2, hpk2, hdeq2⟩ := doAddCmd_eq _ _ _ _ _ _ _ _ _ _ h2
  rw [new_shardId] at hpk1
  rw [hshard] at hpk2
  constructor
  · intro hdisj
    rw [hdeq2, Bool.eq_false_iff]
    intro hmem
    rcases maybeAddNoopLatest_elim s2 depsm2 dot1 hmem with hm | hm
    · rcases processKeys_deps_elim_loc _ _ _ _ _ _ _ _ _ _ _ _ _ hpk2 hfull2 dot1 hm
        with hc | hc | hc | hc
      · simp [depsMemDot] at hc
      · obtain ⟨key2, hk2, n2, hn2, d, hw, hdd⟩ := hc
        rcases processKeys_write_forward_loc _ _ _ _ _ _ _ _ _ _ _ _ _ hpk1 hfull1 key2 n2
          with hf | hf
        · rw [hf, fresh_write_none] at hw
          cases hw
        · exact hdisj key2 hf.2.1 hk2 n2 hf.2.2.1 hn2
      · exact hne hc.2
      · obtain ⟨hro2, hnfr1, key2, hk2, n2, hn2, d, hr, hdd⟩ := hc
        rcases processKeys_read_forward_loc _ _ _ _ _ _ _ _ _ _ _ _ _ hpk1 hfull1 key2 n2
          with hf | hf
        · rw [hf, fresh_read_none] at hr
          cases hr
        · exact hdisj key2 hf.2.1 hk2 n2 hf.2.2.1 hn2
    · obtain ⟨d, hd, -⟩ := hm
      rw [hnoop2] at hd
      cases hd
  · intro hro1 k hk1 hk2 n hn1 hn2
    have hw : s1.writeDepAt k n = some (Dependency.fromCmd dot1 cmd1) :=
      processKeys_write_lower _ _ _ _ _ _ _ _ _ _ _ _ _ hpk1 hfull1 hro1 k hk1 n hn1
    have hcoll : depsMemDot depsm2 dot1 = true :=
      processKeys_collect_write _ _ _ _ _ _ _ _ _ _ _ _ _ hpk2 hfull2 k hk2 n hn2 _ hw
    rw [hdeq2]
    exact maybeAddNoopLatest_mono s2 depsm2 dot1 hcoll

/-- C2 witness: the spec §8 S6 scenario with colliding sub-index `3` on key
`"A"`: the second command's dependency set contains the first's dot. -/
theorem c2_mrv_index_disjointness_witness :
    depsMemDot c2out2.2.1 (Dot.mk 1 1) = true :=
  (c2_mrv_index_disjointness 0 10 1 1 false (fun _ _ => 0) (fun _ _ => 0)
    (Dot.mk 1 1) (Dot.mk 2 1) c2cmd1 c2cmd2 [("A", [[3]])] [("A", [[3]])]
    c2out1.2.2 c2out2.2.2 c2out1.1 c2out2.1 c2out1.2.1 c2out2.2.1
    (by decide) (by decide) (by decide) (by decide) (by decide)).2
    (by decide) "A" (by decide) (by decide) 3 (by decide) (by decide)

/-- C8 (amended): with NFR enabled, a read-only command added with empty past
receives a dependency set whose every member is a registered latest write at
one of its chosen sub-indices on one of its keys, or the latest noop; and its
own dot never appears in the dependency set returned for any later `add_cmd`
(it can appear in a later noop's set — see the C8 counterexample, which is why
the original "any later command or noop" is restricted to non-noop events). -/
theorem c8_nfr_read_only_deps (s : MultiRecordValues) (kSub : Nat)
    (rand : Key → Nat → Nat) (dot1 : Dot) (cmd : Command)
    (kd : List (Key × List (List Nat))) (s1 : MultiRecordValues)
    (deps1 : List Dependency) (kd1o : List (Key × List (List Nat)))
    (hnfr : s.nfr = true) (hro : cmd.readOnly = true)
    (hadd : s.doAddCmd kSub rand dot1 cmd [] kd = some (s1, deps1, kd1o))
    (hfull : ∀ k ∈ cmd.keys s.shardId,
      ((lookupA kd k).getD []).length = (cmd.operations s.shardId k).length)
    (evs : List MrvEvent) (sf : MultiRecordValues) (outs : List (List Dependency))
    (hrun : mrvRun s1 evs = some (sf, outs))
    (hclean : ∀ key n d, s.writeDepAt key n = some d → d.dot ≠ dot1)
    (hcleanNoop : ∀ d, s.latestNoop = some d → d.dot ≠ dot1)
    (hevs : ∀ e ∈ evs, e.dot ≠ dot1 ∧ depsMemDot e.past dot1 = false) :
    (∀ t, depsMemDot deps1 t = true →
      (∃ k ∈ cmd.keys s.shardId, ∃ n ∈ entryFlatten kd k,
        ∃ d, s.writeDepAt k n = some d ∧ d.dot = t) ∨
      (∃ d, s.latestNoop = some d ∧ d.dot = t)) ∧
    (∀ p ∈ evs.zip outs, p.1.isNoop = false → depsMemDot p.2 dot1 = false) := by
  have hadm := doAddCmd_admin _ _ _ _ _ _ _ _ _ _ hadd
  obtain ⟨depsm, hpk, hdeq⟩ := doAddCmd_eq _ _ _ _ _ _ _ _ _ _ hadd
  constructor
  · intro t hm
    rw [hdeq] at hm
    rcases maybeAddNoopLatest_elim s1 depsm t hm with hm2 | hm2
    · rcases processKeys_deps_elim_loc _ _ _ _ _ _ _ _ _ _ _ _ _ hpk hfull t hm2
        with hc | hc | hc | hc
      · simp [depsMemDot] at hc
      · exact Or.inl hc
      · rw [hro] at hc
        cases hc.1
      · rw [hro] at hc
        cases hc.1
    · obtain ⟨d, hd, hdd⟩ := hm2
      rw [hadm.1] at hd
      exact Or.inr ⟨d, hd, hdd⟩
  · refine mrvRun_no_dot dot1 evs s1 sf outs hrun ?_ ?_ ?_ hevs
    · rw [hadm.2.1, hnfr]
    · intro key n d hd
      rcases doAddCmd_write_forward_u _ _ _ _ _ _ _ _ _ _ hadd key n with hf | hf
      · rw [hf] at hd
        exact hclean key n d hd
      · rw [hro] at hf
        cases hf.1
    · intro d hd
      rw [hadm.1] at hd
      exact hcleanNoop d hd

/-- C8 witness: fresh NFR tracker, read `Get("A")` (dot `1.1`, sub-index `0`),
then `Add("A", 1)` at the same sub-index: the Add's dependency set does not
contain the read's dot. -/
theorem c8_nfr_read_only_deps_witness :
    depsMemDot c8deps2 (Dot.mk 1 1) = false :=
  (c8_nfr_read_only_deps (MultiRecordValues.new 0 true 10) 1 (fun _ _ => 0) (Dot.mk 1 1)
    c8cmdRead [("A", [[0]])] c8out1.1 c8out1.2.1 c8out1.2.2 rfl (by decide) rfl
    (by decide) c8evs c8run.1 c8run.2 rfl
    (by intro key n d hd
        rw [fresh_write_none] at hd
        cases hd)
    (by intro d hd
        cases hd)
    (by decide)).2
    (MrvEvent.addCmd 1 (fun _ _ => 0) (Dot.mk 2 1) c8cmdAdd [] [("A", [[0]])], c8deps2)
    (List.Mem.head _) rfl

/-- C9 counterexample: a duplicate `Queue::add` for an already-known dot is
not ignored — it trips `assert!(self.vertex_index.index(vertex))` (modelled
as `none`), so the queue does not survive unchanged and no cmd/deps
consistency check ever runs. -/
theorem c9_duplicate_add_panics_counterexample :
    ∃ q1, (Queue.new 2).add (Dot.mk 1 1) { rifl := Rifl.mk 1 1, keys := ["black"] }
        [(1, 1), (2, 1)] = some q1 ∧
      q1.add (Dot.mk 1 1) { rifl := Rifl.mk 1 1, keys := ["black"] }
        [(1, 1), (2, 1)] = none :=
  ⟨_, rfl, rfl⟩

/-- C9 (amended): `Queue::add` fails the `assert!` (panics) exactly when the
dot is already in the vertex index; a fresh dot is always accepted. -/
theorem c9_duplicate_add_rejected (q : Queue) (dot : Dot) (cmd : QueueCmd)
    (clock : List (Nat × Nat)) :
    q.add dot cmd clock = none ↔ (lookupA q.vertexIndex dot).isSome = true := by
  unfold Queue.add
  by_cases h : (lookupA q.vertexIndex dot).isSome = true
  · rw [if_pos h]
    simpa using h
  · rw [if_neg h]
    rcases hq : Queue.findScc
        { q with vertexIndex := insertA q.vertexIndex dot ⟨dot, cmd, clock⟩ } dot
      with ⟨q2, keys⟩
    simp [h]

/-- C1 counterexample: two committed commands with no dependencies at all
are each released immediately on their own `add`, so the two arrival orders
of the same tuple set produce different release sequences, refuting "the
released sequence is the same for every permutation of arrival order". -/
theorem c1_arrival_order_counterexample :
    ∃ qa qb,
      runQueue 2 [(Dot.mk 1 1, { rifl := Rifl.mk 1 1, keys := ["black"] }, []),
        (Dot.mk 2 1, { rifl := Rifl.mk 2 1, keys := ["black"] }, [])] = some qa ∧
      runQueue 2 [(Dot.mk 2 1, { rifl := Rifl.mk 2 1, keys := ["black"] }, []),
        (Dot.mk 1 1, { rifl := Rifl.mk 1 1, keys := ["black"] }, [])] = some qb ∧
      qa.toExecute.map Prod.fst = [Dot.mk 1 1, Dot.mk 2 1] ∧
      qb.toExecute.map Prod.fst = [Dot.mk 2 1, Dot.mk 1 1] :=
  ⟨_, _, rfl, rfl, rfl, rfl⟩

/-! ## Dot order and sorting lemmas -/

theorem dotLtP_trans (a b c : Dot) (h1 : dotLtP a b) (h2 : dotLtP b c) : dotLtP a c := by
  unfold dotLtP at *
  rcases h1 with h1 | h1 <;> rcases h2 with h2 | h2
  · exact Or.inl (Nat.lt_trans h1 h2)
  · exact Or.inl (h2.1 ▸ h1)
  · exact Or.inl (h1.1 ▸ h2)
  · exact Or.inr ⟨h1.1.trans h2.1, Nat.lt_trans h1.2 h2.2⟩

theorem dotLtP_asymm (a b : Dot) (h1 : dotLtP a b) (h2 : dotLtP b a) : False := by
  unfold dotLtP at *
  omega

theorem dotLtP_of_le_true (a b : Dot) (h : dotLe a b = true) (hne : a ≠ b) :
    dotLtP a b := by
  unfold dotLe at h
  unfold dotLtP
  simp only [Bool.or_eq_true, Bool.and_eq_true, decide_eq_true_eq] at h
  rcases h with h | ⟨h1, h2⟩
  · exact Or.inl h
  · rcases Nat.lt_or_ge a.seq b.seq with h3 | h3
    · exact Or.inr ⟨h1, h3⟩
    · exact absurd (show a = b from by
        cases a
        cases b
        simp only [Dot.mk.injEq]
        exact ⟨h1, Nat.le_antisymm h2 h3⟩) hne

theorem dotLtP_of_le_false (a b : Dot) (h : dotLe a b = false) : dotLtP b a := by
  unfold dotLe at h
  rw [Bool.or_eq_false_iff, Bool.and_eq_false_iff] at h
  unfold dotLtP
  rcases h with ⟨h1, h2⟩
  rw [decide_eq_false_iff_not] at h1
  rcases h2 with h2 | h2
  · rw [decide_eq_false_iff_not] at h2
    omega
  · rw [decide_eq_false_iff_not] at h2
    omega

theorem insSorted_mem (d : Dot) (l : List Dot) (x : Dot) :
    x ∈ insSorted d l ↔ x = d ∨ x ∈ l := by
  induction l with
  | nil => simp [insSorted]
  | cons e rest ih =>
    unfold insSorted
    by_cases h : dotLe d e = true
    · rw [if_pos h]
      simp
    · rw [if_neg h]
      simp only [List.mem_cons, ih]
      tauto

theorem insSorted_perm (d : Dot) (l : List Dot) : (insSorted d l).Perm (d :: l) := by
  induction l with
  | nil => simp [insSorted]
  | cons e rest ih =>
    unfold insSorted
    by_cases h : dotLe d e = true
    · rw [if_pos h]
    · rw [if_neg h]
      exact ((ih.cons e).trans (List.Perm.swap d e rest)).symm.symm

theorem sortDots_perm (l : List Dot) : (sortDots l).Perm l := by
  induction l with
  | nil => simp [sortDots]
  | cons e rest ih =>
    have : sortDots (e :: rest) = insSorted e (sortDots rest) := rfl
    rw [this]
    exact (insSorted_perm e (sortDots rest)).trans (ih.cons e)

theorem insSorted_pairwise (d : Dot) (l : List Dot) (h : l.Pairwise dotLtP)
    (hd : d ∉ l) : (insSorted d l).Pairwise dotLtP := by
  induction l with
  | nil => simp [insSorted]
  | cons e rest ih =>
    unfold insSorted
    rw [List.pairwise_cons] at h
    by_cases hle : dotLe d e = true
    · rw [if_pos hle]
      have hde : dotLtP d e := dotLtP_of_le_true d e hle (by simp at hd; tauto)
      refine List.Pairwise.cons ?_ (List.Pairwise.cons h.1 h.2)
      intro x hx
      rcases List.mem_cons.mp hx with hx | hx
      · exact hx ▸ hde
      · exact dotLtP_trans d e x hde (h.1 x hx)
    · rw [if_neg hle]
      have hed : dotLtP e d := dotLtP_of_le_false d e (by simpa using hle)
      refine List.Pairwise.cons ?_ (ih h.2 (by simp at hd; tauto))
      intro x hx
      rcases (insSorted_mem d rest x).mp hx with hx | hx
      · exact hx ▸ hed
      · exact h.1 x hx

theorem sortDots_pairwise (l : List Dot) (h : l.Nodup) :
    (sortDots l).Pairwise dotLtP := by
  induction l with
  | nil => simp [sortDots]
  | cons e rest ih =>
    have heq : sortDots (e :: rest) = insSorted e (sortDots rest) := rfl
    rw [heq]
    rw [List.nodup_cons] at h
    refine insSorted_pairwise e (sortDots rest) (ih h.2) ?_
    intro hmem
    exact h.1 ((sortDots_perm rest).mem_iff.mp hmem)

theorem pairwise_lt_eq_of_mem_iff (l1 l2 : List Dot) (h1 : l1.Pairwise dotLtP)
    (h2 : l2.Pairwise dotLtP) (hm : ∀ x, x ∈ l1 ↔ x ∈ l2) : l1 = l2 := by
  induction l1 generalizing l2 with
  | nil =>
    cases l2 with
    | nil => rfl
    | cons b t2 => exact absurd ((hm b).mpr (List.mem_cons_self b t2)) (by simp)
  | cons a t1 ih =>
    cases l2 with
    | nil => exact absurd ((hm a).mp (List.mem_cons_self a t1)) (by simp)
    | cons b t2 =>
      rw [List.pairwise_cons] at h1 h2
      have hab : a = b := by
        rcases List.mem_cons.mp ((hm a).mp (List.mem_cons_self a t1)) with h | h
        · exact h
        · rcases List.mem_cons.mp ((hm b).mpr (List.mem_cons_self b t2)) with h3 | h3
          · exact h3.symm
          · exact absurd (h2.1 a h) (fun hc => dotLtP_asymm a b (h1.1 b h3) hc)
      subst hab
      have hm2 : ∀ x, x ∈ t1 ↔ x ∈ t2 := by
        intro x
        constructor
        · intro hx
          rcases List.mem_cons.mp ((hm x).mp (List.mem_cons_of_mem a hx)) with h | h
          · exact absurd (h ▸ h1.1 x hx) (fun hc => dotLtP_asymm x x hc hc)
          · exact h
        · intro hx
          rcases List.mem_cons.mp ((hm x).mpr (List.mem_cons_of_mem a hx)) with h | h
          · exact absurd (h ▸ h2.1 x hx) (fun hc => dotLtP_asymm x x hc hc)
          · exact h
      exact congrArg (a :: ·) (ih t2 h1.2 h2.2 hm2)

theorem sortDots_nodup (l : List Dot) (h : l.Nodup) : (sortDots l).Nodup :=
  (sortDots_perm l).nodup_iff.mpr h

theorem sortDots_eq_of_mem_iff (l1 l2 : List Dot) (h1 : l1.Nodup) (h2 : l2.Nodup)
    (hm : ∀ x, x ∈ l1 ↔ x ∈ l2) : sortDots l1 = sortDots l2 :=
  pairwise_lt_eq_of_mem_iff _ _ (sortDots_pairwise l1 h1) (sortDots_pairwise l2 h2)
    (fun x => by
      rw [(sortDots_perm l1).mem_iff, (sortDots_perm l2).mem_iff]
      exact hm x)

/-! ## Reachability in the queue graph -/

theorem deps_none (q : Queue) (a : Dot) (h : lookupA q.vertexIndex a = none) :
    q.deps a = [] := by
  unfold Queue.deps
  rw [h]

theorem qstep_indexed_left (q : Queue) (a b : Dot) (h : qstep q a b) :
    (lookupA q.vertexIndex a).isSome = true := by
  rcases h with ⟨h1, -⟩
  cases hl : lookupA q.vertexIndex a with
  | none =>
    rw [deps_none q a hl] at h1
    simp at h1
  | some v => rfl

theorem lookupA_isSome_mem {κ α : Type} [DecidableEq κ] (m : List (κ × α)) (k : κ)
    (h : (lookupA m k).isSome = true) : k ∈ m.map Prod.fst := by
  induction m with
  | nil => simp [lookupA] at h
  | cons p rest ih =>
    unfold lookupA at h
    by_cases hk : p.1 = k
    · simp [hk]
    · rw [if_neg hk] at h
      exact List.mem_cons_of_mem _ (ih h)

theorem mem_expandOnce (q : Queue) (acc : List Dot) (x : Dot) :
    x ∈ q.expandOnce acc ↔ x ∈ acc ∨ ((∃ u ∈ acc, x ∈ q.deps u) ∧
      (lookupA q.vertexIndex x).isSome = true ∧ x ∉ acc) := by
  unfold Queue.expandOnce
  rw [List.mem_append, List.mem_dedup, List.mem_filter, List.mem_flatMap]
  simp only [Bool.and_eq_true, Bool.not_eq_true']
  constructor
  · rintro (h | ⟨⟨u, hu, hd⟩, h2, h3⟩)
    · exact Or.inl h
    · refine Or.inr ⟨⟨u, hu, hd⟩, h2, ?_⟩
      simpa using h3
  · rintro (h | ⟨⟨u, hu, hd⟩, h2, h3⟩)
    · exact Or.inl h
    · refine Or.inr ⟨⟨u, hu, hd⟩, h2, ?_⟩
      simpa using h3

theorem expandOnce_sub (q : Queue) (acc : List Dot) : acc ⊆ q.expandOnce acc :=
  fun _ hx => (mem_expandOnce q acc _).mpr (Or.inl hx)

theorem iterate_sub (q : Queue) (k : Nat) (l : List Dot) :
    l ⊆ (Queue.expandOnce q)^[k] l := by
  induction k with
  | zero => simp
  | succ k ih =>
    rw [Function.iterate_succ_apply']
    exact fun x hx => expandOnce_sub q _ (ih hx)

theorem iterate_sound (q : Queue) (d : Dot) (k : Nat) (x : Dot)
    (hx : x ∈ (Queue.expandOnce q)^[k] [d]) :
    Relation.ReflTransGen (qstep q) d x := by
  induction k generalizing x with
  | zero =>
    simp at hx
    exact hx ▸ Relation.ReflTransGen.refl
  | succ k ih =>
    rw [Function.iterate_succ_apply'] at hx
    rcases (mem_expandOnce q _ x).mp hx with h | ⟨⟨u, hu, hd⟩, h2, -⟩
    · exact ih x h
    · exact (ih u hu).tail ⟨hd, h2⟩

theorem expandOnce_nodup (q : Queue) (acc : List Dot) (h : acc.Nodup) :
    (q.expandOnce acc).Nodup := by
  unfold Queue.expandOnce
  refine h.append (List.nodup_dedup _) ?_
  intro x hx hx2
  rcases List.mem_filter.mp (List.mem_dedup.mp hx2) with ⟨-, hcond⟩
  rw [Bool.and_eq_true, Bool.not_eq_true'] at hcond
  exact absurd hx (by simpa using hcond.2)

theorem iterate_nodup (q : Queue) (d : Dot) (k : Nat) :
    ((Queue.expandOnce q)^[k] [d]).Nodup := by
  induction k with
  | zero => simp
  | succ k ih =>
    rw [Function.iterate_succ_apply']
    exact expandOnce_nodup q _ ih

theorem iterate_length_le (q : Queue) (d : Dot) (k : Nat) :
    ((Queue.expandOnce q)^[k] [d]).length ≤ q.vertexIndex.length + 1 := by
  have hsub : (Queue.expandOnce q)^[k] [d] ⊆ d :: q.vertexIndex.map Prod.fst := by
    intro x hx
    rcases (iterate_sound q d k x hx).cases_tail with h | ⟨c, -, hc⟩
    · exact h ▸ List.mem_cons_self _ _
    · exact List.mem_cons_of_mem _ (lookupA_isSome_mem _ _ hc.2)
  have hsp := List.subperm_of_subset (iterate_nodup q d k) hsub
  have := hsp.length_le
  simpa using this

theorem expandOnce_eq_or_lt (q : Queue) (acc : List Dot) :
    q.expandOnce acc = acc ∨ acc.length < (q.expandOnce acc).length := by
  unfold Queue.expandOnce
  cases hX : ((acc.flatMap (fun u => q.deps u)).filter
      (fun e => (lookupA q.vertexIndex e).isSome && !acc.contains e)).dedup with
  | nil => simp [hX]
  | cons y ys =>
    right
    simp [hX]

theorem expandOnce_fix_iterate (q : Queue) (l : List Dot) (h : q.expandOnce l = l)
    (m : Nat) : (Queue.expandOnce q)^[m] l = l := by
  induction m with
  | zero => rfl
  | succ m ih =>
    rw [Function.iterate_succ_apply']
    rw [ih, h]

theorem iterate_fix_aux (q : Queue) (d : Dot) (k : Nat) :
    q.expandOnce ((Queue.expandOnce q)^[k] [d]) = (Queue.expandOnce q)^[k] [d] ∨
      k + 1 ≤ ((Queue.expandOnce q)^[k] [d]).length := by
  induction k with
  | zero => simp
  | succ k ih =>
    rcases ih with ih | ih
    · left
      rw [Function.iterate_succ_apply', ih, ih]
    · rcases expandOnce_eq_or_lt q ((Queue.expandOnce q)^[k] [d]) with h | h
      · left
        rw [Function.iterate_succ_apply', h, h]
      · right
        rw [Function.iterate_succ_apply']
        omega

theorem reachable_fix (q : Queue) (d : Dot) :
    q.expandOnce (q.reachable d) = q.reachable d := by
  rcases iterate_fix_aux q d (q.vertexIndex.length + 1) with h | h
  · exact h
  · have := iterate_length_le q d (q.vertexIndex.length + 1)
    omega

theorem reachable_iff (q : Queue) (d : Dot) (x : Dot) :
    x ∈ q.reachable d ↔ Relation.ReflTransGen (qstep q) d x := by
  constructor
  · exact iterate_sound q d _ x
  · intro h
    induction h with
    | refl => exact iterate_sub q _ [d] (List.mem_singleton.mpr rfl)
    | @tail c y hdc hcx ih =>
      by_cases hmem : y ∈ q.reachable d
      · exact hmem
      · rw [← reachable_fix q d]
        exact (mem_expandOnce q _ _).mpr
          (Or.inr ⟨⟨c, ih, hcx.1⟩, hcx.2, hmem⟩)

theorem sccOf_iff (q : Queue) (d : Dot) (x : Dot) :
    x ∈ q.sccOf d ↔
      Relation.ReflTransGen (qstep q) d x ∧ Relation.ReflTransGen (qstep q) x d := by
  unfold Queue.sccOf
  rw [List.mem_filter]
  rw [reachable_iff]
  constructor
  · rintro ⟨h1, h2⟩
    exact ⟨h1, (reachable_iff q x d).mp (List.elem_iff.mp h2)⟩
  · rintro ⟨h1, h2⟩
    exact ⟨h1, List.elem_iff.mpr ((reachable_iff q x d).mpr h2)⟩

theorem readyScc_iff (q : Queue) (b : List Dot) :
    q.readyScc b = true ↔ ∀ u ∈ b, ∀ e ∈ q.deps u, e ∈ b := by
  unfold Queue.readyScc
  rw [List.all_eq_true]
  constructor
  · intro h u hu e he
    have h1 := h u hu
    rw [List.all_eq_true] at h1
    exact List.elem_iff.mp (h1 e he)
  · intro h u hu
    rw [List.all_eq_true]
    exact fun e he => List.elem_iff.mpr (h u hu e he)

/-! ## Association list and committed-graph basics -/

theorem lookupA_mem_nodup {κ α : Type} [DecidableEq κ] (m : List (κ × α)) (k : κ)
    (v : α) (hmem : (k, v) ∈ m) (hnd : (m.map Prod.fst).Nodup) :
    lookupA m k = some v := by
  induction m with
  | nil => simp at hmem
  | cons p rest ih =>
    rw [List.map_cons, List.nodup_cons] at hnd
    rcases List.mem_cons.mp hmem with h | h
    · subst h
      unfold lookupA
      rw [if_pos rfl]
    · unfold lookupA
      by_cases hk : p.1 = k
      · exfalso
        apply hnd.1
        rw [hk]
        exact List.mem_map.mpr ⟨(k, v), h, rfl⟩
      · rw [if_neg hk]
        exact ih h hnd.2

theorem lookupA_eq_some_mem {κ α : Type} [DecidableEq κ] (m : List (κ × α)) (k : κ)
    (v : α) (h : lookupA m k = some v) : (k, v) ∈ m := by
  induction m with
  | nil => simp [lookupA] at h
  | cons p rest ih =>
    unfold lookupA at h
    by_cases hk : p.1 = k
    · rw [if_pos hk] at h
      have h2 : p.2 = v := Option.some_inj.mp h
      rw [← hk, ← h2]
      exact List.mem_cons_self _ _
    · rw [if_neg hk] at h
      exact List.mem_cons_of_mem _ (ih h)

theorem lookupA_perm {κ α : Type} [DecidableEq κ] (m1 m2 : List (κ × α))
    (hp : m1.Perm m2) (hnd : (m1.map Prod.fst).Nodup) (k : κ) :
    lookupA m1 k = lookupA m2 k := by
  cases h1 : lookupA m1 k with
  | some v =>
    exact (lookupA_mem_nodup m2 k v (hp.mem_iff.mp (lookupA_eq_some_mem m1 k v h1))
      (((hp.map Prod.fst).nodup_iff).mp hnd)).symm
  | none =>
    cases h2 : lookupA m2 k with
    | none => rfl
    | some w =>
      have := lookupA_mem_nodup m1 k w (hp.mem_iff.mpr (lookupA_eq_some_mem m2 k w h2)) hnd
      rw [h1] at this
      cases this

theorem lookupA_envOf (inputs : List (Dot × QueueCmd × List (Nat × Nat)))
    (hnd : (inputs.map Prod.fst).Nodup) (p : Dot × QueueCmd × List (Nat × Nat))
    (hp : p ∈ inputs) :
    lookupA (envOf inputs) p.1 = some { dot := p.1, cmd := p.2.1, clock := p.2.2 } := by
  refine lookupA_mem_nodup _ _ _ ?_ ?_
  · exact List.mem_map.mpr ⟨p, hp, rfl⟩
  · unfold envOf
    rw [List.map_map]
    exact hnd

theorem insertA_map_fst_fresh {κ α : Type} [DecidableEq κ] (m : List (κ × α)) (k : κ)
    (v : α) (h : k ∉ m.map Prod.fst) :
    (insertA m k v).map Prod.fst = m.map Prod.fst ++ [k] := by
  induction m with
  | nil => rfl
  | cons p rest ih =>
    rw [List.map_cons] at h
    unfold insertA
    by_cases hk : p.1 = k
    · exact absurd (hk ▸ List.mem_cons_self _ _) h
    · rw [if_neg hk, List.map_cons, List.map_cons, List.cons_append]
      rw [ih (fun hc => h (List.mem_cons_of_mem _ hc))]

theorem deps_qAll (env : List (Dot × Vertex)) (a : Dot) :
    (qAll env).deps a = match lookupA env a with
      | some v => clockDeps v.clock
      | none => [] := by
  unfold Queue.deps qAll
  cases lookupA env a with
  | none => rfl
  | some v =>
    exact List.filter_eq_self.mpr (fun x _ => rfl)

theorem qstep_qAll_iff (env : List (Dot × Vertex)) (a b : Dot) :
    qstep (qAll env) a b ↔ ∃ v, lookupA env a = some v ∧ b ∈ clockDeps v.clock ∧
      (lookupA env b).isSome = true := by
  unfold qstep
  rw [deps_qAll]
  cases ha : lookupA env a with
  | none => simp [qAll]
  | some v => simp [qAll]

theorem FRel_trans (env : List (Dot × Vertex)) (a b c : Dot) (h1 : FRel env a b)
    (h2 : FRel env b c) : FRel env a c :=
  Relation.ReflTransGen.trans h1 h2

theorem sameB_refl (env : List (Dot × Vertex)) (a : Dot) : sameB env a a :=
  ⟨Relation.ReflTransGen.refl, Relation.ReflTransGen.refl⟩

theorem sameB_symm (env : List (Dot × Vertex)) (a b : Dot) (h : sameB env a b) :
    sameB env b a := ⟨h.2, h.1⟩

theorem sameB_trans (env : List (Dot × Vertex)) (a b c : Dot) (h1 : sameB env a b)
    (h2 : sameB env b c) : sameB env a c :=
  ⟨FRel_trans env a b c h1.1 h2.1, FRel_trans env c b a h2.2 h1.2⟩

theorem FRel_mem_right (env : List (Dot × Vertex)) (a b : Dot) (h : FRel env a b) :
    b = a ∨ b ∈ env.map Prod.fst := by
  rcases h.cases_tail with h | ⟨c, -, hc⟩
  · exact Or.inl h
  · exact Or.inr (lookupA_isSome_mem env b hc.2)

theorem sameB_mem (env : List (Dot × Vertex)) (a b : Dot)
    (ha : a ∈ env.map Prod.fst) (h : sameB env a b) : b ∈ env.map Prod.fst := by
  rcases FRel_mem_right env a b h.1 with h2 | h2
  · exact h2 ▸ ha
  · exact h2

theorem tournament_edge (env : List (Dot × Vertex)) (hc : QCtx env) (a b : Dot)
    (ha : a ∈ env.map Prod.fst) (hb : b ∈ env.map Prod.fst) (hne : a ≠ b) :
    qstep (qAll env) a b ∨ qstep (qAll env) b a := by
  obtain ⟨pa, hpa, hpa1⟩ := List.mem_map.mp ha
  obtain ⟨pb, hpb, hpb1⟩ := List.mem_map.mp hb
  have hla : lookupA env pa.1 = some pa.2 := by
    refine lookupA_mem_nodup env pa.1 pa.2 ?_ hc.nodup
    rcases pa with ⟨k, v⟩
    exact hpa
  have hlb : lookupA env pb.1 = some pb.2 := by
    refine lookupA_mem_nodup env pb.1 pb.2 ?_ hc.nodup
    rcases pb with ⟨k, v⟩
    exact hpb
  rcases hc.rel pa hpa pb hpb (by rw [hpa1, hpb1]; exact hne) with h | h
  · left
    rw [← hpa1, ← hpb1]
    exact (qstep_qAll_iff env pa.1 pb.1).mpr ⟨pa.2, hla, h, by rw [hlb]; rfl⟩
  · right
    rw [← hpa1, ← hpb1]
    exact (qstep_qAll_iff env pb.1 pa.1).mpr ⟨pb.2, hlb, h, by rw [hla]; rfl⟩

theorem FRel_forcing (env : List (Dot × Vertex)) (hc : QCtx env) (a b : Dot)
    (ha : a ∈ env.map Prod.fst) (hb : b ∈ env.map Prod.fst)
    (hns : ¬ sameB env a b) (h : FRel env a b) : qstep (qAll env) a b := by
  have hne : a ≠ b := fun he => hns (he ▸ sameB_refl env a)
  rcases tournament_edge env hc a b ha hb hne with h2 | h2
  · exact h2
  · exact absurd ⟨h, Relation.ReflTransGen.single h2⟩ hns

theorem execok_FRel (env : List (Dot × Vertex)) (E : List Dot) (he : ExecOK env E)
    (a c : Dot) (ha : a ∈ E) (h : FRel env a c) : c ∈ E := by
  induction h with
  | refl => exact ha
  | tail hab hbc ih => exact he.dep _ ih _ hbc

theorem sccOf_self (q : Queue) (d : Dot) : d ∈ q.sccOf d :=
  (sccOf_iff q d d).mpr ⟨Relation.ReflTransGen.refl, Relation.ReflTransGen.refl⟩

theorem sccOf_nodup (q : Queue) (d : Dot) : (q.sccOf d).Nodup :=
  (iterate_nodup q d _).filter _

theorem sccOf_qAll_mem (env : List (Dot × Vertex)) (d x : Dot) :
    x ∈ (qAll env).sccOf d ↔ sameB env d x :=
  sccOf_iff (qAll env) d x

/-! ## Queue states over an arrived/executed decomposition -/

theorem lookupA_isSome_of_mem {κ α : Type} [DecidableEq κ] (m : List (κ × α)) (k : κ)
    (h : k ∈ m.map Prod.fst) : (lookupA m k).isSome = true := by
  induction m with
  | nil => simp at h
  | cons p rest ih =>
    unfold lookupA
    by_cases hk : p.1 = k
    · rw [if_pos hk]
      rfl
    · rw [if_neg hk]
      rw [List.map_cons, List.mem_cons] at h
      rcases h with h2 | h2
      · exact absurd h2.symm hk
      · exact ih h2

theorem qidx_cond (env : List (Dot × Vertex)) (S E : List Dot) (q : Queue)
    (hs : QState env S E q) (x : Dot)
    (h : (lookupA q.vertexIndex x).isSome = true) :
    x ∈ S ∧ x ∉ E ∧ lookupA q.vertexIndex x = lookupA env x := by
  rw [hs.idx x] at h ⊢
  by_cases hx : x ∈ S ∧ x ∉ E
  · rw [if_pos hx]
    exact ⟨hx.1, hx.2, rfl⟩
  · rw [if_neg hx] at h
    simp at h

theorem deps_state_sub (env : List (Dot × Vertex)) (S E : List Dot) (q : Queue)
    (hcq : QCtx env) (hs : QState env S E q) (u e : Dot) (he : e ∈ q.deps u) :
    qstep (qAll env) u e ∧ e ∉ E := by
  unfold Queue.deps at he
  cases hl : lookupA q.vertexIndex u with
  | none =>
    rw [hl] at he
    simp at he
  | some v =>
    rw [hl] at he
    rw [List.mem_filter] at he
    have hcond := qidx_cond env S E q hs u (by rw [hl]; rfl)
    have henv : lookupA env u = some v := by rw [← hcond.2.2, hl]
    have hnotex : e ∉ q.executed := by
      have := he.2
      rw [Bool.not_eq_true'] at this
      simpa using this
    have heE : e ∉ E := fun hc => hnotex ((hs.exec_mem e).mpr hc)
    have heD : e ∈ env.map Prod.fst :=
      hcq.closed (u, v) (lookupA_eq_some_mem env u v henv) e he.1
    exact ⟨(qstep_qAll_iff env u e).mpr
      ⟨v, henv, he.1, lookupA_isSome_of_mem env e heD⟩, heE⟩

theorem deps_state_intro (env : List (Dot × Vertex)) (S E : List Dot) (q : Queue)
    (hs : QState env S E q) (c z : Dot) (hcS : c ∈ S ∧ c ∉ E)
    (hz : qstep (qAll env) c z) (hzE : z ∉ E) : z ∈ q.deps c := by
  obtain ⟨v, hv, hzc, -⟩ := (qstep_qAll_iff env c z).mp hz
  unfold Queue.deps
  rw [hs.idx c, if_pos hcS, hv, List.mem_filter]
  refine ⟨hzc, ?_⟩
  have : z ∉ q.executed := fun hc => hzE ((hs.exec_mem z).mp hc)
  simpa using this

theorem qstep_state (env : List (Dot × Vertex)) (S E : List Dot) (q : Queue)
    (hcq : QCtx env) (hs : QState env S E q) (a b : Dot) :
    qstep q a b ↔ ((a ∈ S ∧ a ∉ E) ∧ (b ∈ S ∧ b ∉ E) ∧ qstep (qAll env) a b) := by
  constructor
  · intro h
    have hacond := qidx_cond env S E q hs a (qstep_indexed_left q a b h)
    have hbcond := qidx_cond env S E q hs b h.2
    exact ⟨⟨hacond.1, hacond.2.1⟩, ⟨hbcond.1, hbcond.2.1⟩,
      (deps_state_sub env S E q hcq hs a b h.1).1⟩
  · rintro ⟨hA, hB, hq⟩
    refine ⟨deps_state_intro env S E q hs a b hA hq hB.2, ?_⟩
    rw [hs.idx b, if_pos hB]
    obtain ⟨v, -, -, hv⟩ := (qstep_qAll_iff env a b).mp hq
    exact hv

theorem FRel_of_qstate (env : List (Dot × Vertex)) (S E : List Dot) (q : Queue)
    (hcq : QCtx env) (hs : QState env S E q) (u v : Dot)
    (h : Relation.ReflTransGen (qstep q) u v) : FRel env u v := by
  induction h with
  | refl => exact Relation.ReflTransGen.refl
  | tail hab hbc ih => exact ih.tail ((qstep_state env S E q hcq hs _ _).mp hbc).2.2

theorem qreach_of_sameB (env : List (Dot × Vertex)) (S E : List Dot) (q : Queue)
    (hcq : QCtx env) (hs : QState env S E q) (u v : Dot)
    (hclass : ∀ w, sameB env u w → w ∈ S ∧ w ∉ E) (hsb : sameB env u v) :
    Relation.ReflTransGen (qstep q) u v := by
  have main : ∀ a, Relation.ReflTransGen (qstep (qAll env)) a v → FRel env v a →
      Relation.ReflTransGen (qstep q) a v := by
    intro a h
    induction h using Relation.ReflTransGen.head_induction_on with
    | refl => exact fun _ => Relation.ReflTransGen.refl
    | @head a2 c hac hcv ih =>
      intro hva
      have ha2v : FRel env a2 v := Relation.ReflTransGen.head hac hcv
      have hvc : FRel env v c := hva.tail hac
      have ha2 : a2 ∈ S ∧ a2 ∉ E :=
        hclass a2 ⟨FRel_trans env u v a2 hsb.1 hva, FRel_trans env a2 v u ha2v hsb.2⟩
      have hc : c ∈ S ∧ c ∉ E :=
        hclass c ⟨FRel_trans env u v c hsb.1 hvc, FRel_trans env c v u hcv hsb.2⟩
      exact Relation.ReflTransGen.head
        ((qstep_state env S E q hcq hs a2 c).mpr ⟨ha2, hc, hac⟩) (ih hvc)
  exact main u hsb.1 hsb.2

theorem sccOf_state (env : List (Dot × Vertex)) (S E : List Dot) (q : Queue)
    (hcq : QCtx env) (hs : QState env S E q) (d : Dot)
    (hd : d ∈ env.map Prod.fst)
    (hclass : ∀ w, sameB env d w → w ∈ S ∧ w ∉ E) (x : Dot) :
    x ∈ q.sccOf d ↔ (x ∈ env.map Prod.fst ∧ sameB env d x) := by
  rw [sccOf_iff]
  constructor
  · rintro ⟨h1, h2⟩
    have hsb : sameB env d x := ⟨FRel_of_qstate env S E q hcq hs d x h1,
      FRel_of_qstate env S E q hcq hs x d h2⟩
    exact ⟨sameB_mem env d x hd hsb, hsb⟩
  · rintro ⟨hxD, hsb⟩
    refine ⟨qreach_of_sameB env S E q hcq hs d x hclass hsb,
      qreach_of_sameB env S E q hcq hs x d ?_ (sameB_symm _ _ _ hsb)⟩
    intro w hw
    exact hclass w (sameB_trans env d x w hsb hw)

theorem scc_member_SE (env : List (Dot × Vertex)) (S E : List Dot) (q : Queue)
    (hs : QState env S E q) (d : Dot) (hdS : d ∈ S) (hdE : d ∉ E) (x : Dot)
    (hx : x ∈ q.sccOf d) : x ∈ S ∧ x ∉ E := by
  rcases ((sccOf_iff q d x).mp hx).1.cases_tail with h | ⟨c, -, hc⟩
  · exact h ▸ ⟨hdS, hdE⟩
  · have := qidx_cond env S E q hs x hc.2
    exact ⟨this.1, this.2.1⟩

theorem ready_class_in_scc (env : List (Dot × Vertex)) (S E : List Dot) (q : Queue)
    ( _hcq : QCtx env) (hs : QState env S E q) (hE : ExecOK env E) (d : Dot)
    (hdS : d ∈ S) (hdE : d ∉ E)
    (hready : q.readyScc (sortDots (q.sccOf d)) = true)
    (x : Dot) (hsb : sameB env d x) : x ∈ q.sccOf d := by
  suffices h : ∀ y, Relation.ReflTransGen (qstep (qAll env)) d y → FRel env y d →
      y ∈ q.sccOf d from h x hsb.1 hsb.2
  intro y hy
  induction hy with
  | refl => exact fun _ => sccOf_self q d
  | @tail c z hdc hcz ih =>
    intro hzd
    have hcd : FRel env c d := FRel_trans env c z d (Relation.ReflTransGen.single hcz) hzd
    have hcmem : c ∈ q.sccOf d := ih hcd
    have hcSE : c ∈ S ∧ c ∉ E := scc_member_SE env S E q hs d hdS hdE c hcmem
    have hz_notE : z ∉ E := fun hzE => hdE (execok_FRel env E hE z d hzE hzd)
    have hz_deps : z ∈ q.deps c := deps_state_intro env S E q hs c z hcSE hcz hz_notE
    have hmem := (readyScc_iff q _).mp hready c
      ((sortDots_perm _).mem_iff.mpr hcmem) z hz_deps
    exact (sortDots_perm _).mem_iff.mp hmem

theorem readyScc_iff_Ready (env : List (Dot × Vertex)) (S E : List Dot) (q : Queue)
    (hcq : QCtx env) (hs : QState env S E q) (hE : ExecOK env E) (d : Dot)
    (hd : d ∈ env.map Prod.fst) (hdS : d ∈ S) (hdE : d ∉ E) :
    q.readyScc (sortDots (q.sccOf d)) = true ↔ Ready env S E d := by
  constructor
  · intro hready
    constructor
    · intro u huD hsb
      exact scc_member_SE env S E q hs d hdS hdE u
        (ready_class_in_scc env S E q hcq hs hE d hdS hdE hready u hsb)
    · intro u hsb e hstep
      by_cases heE : e ∈ E
      · exact Or.inl heE
      · right
        have humem := ready_class_in_scc env S E q hcq hs hE d hdS hdE hready u hsb
        have huSE := scc_member_SE env S E q hs d hdS hdE u humem
        have he_deps : e ∈ q.deps u := deps_state_intro env S E q hs u e huSE hstep heE
        have hmem := (readyScc_iff q _).mp hready u
          ((sortDots_perm _).mem_iff.mpr humem) e he_deps
        have hescc := (sccOf_iff q d e).mp ((sortDots_perm _).mem_iff.mp hmem)
        exact ⟨FRel_of_qstate env S E q hcq hs d e hescc.1,
          FRel_of_qstate env S E q hcq hs e d hescc.2⟩
  · intro hready
    rw [readyScc_iff]
    intro u hu e he
    have hclass : ∀ w, sameB env d w → w ∈ S ∧ w ∉ E :=
      fun w hw => hready.1 w (sameB_mem env d w hd hw) hw
    have husb := (sccOf_state env S E q hcq hs d hd hclass u).mp
      ((sortDots_perm _).mem_iff.mp hu)
    obtain ⟨hstep, heE⟩ := deps_state_sub env S E q hcq hs u e he
    rcases hready.2 u husb.2 e hstep with h | h
    · exact absurd h heE
    · refine (sortDots_perm _).mem_iff.mpr ?_
      refine (sccOf_state env S E q hcq hs d hd hclass e).mpr ?_
      obtain ⟨v, -, -, hv⟩ := (qstep_qAll_iff env u e).mp hstep
      exact ⟨lookupA_isSome_mem env e hv, h⟩

/-! ## Release effects and the `find_scc` dichotomy -/

theorem lookupA_filter_block {κ α : Type} [DecidableEq κ] (m : List (κ × α))
    (b : List κ) (x : κ) :
    lookupA (m.filter (fun p => !b.contains p.1)) x =
      if x ∈ b then none else lookupA m x := by
  induction m with
  | nil =>
    simp only [List.filter_nil]
    by_cases hx : x ∈ b
    · rw [if_pos hx]
      rfl
    · rw [if_neg hx]
  | cons p rest ih =>
    obtain ⟨k2, w⟩ := p
    rw [List.filter_cons]
    by_cases hp : k2 ∈ b
    · have hc : (!b.contains (k2, w).1) = false := by simpa using hp
      rw [hc]
      simp only [Bool.false_eq_true, if_false]
      rw [ih]
      by_cases hx : x ∈ b
      · rw [if_pos hx, if_pos hx]
      · rw [if_neg hx, if_neg hx]
        show lookupA rest x = if k2 = x then some w else lookupA rest x
        rw [if_neg (show ¬ k2 = x from fun he => hx (he ▸ hp))]
    · have hc : (!b.contains (k2, w).1) = true := by simpa using hp
      rw [hc]
      simp only [if_true]
      by_cases hpx : k2 = x
      · subst hpx
        rw [if_neg hp]
        show (if k2 = k2 then some w
            else lookupA (rest.filter (fun p => !b.contains p.1)) k2) =
          (if k2 = k2 then some w else lookupA rest k2)
        rw [if_pos rfl, if_pos rfl]
      · have hL : lookupA ((k2, w) :: rest.filter (fun p => !b.contains p.1)) x =
            lookupA (rest.filter (fun p => !b.contains p.1)) x := by
          show (if k2 = x then some w
            else lookupA (rest.filter (fun p => !b.contains p.1)) x) = _
          rw [if_neg hpx]
        have hR : lookupA ((k2, w) :: rest) x = lookupA rest x := by
          show (if k2 = x then some w else lookupA rest x) = _
          rw [if_neg hpx]
        rw [hL, hR, ih]

theorem filter_length_lt {α : Type} (m : List α) (p : α → Bool) (a : α) (ha : a ∈ m)
    (hpa : p a = false) : (m.filter p).length < m.length := by
  induction m with
  | nil => simp at ha
  | cons x rest ih =>
    rw [List.filter_cons]
    rcases List.mem_cons.mp ha with h | h
    · subst h
      rw [hpa]
      simp only [Bool.false_eq_true, if_false]
      have := List.length_filter_le p rest
      simp only [List.length_cons]
      omega
    · by_cases hx : p x = true
      · rw [hx]
        simp only [if_true, List.length_cons]
        exact Nat.succ_lt_succ (ih h)
      · rw [Bool.not_eq_true] at hx
        rw [hx]
        simp only [Bool.false_eq_true, if_false, List.length_cons]
        exact Nat.lt_trans (ih h) (Nat.lt_succ_self _)

theorem filter_map_fst_nodup {κ α : Type} (m : List (κ × α)) (f : κ × α → Bool)
    (h : (m.map Prod.fst).Nodup) : ((m.filter f).map Prod.fst).Nodup :=
  ((List.filter_sublist m).map Prod.fst).nodup h

theorem findScc_spec (env : List (Dot × Vertex)) (S E : List Dot) (q : Queue)
    (hcq : QCtx env) (hs : QState env S E q) (hE : ExecOK env E) (d : Dot) :
    (q.findScc d = (q, []) ∧
      (d ∈ env.map Prod.fst → d ∈ S → d ∉ E → ¬ Ready env S E d)) ∨
    (d ∈ env.map Prod.fst ∧ d ∈ S ∧ d ∉ E ∧ Ready env S E d ∧
      q.findScc d = q.release (sortDots (q.sccOf d)) ∧
      (∀ x, x ∈ sortDots (q.sccOf d) ↔
        (x ∈ env.map Prod.fst ∧ sameB env d x))) := by
  cases hl : lookupA q.vertexIndex d with
  | none =>
    left
    constructor
    · unfold Queue.findScc
      rw [hl]
    · intro hd hdS hdE
      have : (lookupA q.vertexIndex d).isSome = true := by
        rw [hs.idx d, if_pos ⟨hdS, hdE⟩]
        exact lookupA_isSome_of_mem env d hd
      rw [hl] at this
      cases this
  | some v =>
    have hcond := qidx_cond env S E q hs d (by rw [hl]; rfl)
    have hd : d ∈ env.map Prod.fst := by
      refine lookupA_isSome_mem env d ?_
      rw [← hcond.2.2, hl]
      rfl
    have heq : q.findScc d =
        if q.readyScc (sortDots (q.sccOf d)) then q.release (sortDots (q.sccOf d))
        else (q, []) := by
      unfold Queue.findScc
      rw [hl]
    by_cases hready : q.readyScc (sortDots (q.sccOf d)) = true
    · right
      have hR : Ready env S E d :=
        (readyScc_iff_Ready env S E q hcq hs hE d hd hcond.1 hcond.2.1).mp hready
      have hclass : ∀ w, sameB env d w → w ∈ S ∧ w ∉ E :=
        fun w hw => hR.1 w (sameB_mem env d w hd hw) hw
      refine ⟨hd, hcond.1, hcond.2.1, hR, ?_, ?_⟩
      · rw [heq, if_pos hready]
      · intro x
        rw [(sortDots_perm _).mem_iff]
        exact sccOf_state env S E q hcq hs d hd hclass x
    · left
      refine ⟨?_, ?_⟩
      · rw [heq, if_neg hready]
      · intro hd2 hdS2 hdE2 hR
        exact hready
          ((readyScc_iff_Ready env S E q hcq hs hE d hd2 hdS2 hdE2).mpr hR)

theorem execok_extend (env : List (Dot × Vertex)) (S E : List Dot)
    (hE : ExecOK env E) (d : Dot) (hd : d ∈ env.map Prod.fst)
    (hR : Ready env S E d) (B : List Dot)
    (hB : ∀ x, x ∈ B ↔ (x ∈ env.map Prod.fst ∧ sameB env d x)) :
    ExecOK env (E ++ B) := by
  constructor
  · intro a ha
    rcases List.mem_append.mp ha with h | h
    · exact hE.sub a h
    · exact ((hB a).mp h).1
  · intro a ha b hb
    rcases List.mem_append.mp ha with h | h
    · exact List.mem_append_left _ (hE.dep a h b hb)
    · have hsb := ((hB a).mp h).2
      rcases hR.2 a hsb b hb with h2 | h2
      · exact List.mem_append_left _ h2
      · refine List.mem_append_right _ ((hB b).mpr ⟨?_, h2⟩)
        exact sameB_mem env d b hd h2
  · intro a ha b hbD hsb
    rcases List.mem_append.mp ha with h | h
    · exact List.mem_append_left _ (hE.blk a h b hbD hsb)
    · have hda := ((hB a).mp h).2
      exact List.mem_append_right _ ((hB b).mpr ⟨hbD, sameB_trans env d a b hda hsb⟩)

theorem blockseqcore_extend (env : List (Dot × Vertex)) (S : List Dot)
    (bs : List (List Dot)) ( _hcq : QCtx env) (hbs : BlockSeqCore env S bs)
    (d : Dot) (hd : d ∈ env.map Prod.fst) (hR : Ready env S bs.flatten d)
    (B : List Dot) (hBnodup : B.Nodup)
    (hB : ∀ x, x ∈ B ↔ (x ∈ env.map Prod.fst ∧ sameB env d x))
    (hBsorted : B = sortDots ((qAll env).sccOf d)) :
    BlockSeqCore env S (bs ++ [B]) ∧ (bs ++ [B]).flatten = bs.flatten ++ B := by
  have hflat : (bs ++ [B]).flatten = bs.flatten ++ B := by
    rw [List.flatten_append]
    simp
  have hdisj : ∀ x ∈ B, x ∉ bs.flatten := by
    intro x hx hx2
    have := ((hB x).mp hx).2
    exact ((hR.1 x ((hB x).mp hx).1 this).2) hx2
  refine ⟨⟨?_, ?_, ?_, ?_, ?_⟩, hflat⟩
  · intro b hb
    rcases List.mem_append.mp hb with h | h
    · exact hbs.blocks b h
    · rw [List.mem_singleton.mp h]
      exact ⟨d, hd, hBsorted⟩
  · rw [List.pairwise_append]
    refine ⟨hbs.chain, by simp, ?_⟩
    intro b1 hb1 b2 hb2 u hu v hv hFR
    rw [List.mem_singleton.mp hb2] at hv
    have huE : u ∈ bs.flatten := List.mem_flatten.mpr ⟨b1, hb1, hu⟩
    have hvE : v ∈ bs.flatten := execok_FRel env bs.flatten hbs.execok u v huE hFR
    exact hdisj v hv hvE
  · rw [hflat]
    refine hbs.nodup.append hBnodup ?_
    intro x hx hx2
    exact hdisj x hx2 hx
  · rw [hflat]
    exact execok_extend env S bs.flatten hbs.execok d hd hR B hB
  · rw [hflat]
    intro a ha
    rcases List.mem_append.mp ha with h | h
    · exact hbs.insS a h
    · exact (hR.1 a ((hB a).mp h).1 ((hB a).mp h).2).1

theorem release_spec (env : List (Dot × Vertex)) (S E : List Dot) (q : Queue)
    (hs : QState env S E q) (B : List Dot)
    (hBsub : ∀ x ∈ B, x ∈ S ∧ x ∉ E ∧ x ∈ env.map Prod.fst)
    (hBne : B ≠ []) :
    QState env S (E ++ B) (q.release B).1 ∧
    (q.release B).1.toExecute = q.toExecute ++ B.map (fun e =>
      (e, ((lookupA env e).map Vertex.cmd).getD { rifl := Rifl.mk 0 0, keys := [] })) ∧
    (q.release B).1.vertexIndex.length < q.vertexIndex.length ∧
    ∀ k0, (∀ p ∈ env, k0 ∈ p.2.cmd.keys) → k0 ∈ (q.release B).2 := by
  have hlook : ∀ x ∈ B, lookupA q.vertexIndex x = lookupA env x := by
    intro x hx
    rw [hs.idx x, if_pos ⟨(hBsub x hx).1, (hBsub x hx).2.1⟩]
  have hcmd : ∀ x ∈ B, q.vertexCmd x =
      ((lookupA env x).map Vertex.cmd).getD { rifl := Rifl.mk 0 0, keys := [] } := by
    intro x hx
    unfold Queue.vertexCmd
    rw [hlook x hx]
  refine ⟨⟨?_, ?_, ?_⟩, ?_, ?_, ?_⟩
  · intro x
    show x ∈ q.executed ++ B ↔ x ∈ E ++ B
    rw [List.mem_append, List.mem_append, hs.exec_mem x]
  · intro x
    show lookupA (q.vertexIndex.filter (fun p => !B.contains p.1)) x = _
    rw [lookupA_filter_block]
    by_cases hxB : x ∈ B
    · rw [if_pos hxB]
      rw [if_neg (fun hc => hc.2 (List.mem_append_right E hxB))]
    · rw [if_neg hxB, hs.idx x]
      by_cases hxc : x ∈ S ∧ x ∉ E
      · rw [if_pos hxc, if_pos ⟨hxc.1,
          fun hc => (List.mem_append.mp hc).elim hxc.2 hxB⟩]
      · rw [if_neg hxc, if_neg (fun hc => hxc ⟨hc.1, fun hE2 => hc.2
          (List.mem_append_left B hE2)⟩)]
  · show ((q.vertexIndex.filter (fun p => !B.contains p.1)).map Prod.fst).Nodup
    exact filter_map_fst_nodup _ _ hs.idx_nodup
  · show q.toExecute ++ B.map (fun e => (e, q.vertexCmd e)) = _
    rw [List.map_congr_left (fun e he => by rw [hcmd e he])]
  · obtain ⟨x0, hx0⟩ := List.exists_mem_of_ne_nil B hBne
    have hsome : (lookupA q.vertexIndex x0).isSome = true := by
      rw [hlook x0 hx0]
      exact lookupA_isSome_of_mem env x0 (hBsub x0 hx0).2.2
    cases hv : lookupA q.vertexIndex x0 with
    | none => rw [hv] at hsome; cases hsome
    | some v =>
      show (q.vertexIndex.filter (fun p => !B.contains p.1)).length < _
      refine filter_length_lt q.vertexIndex _ (x0, v) (lookupA_eq_some_mem _ _ _ hv) ?_
      simp [hx0]
  · intro k0 hkeys
    obtain ⟨x0, hx0⟩ := List.exists_mem_of_ne_nil B hBne
    show k0 ∈ (B.flatMap (fun e => (q.vertexCmd e).keys)).dedup
    rw [List.mem_dedup, List.mem_flatMap]
    refine ⟨x0, hx0, ?_⟩
    cases hv : lookupA env x0 with
    | none =>
      have := lookupA_isSome_of_mem env x0 (hBsub x0 hx0).2.2
      rw [hv] at this
      cases this
    | some v =>
      rw [hcmd x0 hx0, hv]
      exact hkeys (x0, v) (lookupA_eq_some_mem env x0 v hv)

/-! ## The `try_pending` cascade -/

theorem tryFind_cons_nil (q q2 : Queue) (d : Dot) (rest : List Dot)
    (h : q.findScc d = (q2, [])) :
    Queue.tryFind q (d :: rest) = Queue.tryFind q2 rest := by
  show (match q.findScc d with
    | (q3, []) => Queue.tryFind q3 rest
    | (q3, k :: ks) => (q3, some (k :: ks))) = Queue.tryFind q2 rest
  rw [h]

theorem tryFind_cons_release (q q2 : Queue) (d : Dot) (rest : List Dot) (k : Key)
    (ks : List Key) (h : q.findScc d = (q2, k :: ks)) :
    Queue.tryFind q (d :: rest) = (q2, some (k :: ks)) := by
  show (match q.findScc d with
    | (q3, []) => Queue.tryFind q3 rest
    | (q3, k2 :: ks2) => (q3, some (k2 :: ks2))) = (q2, some (k :: ks))
  rw [h]

theorem scanKeys_cons_none (q q2 : Queue) (key : Key) (rest : List Key)
    (h : Queue.tryFind q (q.pendingDots key) = (q2, none)) :
    Queue.scanKeys q (key :: rest) = Queue.scanKeys q2 rest := by
  show (match Queue.tryFind q (q.pendingDots key) with
    | (q3, some newKeys) => (q3, some (rest ++ newKeys))
    | (q3, none) => Queue.scanKeys q3 rest) = Queue.scanKeys q2 rest
  rw [h]

theorem scanKeys_cons_some (q q2 : Queue) (key : Key) (rest : List Key)
    (nk : List Key) (h : Queue.tryFind q (q.pendingDots key) = (q2, some nk)) :
    Queue.scanKeys q (key :: rest) = (q2, some (rest ++ nk)) := by
  show (match Queue.tryFind q (q.pendingDots key) with
    | (q3, some newKeys) => (q3, some (rest ++ newKeys))
    | (q3, none) => Queue.scanKeys q3 rest) = (q2, some (rest ++ nk))
  rw [h]

theorem tryFind_spec (q : Queue) (ds : List Dot)
    (h : ∀ d ∈ ds, (q.findScc d).2 = [] → q.findScc d = (q, [])) :
    (Queue.tryFind q ds = (q, none) ∧ ∀ d ∈ ds, q.findScc d = (q, [])) ∨
    (∃ d ∈ ds, ∃ q2 k ks, q.findScc d = (q2, k :: ks) ∧
      Queue.tryFind q ds = (q2, some (k :: ks))) := by
  induction ds with
  | nil =>
    left
    exact ⟨rfl, by simp⟩
  | cons d rest ih =>
    cases hf : q.findScc d with
    | mk q2 keys =>
      cases keys with
      | nil =>
        have hq2 : q.findScc d = (q, []) := h d (List.mem_cons_self _ _) (by rw [hf])
        have hred := tryFind_cons_nil q q d rest hq2
        rcases ih (fun d2 h2 => h d2 (List.mem_cons_of_mem _ h2)) with ⟨h1, h2⟩ | h1
        · left
          refine ⟨by rw [hred, h1], ?_⟩
          intro d3 h3
          rcases List.mem_cons.mp h3 with h4 | h4
          · exact h4 ▸ hq2
          · exact h2 d3 h4
        · right
          obtain ⟨d2, hd2, q3, k, ks, hfs, htf⟩ := h1
          exact ⟨d2, List.mem_cons_of_mem _ hd2, q3, k, ks, hfs, by rw [hred, htf]⟩
      | cons k ks =>
        right
        exact ⟨d, List.mem_cons_self _ _, q2, k, ks, hf,
          tryFind_cons_release q q2 d rest k ks hf⟩

theorem scanKeys_spec (q : Queue) (keys : List Key)
    (h : ∀ d, (q.findScc d).2 = [] → q.findScc d = (q, [])) :
    (Queue.scanKeys q keys = (q, none) ∧
      ∀ key ∈ keys, ∀ d ∈ q.pendingDots key, q.findScc d = (q, [])) ∨
    (∃ d q2 k ks keys2, q.findScc d = (q2, k :: ks) ∧
      Queue.scanKeys q keys = (q2, some keys2) ∧
      (∃ rest2, keys2 = rest2 ++ (k :: ks))) := by
  induction keys with
  | nil =>
    left
    exact ⟨rfl, by simp⟩
  | cons key rest ih =>
    rcases tryFind_spec q (q.pendingDots key) (fun d _ => h d) with ⟨htf, hall⟩ | h1
    · have hred := scanKeys_cons_none q q key rest htf
      rcases ih with ⟨h1, h2⟩ | h1
      · left
        refine ⟨by rw [hred, h1], ?_⟩
        intro key2 hk2 d hd
        rcases List.mem_cons.mp hk2 with h3 | h3
        · exact hall d (h3 ▸ hd)
        · exact h2 key2 h3 d hd
      · right
        obtain ⟨d, q2, k, ks, keys2, hfs, hsk, hrest⟩ := h1
        exact ⟨d, q2, k, ks, keys2, hfs, by rw [hred, hsk], hrest⟩
    · right
      obtain ⟨d, -, q2, k, ks, hfs, htf⟩ := h1
      exact ⟨d, q2, k, ks, rest ++ (k :: ks), hfs,
        scanKeys_cons_some q q2 key rest (k :: ks) htf, rest, rfl⟩

theorem pendingDots_mem (q : Queue) (key : Key) (d : Dot) (v : Vertex)
    (hv : lookupA q.vertexIndex d = some v) (hk : key ∈ v.cmd.keys) :
    d ∈ q.pendingDots key := by
  unfold Queue.pendingDots
  rw [(sortDots_perm _).mem_iff]
  refine List.mem_map.mpr ⟨(d, v), ?_, rfl⟩
  rw [List.mem_filter]
  exact ⟨lookupA_eq_some_mem _ _ _ hv, by simpa using hk⟩

theorem tryPendingGo_none (n : Nat) (q q2 : Queue) (keys : List Key)
    (h : Queue.scanKeys q keys = (q2, none)) :
    Queue.tryPendingGo (n + 1) q keys = q2 := by
  show (match Queue.scanKeys q keys with
    | (q3, none) => q3
    | (q3, some keys2) => Queue.tryPendingGo n q3 keys2) = q2
  rw [h]

theorem tryPendingGo_some (n : Nat) (q q2 : Queue) (keys keys2 : List Key)
    (h : Queue.scanKeys q keys = (q2, some keys2)) :
    Queue.tryPendingGo (n + 1) q keys = Queue.tryPendingGo n q2 keys2 := by
  show (match Queue.scanKeys q keys with
    | (q3, none) => q3
    | (q3, some keys3) => Queue.tryPendingGo n q3 keys3) = Queue.tryPendingGo n q2 keys2
  rw [h]

theorem blockExec_append_block (env : List (Dot × Vertex)) (bs : List (List Dot))
    (B : List Dot) :
    blockExec env (bs ++ [B]) = blockExec env bs ++ B.map (fun d =>
      (d, ((lookupA env d).map Vertex.cmd).getD { rifl := Rifl.mk 0 0, keys := [] })) := by
  unfold blockExec
  rw [List.flatten_append, List.map_append]
  simp

theorem cascade (env : List (Dot × Vertex)) (k0 : Key) (hcq : QCtx env)
    (hkeys : ∀ p ∈ env, k0 ∈ p.2.cmd.keys) (S : List Dot) (fuel : Nat) :
    ∀ q bs keys, BlockSeqCore env S bs → QState env S bs.flatten q →
    q.toExecute = blockExec env bs → k0 ∈ keys →
    q.vertexIndex.length < fuel →
    ∃ bs2, BlockSeq env S (bs ++ bs2) ∧
      QState env S (bs ++ bs2).flatten (Queue.tryPendingGo fuel q keys) ∧
      (Queue.tryPendingGo fuel q keys).toExecute = blockExec env (bs ++ bs2) := by
  induction fuel with
  | zero =>
    intro q bs keys _ _ _ _ h
    omega
  | succ n ih =>
    intro q bs keys hbs hqs htx hk0 hlen
    have hready_keys : ∀ d, d ∈ env.map Prod.fst → Ready env S bs.flatten d →
        (∀ x, x ∈ sortDots (q.sccOf d) ↔ (x ∈ env.map Prod.fst ∧ sameB env d x)) →
        (∀ x ∈ sortDots (q.sccOf d), x ∈ S ∧ x ∉ bs.flatten ∧ x ∈ env.map Prod.fst) ∧
        sortDots (q.sccOf d) ≠ [] ∧ k0 ∈ (q.release (sortDots (q.sccOf d))).2 := by
      intro d hd hR hiff
      have hBsub : ∀ x ∈ sortDots (q.sccOf d),
          x ∈ S ∧ x ∉ bs.flatten ∧ x ∈ env.map Prod.fst := by
        intro x hx
        have h4 := (hiff x).mp hx
        have h5 := hR.1 x h4.1 h4.2
        exact ⟨h5.1, h5.2, h4.1⟩
      have hBne : sortDots (q.sccOf d) ≠ [] :=
        List.ne_nil_of_mem ((hiff d).mpr ⟨hd, sameB_refl env d⟩)
      exact ⟨hBsub, hBne,
        (release_spec env S bs.flatten q hqs _ hBsub hBne).2.2.2 k0 hkeys⟩
    have hdich : ∀ d, (q.findScc d).2 = [] → q.findScc d = (q, []) := by
      intro d h2
      rcases findScc_spec env S bs.flatten q hcq hqs hbs.execok d with
        ⟨h3, -⟩ | ⟨hd, hdS, hdE, hR, heq, hiff⟩
      · exact h3
      · exfalso
        obtain ⟨-, -, hk0rel⟩ := hready_keys d hd hR hiff
        rw [heq] at h2
        rw [h2] at hk0rel
        simp at hk0rel
    by_cases hex : ∃ d, d ∈ env.map Prod.fst ∧ d ∈ S ∧ d ∉ bs.flatten ∧
        Ready env S bs.flatten d
    · rcases scanKeys_spec q keys hdich with ⟨hnone, hall⟩ | hrel2
      · exfalso
        obtain ⟨d, hd, hdS, hdE, hR⟩ := hex
        have hvsome : (lookupA q.vertexIndex d).isSome = true := by
          rw [hqs.idx d, if_pos ⟨hdS, hdE⟩]
          exact lookupA_isSome_of_mem env d hd
        cases hv : lookupA q.vertexIndex d with
        | none =>
          rw [hv] at hvsome
          cases hvsome
        | some v =>
          have hvenv : lookupA env d = some v := by
            have h6 := (qidx_cond env S bs.flatten q hqs d hvsome).2.2
            rw [← h6, hv]
          have hdp := pendingDots_mem q k0 d v hv
            (hkeys (d, v) (lookupA_eq_some_mem env d v hvenv))
          have hfd := hall k0 hk0 d hdp
          rcases findScc_spec env S bs.flatten q hcq hqs hbs.execok d with
            ⟨-, hnr⟩ | ⟨hd2, -, -, hR2, heq, hiff⟩
          · exact hnr hd hdS hdE hR
          · obtain ⟨-, -, hk0rel⟩ := hready_keys d hd2 hR2 hiff
            rw [heq] at hfd
            have h7 := congrArg Prod.snd hfd
            rw [h7] at hk0rel
            simp at hk0rel
      · obtain ⟨d, q2, k, ks, keys2, hfs, hsk, rest2, hkeys2⟩ := hrel2
        rcases findScc_spec env S bs.flatten q hcq hqs hbs.execok d with
          ⟨h3, -⟩ | ⟨hd, hdS, hdE, hR, heq, hiff⟩
        · rw [h3] at hfs
          have h4 := congrArg Prod.snd hfs
          simp at h4
        · obtain ⟨hBsub, hBne, hk0rel⟩ := hready_keys d hd hR hiff
          obtain ⟨hqs2, htx2, hlen2, -⟩ :=
            release_spec env S bs.flatten q hqs (sortDots (q.sccOf d)) hBsub hBne
          rw [heq] at hfs
          have hq2 : (q.release (sortDots (q.sccOf d))).1 = q2 := congrArg Prod.fst hfs
          have hkks : (q.release (sortDots (q.sccOf d))).2 = k :: ks :=
            congrArg Prod.snd hfs
          have hBnodup : (sortDots (q.sccOf d)).Nodup :=
            sortDots_nodup _ (sccOf_nodup q d)
          have hBsorted : sortDots (q.sccOf d) = sortDots ((qAll env).sccOf d) := by
            refine sortDots_eq_of_mem_iff _ _ (sccOf_nodup q d)
              (sccOf_nodup (qAll env) d) ?_
            intro x
            rw [sccOf_qAll_mem]
            constructor
            · intro hx
              exact ((hiff x).mp ((sortDots_perm _).mem_iff.mpr hx)).2
            · intro hx
              exact (sortDots_perm _).mem_iff.mp
                ((hiff x).mpr ⟨sameB_mem env d x hd hx, hx⟩)
          obtain ⟨hbs2, hflat2⟩ := blockseqcore_extend env S bs hcq hbs d hd hR
            (sortDots (q.sccOf d)) hBnodup hiff hBsorted
          rw [hq2] at hqs2 htx2 hlen2
          have hk02 : k0 ∈ keys2 := by
            rw [hkeys2]
            refine List.mem_append_right _ ?_
            rw [← hkks]
            exact hk0rel
          have hlen3 : q2.vertexIndex.length < n := by omega
          have hqs3 : QState env S (bs ++ [sortDots (q.sccOf d)]).flatten q2 := by
            rw [hflat2]
            exact hqs2
          have htx3 : q2.toExecute = blockExec env (bs ++ [sortDots (q.sccOf d)]) := by
            rw [blockExec_append_block, ← htx]
            exact htx2
          obtain ⟨bs3, hbs3, hqs4, htx4⟩ := ih q2 (bs ++ [sortDots (q.sccOf d)]) keys2
            hbs2 hqs3 htx3 hk02 hlen3
          refine ⟨[sortDots (q.sccOf d)] ++ bs3, ?_, ?_, ?_⟩
          · rw [← List.append_assoc]
            exact hbs3
          · rw [tryPendingGo_some n q q2 keys keys2 hsk, ← List.append_assoc]
            exact hqs4
          · rw [tryPendingGo_some n q q2 keys keys2 hsk, ← List.append_assoc]
            exact htx4
    · rcases scanKeys_spec q keys hdich with ⟨hnone, -⟩ | hrel2
      · refine ⟨[], ?_, ?_, ?_⟩
        · rw [List.append_nil]
          exact ⟨hbs, fun d hd hdS hdE hR => hex ⟨d, hd, hdS, hdE, hR⟩⟩
        · rw [List.append_nil, tryPendingGo_none n q q keys hnone]
          exact hqs
        · rw [List.append_nil, tryPendingGo_none n q q keys hnone]
          exact htx
      · exfalso
        obtain ⟨d, q2, k, ks, keys2, hfs, -, -⟩ := hrel2
        rcases findScc_spec env S bs.flatten q hcq hqs hbs.execok d with
          ⟨h3, -⟩ | ⟨hd, hdS, hdE, hR, -, -⟩
        · rw [h3] at hfs
          have h4 := congrArg Prod.snd hfs
          simp at h4
        · exact hex ⟨d, hd, hdS, hdE, hR⟩

theorem add_step (env : List (Dot × Vertex)) (k0 : Key) (hcq : QCtx env)
    (hkeys : ∀ p ∈ env, k0 ∈ p.2.cmd.keys) (S : List Dot) (q : Queue)
    (hinv : Inv env S q) (d : Dot) (cmd : QueueCmd) (clock : List (Nat × Nat))
    (henv : lookupA env d = some { dot := d, cmd := cmd, clock := clock })
    (hdS : d ∉ S) :
    ∃ q2, q.add d cmd clock = some q2 ∧ Inv env (d :: S) q2 := by
  obtain ⟨bs, hbs, hqs, htx⟩ := hinv
  have hd : d ∈ env.map Prod.fst := lookupA_isSome_mem env d (by rw [henv]; rfl)
  have hqd : lookupA q.vertexIndex d = none := by
    rw [hqs.idx d, if_neg (fun hc => hdS hc.1)]
  have hfresh : d ∉ q.vertexIndex.map Prod.fst := by
    intro hc
    have := lookupA_isSome_of_mem q.vertexIndex d hc
    rw [hqd] at this
    cases this
  have hdE : d ∉ bs.flatten := fun hc => hdS (hbs.core.insS d hc)
  have hqs1 : QState env (d :: S) bs.flatten
      { q with vertexIndex := insertA q.vertexIndex d ⟨d, cmd, clock⟩ } := by
    refine ⟨hqs.exec_mem, ?_, ?_⟩
    · intro x
      by_cases hx : x = d
      · subst hx
        show lookupA (insertA q.vertexIndex x ⟨x, cmd, clock⟩) x = _
        rw [lookupA_insertA_self, if_pos ⟨List.mem_cons_self _ _, hdE⟩, henv]
      · show lookupA (insertA q.vertexIndex d ⟨d, cmd, clock⟩) x = _
        rw [lookupA_insertA_ne _ _ _ _ hx, hqs.idx x]
        by_cases hc : x ∈ S ∧ x ∉ bs.flatten
        · rw [if_pos hc, if_pos ⟨List.mem_cons_of_mem _ hc.1, hc.2⟩]
        · rw [if_neg hc, if_neg (fun hc2 =>
            hc ⟨(List.mem_cons.mp hc2.1).resolve_left hx, hc2.2⟩)]
    · show ((insertA q.vertexIndex d ⟨d, cmd, clock⟩).map Prod.fst).Nodup
      rw [insertA_map_fst_fresh _ _ _ hfresh]
      refine hqs.idx_nodup.append (by simp) ?_
      intro x hx hx2
      rw [List.mem_singleton.mp hx2] at hx
      exact hfresh hx
  have hbs1 : BlockSeqCore env (d :: S) bs :=
    ⟨hbs.core.blocks, hbs.core.chain, hbs.core.nodup, hbs.core.execok,
     fun a ha => List.mem_cons_of_mem _ (hbs.core.insS a ha)⟩
  have haddeq : q.add d cmd clock =
      some ((({ q with vertexIndex := insertA q.vertexIndex d ⟨d, cmd, clock⟩ } : Queue).findScc d).1.tryPending (({ q with vertexIndex := insertA q.vertexIndex d ⟨d, cmd, clock⟩ } : Queue).findScc d).2) := by
    unfold Queue.add
    rw [hqd]
    simp only [Option.isSome_none, Bool.false_eq_true, if_false]
  rcases findScc_spec env (d :: S) bs.flatten
      { q with vertexIndex := insertA q.vertexIndex d ⟨d, cmd, clock⟩ }
      hcq hqs1 hbs1.execok d with ⟨hf0, hnr⟩ | ⟨-, -, -, hR, heq, hiff⟩
  · have haddval : q.add d cmd clock = some
        (({ q with vertexIndex := insertA q.vertexIndex d ⟨d, cmd, clock⟩ } :
          Queue).tryPending []) := by
      rw [haddeq, hf0]
    have htp : ({ q with vertexIndex := insertA q.vertexIndex d ⟨d, cmd, clock⟩ } : Queue).tryPending [] = { q with vertexIndex := insertA q.vertexIndex d ⟨d, cmd, clock⟩ } := by
      unfold Queue.tryPending
      exact tryPendingGo_none _ _ _ [] rfl
    refine ⟨_, by rw [haddval, htp], bs, ⟨hbs1, ?_⟩, hqs1, htx⟩
    intro d2 hd2 hd2S hd2E hR2
    by_cases hclass : sameB env d2 d
    · refine hnr hd (List.mem_cons_self _ _) hdE ?_
      constructor
      · intro u hu hsb
        exact hR2.1 u hu (sameB_trans env d2 d u hclass hsb)
      · intro u hsb e he
        rcases hR2.2 u (sameB_trans env d2 d u hclass hsb) e he with h | h
        · exact Or.inl h
        · exact Or.inr (sameB_trans env d d2 e (sameB_symm env d2 d hclass) h)
    · have hd2Sold : d2 ∈ S := (List.mem_cons.mp hd2S).resolve_left
        (fun he => hclass (he ▸ sameB_refl env d2))
      refine hbs.maxi d2 hd2 hd2Sold hd2E ?_
      constructor
      · intro u hu hsb
        have h5 := hR2.1 u hu hsb
        refine ⟨?_, h5.2⟩
        rcases List.mem_cons.mp h5.1 with he | he
        · exact absurd (he ▸ hsb : sameB env d2 d) hclass
        · exact he
      · exact hR2.2
  · obtain ⟨hBsub, hBne⟩ : (∀ x ∈ sortDots
        (({ q with vertexIndex := insertA q.vertexIndex d ⟨d, cmd, clock⟩ } :
          Queue).sccOf d),
        x ∈ (d :: S) ∧ x ∉ bs.flatten ∧ x ∈ env.map Prod.fst) ∧
        sortDots (({ q with vertexIndex := insertA q.vertexIndex d ⟨d, cmd, clock⟩ } :
          Queue).sccOf d) ≠ [] := by
      constructor
      · intro x hx
        have h4 := (hiff x).mp hx
        have h5 := hR.1 x h4.1 h4.2
        exact ⟨h5.1, h5.2, h4.1⟩
      · exact List.ne_nil_of_mem ((hiff d).mpr ⟨hd, sameB_refl env d⟩)
    obtain ⟨hqs2, htx2, hlen2, hk0rel⟩ := release_spec env (d :: S) bs.flatten
      { q with vertexIndex := insertA q.vertexIndex d ⟨d, cmd, clock⟩ } hqs1 _ hBsub hBne
    have hBnodup := sortDots_nodup _ (sccOf_nodup ({ q with vertexIndex := insertA q.vertexIndex d ⟨d, cmd, clock⟩ } : Queue) d)
    have hBsorted : sortDots (({ q with vertexIndex := insertA q.vertexIndex d ⟨d, cmd, clock⟩ } : Queue).sccOf d) = sortDots ((qAll env).sccOf d) := by
      refine sortDots_eq_of_mem_iff _ _ (sccOf_nodup _ d) (sccOf_nodup (qAll env) d) ?_
      intro x
      rw [sccOf_qAll_mem]
      constructor
      · intro hx
        exact ((hiff x).mp ((sortDots_perm _).mem_iff.mpr hx)).2
      · intro hx
        exact (sortDots_perm _).mem_iff.mp
          ((hiff x).mpr ⟨sameB_mem env d x hd hx, hx⟩)
    obtain ⟨hbs2, hflat2⟩ := blockseqcore_extend env (d :: S) bs hcq hbs1 d hd hR _
      hBnodup hiff hBsorted
    have hqs3 : QState env (d :: S) (bs ++ [sortDots (({ q with vertexIndex := insertA q.vertexIndex d ⟨d, cmd, clock⟩ } : Queue).sccOf d)]).flatten (({ q with vertexIndex := insertA q.vertexIndex d ⟨d, cmd, clock⟩ } : Queue).release (sortDots (({ q with vertexIndex := insertA q.vertexIndex d ⟨d, cmd, clock⟩ } : Queue).sccOf d))).1 := by
      rw [hflat2]
      exact hqs2
    have htx3 : (({ q with vertexIndex := insertA q.vertexIndex d ⟨d, cmd, clock⟩ } : Queue).release (sortDots (({ q with vertexIndex := insertA q.vertexIndex d ⟨d, cmd, clock⟩ } : Queue).sccOf d))).1.toExecute = blockExec env (bs ++ [sortDots (({ q with vertexIndex := insertA q.vertexIndex d ⟨d, cmd, clock⟩ } : Queue).sccOf d)]) := by
      rw [blockExec_append_block, ← htx]
      exact htx2
    obtain ⟨bs3, hbs3, hqs4, htx4⟩ := cascade env k0 hcq hkeys (d :: S)
      ((({ q with vertexIndex := insertA q.vertexIndex d ⟨d, cmd, clock⟩ } : Queue).release (sortDots (({ q with vertexIndex := insertA q.vertexIndex d ⟨d, cmd, clock⟩ } : Queue).sccOf d))).1.vertexIndex.length + 1)
      _ _ _ hbs2 hqs3 htx3 (hk0rel k0 hkeys) (Nat.lt_succ_self _)
    refine ⟨_, ?_, (bs ++ [sortDots (({ q with vertexIndex := insertA q.vertexIndex d ⟨d, cmd, clock⟩ } : Queue).sccOf d)]) ++ bs3,
      hbs3, hqs4, htx4⟩
    rw [haddeq, heq]
    rfl

theorem inv_base (env : List (Dot × Vertex)) (n : Nat) : Inv env [] (Queue.new n) := by
  refine ⟨[], ⟨⟨?_, ?_, ?_, ⟨?_, ?_, ?_⟩, ?_⟩, ?_⟩, ⟨?_, ?_, ?_⟩, rfl⟩
  · intro b hb
    simp at hb
  · simp
  · simp
  · intro a ha
    simp at ha
  · intro a ha
    simp at ha
  · intro a ha
    simp at ha
  · intro a ha
    simp at ha
  · intro d hd hdS hdE hR
    simp at hdS
  · intro x
    simp [Queue.new]
  · intro x
    have hn : ¬(x ∈ ([] : List Dot) ∧ x ∉ List.flatten ([] : List (List Dot))) := by
      intro hc
      simp at hc
    rw [if_neg hn]
    rfl
  · simp [Queue.new]

theorem addAll_inv (env : List (Dot × Vertex)) (k0 : Key) (hcq : QCtx env)
    (hkeys : ∀ p ∈ env, k0 ∈ p.2.cmd.keys) :
    ∀ (rest : List (Dot × QueueCmd × List (Nat × Nat))) (S : List Dot) (q : Queue),
    Inv env S q →
    (∀ p ∈ rest, lookupA env p.1 = some { dot := p.1, cmd := p.2.1, clock := p.2.2 }) →
    (∀ p ∈ rest, p.1 ∉ S) →
    (rest.map Prod.fst).Nodup →
    ∃ q2, Queue.addAll q rest = some q2 ∧
      ∃ S2, Inv env S2 q2 ∧ (∀ x, x ∈ S2 ↔ (x ∈ S ∨ x ∈ rest.map Prod.fst)) := by
  intro rest
  induction rest with
  | nil =>
    intro S q hinv _ _ _
    exact ⟨q, rfl, S, hinv, by simp⟩
  | cons p rest ih =>
    intro S q hinv henv hfresh hnodup
    obtain ⟨d, c, kk⟩ := p
    obtain ⟨q2, hadd, hinv2⟩ := add_step env k0 hcq hkeys S q hinv d c kk
      (henv (d, c, kk) (List.mem_cons_self _ _)) (hfresh (d, c, kk) (List.mem_cons_self _ _))
    have hred : Queue.addAll q ((d, c, kk) :: rest) = Queue.addAll q2 rest := by
      show (match q.add d c kk with
        | none => none
        | some q3 => Queue.addAll q3 rest) = Queue.addAll q2 rest
      rw [hadd]
    rw [List.map_cons, List.nodup_cons] at hnodup
    obtain ⟨q3, hq3, S2, hinv3, hS2⟩ := ih (d :: S) q2 hinv2
      (fun p2 hp2 => henv p2 (List.mem_cons_of_mem _ hp2))
      (fun p2 hp2 => by
        intro hc
        rcases List.mem_cons.mp hc with h | h
        · exact hnodup.1 (h ▸ List.mem_map.mpr ⟨p2, hp2, rfl⟩)
        · exact hfresh p2 (List.mem_cons_of_mem _ hp2) h)
      hnodup.2
    refine ⟨q3, by rw [hred, hq3], S2, hinv3, ?_⟩
    intro x
    rw [hS2 x, List.map_cons, List.mem_cons, List.mem_cons]
    tauto

theorem length_lt_of_ssub {α : Type} [DecidableEq α] (l1 l2 : List α) (h2 : l2.Nodup)
    (hsub : ∀ x ∈ l2, x ∈ l1) (a : α) (ha1 : a ∈ l1) (ha2 : a ∉ l2) :
    l2.length < l1.length := by
  have hsp : List.Subperm (a :: l2) l1 := by
    refine List.subperm_of_subset (List.nodup_cons.mpr ⟨ha2, h2⟩) ?_
    intro x hx
    rcases List.mem_cons.mp hx with h | h
    · exact h ▸ ha1
    · exact hsub x h
  have := hsp.length_le
  simp at this
  omega

theorem blockseq_complete (env : List (Dot × Vertex)) ( _hcq : QCtx env) (S : List Dot)
    (bs : List (List Dot)) (hbs : BlockSeq env S bs)
    (hSD : ∀ x, x ∈ S ↔ x ∈ env.map Prod.fst) :
    ∀ x ∈ env.map Prod.fst, x ∈ bs.flatten := by
  intro x0 hx0D
  by_contra hx0E
  have main : ∀ m d, d ∈ env.map Prod.fst → d ∉ bs.flatten →
      (((qAll env).reachable d).filter
        (fun e => !bs.flatten.contains e)).length ≤ m → False := by
    intro m
    induction m with
    | zero =>
      intro d hd hdE hm
      have hdf : d ∈ ((qAll env).reachable d).filter
          (fun e => !bs.flatten.contains e) := by
        rw [List.mem_filter]
        exact ⟨(reachable_iff _ d d).mpr Relation.ReflTransGen.refl, by simpa using hdE⟩
      have := List.length_pos_of_mem hdf
      omega
    | succ m ih =>
      intro d hd hdE hm
      by_cases hR : Ready env S bs.flatten d
      · exact hbs.maxi d hd ((hSD d).mpr hd) hdE hR
      · have hcase : ∃ u, sameB env d u ∧ ∃ e, qstep (qAll env) u e ∧
            e ∉ bs.flatten ∧ ¬ sameB env d e := by
          by_contra hno
          push_neg at hno
          apply hR
          constructor
          · intro u huD hsb
            refine ⟨(hSD u).mpr huD, ?_⟩
            intro huE
            exact hdE (hbs.core.execok.blk u huE d hd (sameB_symm env d u hsb))
          · intro u hsb e hstep
            by_cases heE : e ∈ bs.flatten
            · exact Or.inl heE
            · exact Or.inr (hno u hsb e hstep heE)
        obtain ⟨u, husb, e, hstep, heE, hesb⟩ := hcase
        have hfde : FRel env d e := husb.1.tail hstep
        have heD : e ∈ env.map Prod.fst := by
          obtain ⟨v, -, -, hv⟩ := (qstep_qAll_iff env u e).mp hstep
          exact lookupA_isSome_mem env e hv
        have hsubr : ∀ x ∈ ((qAll env).reachable e).filter
            (fun y => !bs.flatten.contains y),
            x ∈ ((qAll env).reachable d).filter (fun y => !bs.flatten.contains y) := by
          intro x hx
          rw [List.mem_filter] at hx ⊢
          exact ⟨(reachable_iff _ d x).mpr
            (hfde.trans ((reachable_iff _ e x).mp hx.1)), hx.2⟩
        have hdin : d ∈ ((qAll env).reachable d).filter
            (fun y => !bs.flatten.contains y) := by
          rw [List.mem_filter]
          exact ⟨(reachable_iff _ d d).mpr Relation.ReflTransGen.refl, by simpa using hdE⟩
        have hdout : d ∉ ((qAll env).reachable e).filter
            (fun y => !bs.flatten.contains y) := by
          intro hc
          rw [List.mem_filter] at hc
          exact hesb ⟨hfde, (reachable_iff _ e d).mp hc.1⟩
        have hlt := length_lt_of_ssub
          (((qAll env).reachable d).filter (fun y => !bs.flatten.contains y))
          (((qAll env).reachable e).filter (fun y => !bs.flatten.contains y))
          ((iterate_nodup _ e _).filter _) hsubr d hdin hdout
        exact ih e heD heE (by omega)
  exact main _ x0 hx0D hx0E (Nat.le_refl _)

theorem block_mem_char (env : List (Dot × Vertex)) (d : Dot) (u : Dot) :
    u ∈ sortDots ((qAll env).sccOf d) ↔ sameB env d u := by
  rw [(sortDots_perm _).mem_iff]
  exact sccOf_qAll_mem env d u

theorem blockseq_unique (env : List (Dot × Vertex)) (hcq : QCtx env) :
    ∀ (bs1 bs2 : List (List Dot)),
    (∀ b ∈ bs1, ∃ d, d ∈ env.map Prod.fst ∧ b = sortDots ((qAll env).sccOf d)) →
    bs1.Pairwise (fun b1 b2 => ∀ u ∈ b1, ∀ v ∈ b2, ¬ FRel env u v) →
    bs1.flatten.Nodup →
    (∀ b ∈ bs2, ∃ d, d ∈ env.map Prod.fst ∧ b = sortDots ((qAll env).sccOf d)) →
    bs2.Pairwise (fun b1 b2 => ∀ u ∈ b1, ∀ v ∈ b2, ¬ FRel env u v) →
    bs2.flatten.Nodup →
    (∀ x, x ∈ bs1.flatten ↔ x ∈ bs2.flatten) →
    bs1 = bs2 := by
  intro bs1
  induction bs1 with
  | nil =>
    intro bs2 _ _ _ hbl2 _ _ hmem
    cases bs2 with
    | nil => rfl
    | cons b2 t2 =>
      obtain ⟨d2, -, hb2⟩ := hbl2 b2 (List.mem_cons_self _ _)
      have hd2b : d2 ∈ b2 := by
        rw [hb2, block_mem_char]
        exact sameB_refl env d2
      have : d2 ∈ List.flatten ([] : List (List Dot)) :=
        (hmem d2).mpr (List.mem_flatten.mpr ⟨b2, List.mem_cons_self _ _, hd2b⟩)
      simp at this
  | cons b1 t1 ih =>
    intro bs2 hbl1 hch1 hnd1 hbl2 hch2 hnd2 hmem
    obtain ⟨d1, hd1, hb1⟩ := hbl1 b1 (List.mem_cons_self _ _)
    have hd1b : d1 ∈ b1 := by
      rw [hb1, block_mem_char]
      exact sameB_refl env d1
    cases bs2 with
    | nil =>
      have : d1 ∈ List.flatten ([] : List (List Dot)) :=
        (hmem d1).mp (List.mem_flatten.mpr ⟨b1, List.mem_cons_self _ _, hd1b⟩)
      simp at this
    | cons b2 t2 =>
      obtain ⟨d2, hd2, hb2⟩ := hbl2 b2 (List.mem_cons_self _ _)
      have hd2b : d2 ∈ b2 := by
        rw [hb2, block_mem_char]
        exact sameB_refl env d2
      rw [List.pairwise_cons] at hch1 hch2
      have hsame : sameB env d1 d2 := by
        by_contra hns
        have hne : d1 ≠ d2 := fun he => hns (he ▸ sameB_refl env d1)
        rcases tournament_edge env hcq d1 d2 hd1 hd2 hne with h | h
        · have hd2f1 : d2 ∈ (b1 :: t1).flatten :=
            (hmem d2).mpr (List.mem_flatten.mpr ⟨b2, List.mem_cons_self _ _, hd2b⟩)
          rw [List.flatten_cons, List.mem_append] at hd2f1
          rcases hd2f1 with h2 | h2
          · rw [hb1, block_mem_char] at h2
            exact hns h2
          · obtain ⟨bt, hbt, hd2bt⟩ := List.mem_flatten.mp h2
            exact hch1.1 bt hbt d1 hd1b d2 hd2bt (Relation.ReflTransGen.single h)
        · have hd1f2 : d1 ∈ (b2 :: t2).flatten :=
            (hmem d1).mp (List.mem_flatten.mpr ⟨b1, List.mem_cons_self _ _, hd1b⟩)
          rw [List.flatten_cons, List.mem_append] at hd1f2
          rcases hd1f2 with h2 | h2
          · rw [hb2, block_mem_char] at h2
            exact hns (sameB_symm env d2 d1 h2)
          · obtain ⟨bt, hbt, hd1bt⟩ := List.mem_flatten.mp h2
            exact hch2.1 bt hbt d2 hd2b d1 hd1bt (Relation.ReflTransGen.single h)
      have hb1b2 : b1 = b2 := by
        rw [hb1, hb2]
        refine sortDots_eq_of_mem_iff _ _ (sccOf_nodup _ _) (sccOf_nodup _ _) ?_
        intro x
        rw [sccOf_qAll_mem, sccOf_qAll_mem]
        constructor
        · intro hx
          exact sameB_trans env d2 d1 x (sameB_symm env d1 d2 hsame) hx
        · intro hx
          exact sameB_trans env d1 d2 x hsame hx
      subst hb1b2
      rw [List.flatten_cons] at hnd1 hnd2
      have hmem2 : ∀ x, x ∈ t1.flatten ↔ x ∈ t2.flatten := by
        intro x
        constructor
        · intro hx
          have hxb1 : x ∉ b1 := by
            intro hc
            exact (List.disjoint_of_nodup_append hnd1) hc hx
          have hx2 : x ∈ (b1 :: t2).flatten := by
            refine (hmem x).mp ?_
            rw [List.flatten_cons, List.mem_append]
            exact Or.inr hx
          rw [List.flatten_cons, List.mem_append] at hx2
          exact hx2.resolve_left hxb1
        · intro hx
          have hxb1 : x ∉ b1 := by
            intro hc
            exact (List.disjoint_of_nodup_append hnd2) hc hx
          have hx2 : x ∈ (b1 :: t1).flatten := by
            refine (hmem x).mpr ?_
            rw [List.flatten_cons, List.mem_append]
            exact Or.inr hx
          rw [List.flatten_cons, List.mem_append] at hx2
          exact hx2.resolve_left hxb1
      exact congrArg (b1 :: ·) (ih t2 (fun b hb => hbl1 b (List.mem_cons_of_mem _ hb))
        hch1.2 hnd1.of_append_right (fun b hb => hbl2 b (List.mem_cons_of_mem _ hb))
        hch2.2 hnd2.of_append_right hmem2)

/-! ## Permutation invariance: the run depends only on the lookup table -/

theorem envOf_map_fst (inputs : List (Dot × QueueCmd × List (Nat × Nat))) :
    (envOf inputs).map Prod.fst = inputs.map Prod.fst := by
  unfold envOf
  rw [List.map_map]
  rfl

theorem qstep_qAll_ext (env1 env2 : List (Dot × Vertex))
    (hl : ∀ x, lookupA env2 x = lookupA env1 x) (a b : Dot) :
    qstep (qAll env2) a b ↔ qstep (qAll env1) a b := by
  rw [qstep_qAll_iff, qstep_qAll_iff, hl a, hl b]

theorem FRel_ext (env1 env2 : List (Dot × Vertex))
    (hl : ∀ x, lookupA env2 x = lookupA env1 x) (u v : Dot) :
    FRel env2 u v ↔ FRel env1 u v := by
  constructor
  · intro h
    induction h with
    | refl => exact Relation.ReflTransGen.refl
    | tail hab hbc ih => exact ih.tail ((qstep_qAll_ext env1 env2 hl _ _).mp hbc)
  · intro h
    induction h with
    | refl => exact Relation.ReflTransGen.refl
    | tail hab hbc ih => exact ih.tail ((qstep_qAll_ext env1 env2 hl _ _).mpr hbc)

theorem sameB_ext (env1 env2 : List (Dot × Vertex))
    (hl : ∀ x, lookupA env2 x = lookupA env1 x) (u v : Dot) :
    sameB env2 u v ↔ sameB env1 u v := by
  unfold sameB
  rw [FRel_ext env1 env2 hl, FRel_ext env1 env2 hl]

theorem scc_sorted_ext (env1 env2 : List (Dot × Vertex))
    (hl : ∀ x, lookupA env2 x = lookupA env1 x) (d : Dot) :
    sortDots ((qAll env2).sccOf d) = sortDots ((qAll env1).sccOf d) := by
  refine sortDots_eq_of_mem_iff _ _ (sccOf_nodup _ _) (sccOf_nodup _ _) ?_
  intro x
  rw [sccOf_qAll_mem, sccOf_qAll_mem]
  exact sameB_ext env1 env2 hl d x

theorem blockExec_ext (env1 env2 : List (Dot × Vertex))
    (hl : ∀ x, lookupA env2 x = lookupA env1 x) (bs : List (List Dot)) :
    blockExec env2 bs = blockExec env1 bs := by
  unfold blockExec
  exact List.map_congr_left (fun d _ => by rw [hl d])

theorem blockExec_map_fst (env : List (Dot × Vertex)) (bs : List (List Dot)) :
    (blockExec env bs).map Prod.fst = bs.flatten := by
  unfold blockExec
  rw [List.map_map]
  exact List.map_id _

/-- C1 (amended): feed a fresh queue a set of committed `(dot, cmd, clock)`
tuples with distinct dots, dependency-closed clocks, every pair of dots
dependency-related (the tournament that the queue test generator
`random_adds` enforces with "make sure at least one is a dependency of the
other"), and a key `k0` every command touches (the queue tests put every
command on the single key `"black"`).  Then the run panics on nothing, any
two arrival orders release exactly the same sequence, and that sequence is
a topological order of the dependency graph after contracting SCCs: a
concatenation of full SCCs, each contiguous and in Dot-ascending order,
with no released dot transitively depending on a dot of a later block.  The
original claim's arrival-order independence is false without the pairwise
relatedness (see the C1 counterexample). -/
theorem c1_queue_release_canonical (n : Nat) (k0 : Key)
    (inputs inputs2 : List (Dot × QueueCmd × List (Nat × Nat)))
    (hperm : inputs2.Perm inputs)
    (hnodup : (inputs.map Prod.fst).Nodup)
    (hclosed : ∀ p ∈ inputs, ∀ e ∈ clockDeps p.2.2, e ∈ inputs.map Prod.fst)
    (hrel : ∀ p ∈ inputs, ∀ r ∈ inputs, p.1 ≠ r.1 →
      r.1 ∈ clockDeps p.2.2 ∨ p.1 ∈ clockDeps r.2.2)
    (hkey : ∀ p ∈ inputs, k0 ∈ p.2.1.keys) :
    ∃ q q2, runQueue n inputs = some q ∧ runQueue n inputs2 = some q2 ∧
      q2.toExecute = q.toExecute ∧
      ∃ bs : List (List Dot),
        q.toExecute = blockExec (envOf inputs) bs ∧
        q.toExecute.map Prod.fst = bs.flatten ∧
        bs.flatten.Perm (inputs.map Prod.fst) ∧
        (∀ b ∈ bs, b ≠ [] ∧ b.Pairwise dotLtP ∧
          (∀ u ∈ b, ∀ w, w ∈ b ↔ sameB (envOf inputs) u w)) ∧
        bs.Pairwise (fun b1 b2 => ∀ u ∈ b1, ∀ v ∈ b2, ¬ FRel (envOf inputs) u v) := by
  have hcq : QCtx (envOf inputs) := by
    refine ⟨?_, ?_, ?_, ?_⟩
    · rw [envOf_map_fst]
      exact hnodup
    · intro p hp
      obtain ⟨p0, hp0, rfl⟩ := List.mem_map.mp hp
      rfl
    · intro p hp e he
      obtain ⟨p0, hp0, rfl⟩ := List.mem_map.mp hp
      rw [envOf_map_fst]
      exact hclosed p0 hp0 e he
    · intro p hp r hr hne
      obtain ⟨p0, hp0, rfl⟩ := List.mem_map.mp hp
      obtain ⟨r0, hr0, rfl⟩ := List.mem_map.mp hr
      exact hrel p0 hp0 r0 hr0 hne
  have hkeysE : ∀ p ∈ envOf inputs, k0 ∈ p.2.cmd.keys := by
    intro p hp
    obtain ⟨p0, hp0, rfl⟩ := List.mem_map.mp hp
    exact hkey p0 hp0
  obtain ⟨q, hrun1, S1, hinv1, hS1⟩ := addAll_inv (envOf inputs) k0 hcq hkeysE inputs []
    (Queue.new n) (inv_base _ n) (fun p hp => lookupA_envOf inputs hnodup p hp)
    (by simp) hnodup
  obtain ⟨bs, hbs, hqs, htx⟩ := hinv1
  have hS1D : ∀ x, x ∈ S1 ↔ x ∈ (envOf inputs).map Prod.fst := by
    intro x
    rw [hS1 x, envOf_map_fst]
    simp
  have hflatD : ∀ x, x ∈ bs.flatten ↔ x ∈ (envOf inputs).map Prod.fst := by
    intro x
    constructor
    · exact hbs.core.execok.sub x
    · intro hx
      exact blockseq_complete _ hcq S1 bs hbs hS1D x hx
  have hpermD : bs.flatten.Perm (inputs.map Prod.fst) := by
    refine List.Subperm.antisymm ?_ ?_
    · refine List.subperm_of_subset hbs.core.nodup ?_
      intro x hx
      rw [← envOf_map_fst]
      exact (hflatD x).mp hx
    · refine List.subperm_of_subset hnodup ?_
      intro x hx
      exact (hflatD x).mpr (by rw [envOf_map_fst]; exact hx)
  have hpermEnv : (envOf inputs2).Perm (envOf inputs) := hperm.map _
  have hnodup2 : (inputs2.map Prod.fst).Nodup := ((hperm.map Prod.fst).nodup_iff).mpr hnodup
  have hnd2 : ((envOf inputs2).map Prod.fst).Nodup := by
    rw [envOf_map_fst]
    exact hnodup2
  have hl : ∀ x, lookupA (envOf inputs2) x = lookupA (envOf inputs) x :=
    fun x => lookupA_perm _ _ hpermEnv hnd2 x
  have hcq2 : QCtx (envOf inputs2) := by
    refine ⟨hnd2, ?_, ?_, ?_⟩
    · intro p hp
      obtain ⟨p0, hp0, rfl⟩ := List.mem_map.mp hp
      rfl
    · intro p hp e he
      obtain ⟨p0, hp0, rfl⟩ := List.mem_map.mp hp
      rw [envOf_map_fst]
      refine (hperm.map Prod.fst).mem_iff.mpr ?_
      exact hclosed p0 (hperm.mem_iff.mp hp0) e he
    · intro p hp r hr hne
      obtain ⟨p0, hp0, rfl⟩ := List.mem_map.mp hp
      obtain ⟨r0, hr0, rfl⟩ := List.mem_map.mp hr
      exact hrel p0 (hperm.mem_iff.mp hp0) r0 (hperm.mem_iff.mp hr0) hne
  have hkeysE2 : ∀ p ∈ envOf inputs2, k0 ∈ p.2.cmd.keys := by
    intro p hp
    obtain ⟨p0, hp0, rfl⟩ := List.mem_map.mp hp
    exact hkey p0 (hperm.mem_iff.mp hp0)
  obtain ⟨q2, hrun2, S2, hinv2, hS2⟩ := addAll_inv (envOf inputs2) k0 hcq2 hkeysE2
    inputs2 [] (Queue.new n) (inv_base _ n)
    (fun p hp => lookupA_envOf inputs2 hnodup2 p hp) (by simp) hnodup2
  obtain ⟨bs2, hbs2, hqs2, htx2⟩ := hinv2
  have hS2D : ∀ x, x ∈ S2 ↔ x ∈ (envOf inputs2).map Prod.fst := by
    intro x
    rw [hS2 x, envOf_map_fst]
    simp
  have hflatD2 : ∀ x, x ∈ bs2.flatten ↔ x ∈ (envOf inputs2).map Prod.fst := by
    intro x
    constructor
    · exact hbs2.core.execok.sub x
    · intro hx
      exact blockseq_complete _ hcq2 S2 bs2 hbs2 hS2D x hx
  have hbl2t : ∀ b ∈ bs2, ∃ d, d ∈ (envOf inputs).map Prod.fst ∧
      b = sortDots ((qAll (envOf inputs)).sccOf d) := by
    intro b hb
    obtain ⟨d, hd, hbd⟩ := hbs2.core.blocks b hb
    refine ⟨d, ?_, ?_⟩
    · rw [envOf_map_fst]
      rw [envOf_map_fst] at hd
      exact (hperm.map Prod.fst).mem_iff.mp hd
    · rw [hbd]
      exact scc_sorted_ext _ _ hl d
  have hch2t : bs2.Pairwise
      (fun b1 b2 => ∀ u ∈ b1, ∀ v ∈ b2, ¬ FRel (envOf inputs) u v) := by
    refine hbs2.core.chain.imp ?_
    intro b1 b2 h u hu v hv hF
    exact h u hu v hv ((FRel_ext _ _ hl u v).mpr hF)
  have hmem12 : ∀ x, x ∈ bs.flatten ↔ x ∈ bs2.flatten := by
    intro x
    rw [hflatD x, hflatD2 x, envOf_map_fst, envOf_map_fst]
    exact ((hperm.map Prod.fst).mem_iff).symm
  have hbseq : bs = bs2 := blockseq_unique (envOf inputs) hcq bs bs2
    hbs.core.blocks hbs.core.chain hbs.core.nodup hbl2t hch2t hbs2.core.nodup hmem12
  have htxeq : q2.toExecute = q.toExecute := by
    rw [htx2, htx, ← hbseq, blockExec_ext _ _ hl]
  refine ⟨q, q2, hrun1, hrun2, htxeq, bs, htx, ?_, hpermD, ?_, hbs.core.chain⟩
  · rw [htx, blockExec_map_fst]
  · intro b hb
    obtain ⟨rep, hrep, hbrep⟩ := hbs.core.blocks b hb
    have hrepb : rep ∈ b := by
      rw [hbrep, block_mem_char]
      exact sameB_refl _ rep
    refine ⟨List.ne_nil_of_mem hrepb, ?_, ?_⟩
    · rw [hbrep]
      exact sortDots_pairwise _ (sccOf_nodup _ _)
    · intro u hu w
      have hru : sameB (envOf inputs) rep u := by
        rw [hbrep, block_mem_char] at hu
        exact hu
      rw [hbrep, block_mem_char]
      constructor
      · intro hw
        exact sameB_trans _ _ _ _ (sameB_symm _ _ _ hru) hw
      · intro hw
        exact sameB_trans _ _ _ _ hru hw

/-- C1 witness: the three-command scenario released identically under two
arrival orders. -/
theorem c1_queue_release_canonical_witness :
    ∃ q q2, runQueue 2 c1inputs = some q ∧ runQueue 2 c1inputs2 = some q2 ∧
      q2.toExecute = q.toExecute ∧
      ∃ bs : List (List Dot),
        q.toExecute = blockExec (envOf c1inputs) bs ∧
        q.toExecute.map Prod.fst = bs.flatten ∧
        bs.flatten.Perm (c1inputs.map Prod.fst) ∧
        (∀ b ∈ bs, b ≠ [] ∧ b.Pairwise dotLtP ∧
          (∀ u ∈ b, ∀ w, w ∈ b ↔ sameB (envOf c1inputs) u w)) ∧
        bs.Pairwise (fun b1 b2 => ∀ u ∈ b1, ∀ v ∈ b2, ¬ FRel (envOf c1inputs) u v) :=
  c1_queue_release_canonical 2 "black" c1inputs c1inputs2 (by decide) (by decide)
    (by decide) (by decide) (by decide)

end Fantoch
